import Mathlib

/-! # backstage-hook: actions, policies, storage and the approval queue

A shallow embedding of the packages `actions`, `policies`, `sessions`, `storage`
and `ui` of `tcorp-bv/backstage-hook`, with the standard-library routines that
`Action.Hash` calls (`encoding/json`, `crypto/sha256`, `encoding/base64`) and the
part of `time` that the storage relies on.

A Go `string` is an arbitrary sequence of bytes, so it is modelled as a list of
bytes and not as a Lean `String` (which holds valid Unicode only).
-/

set_option autoImplicit false

namespace Backstage

/-- A byte, the element of a Go `string` or `[]byte`. -/
abbrev Byte := Fin 256

/-- A Go `string`: any finite sequence of bytes, valid UTF-8 or not. -/
abbrev GoString := List Byte

/-- The byte of a character of a source literal (all literals of the program are ASCII). -/
def byteOfChar (c : Char) : Byte := Fin.ofNat c.toNat

/-- The Go string of an ASCII source literal. -/
def lit (s : String) : GoString := s.toList.map byteOfChar

/-! ## Package `policies` -/

namespace policies

/-- The private struct `policy` (policy.go, lines 113-122). -/
structure policy where
  id : GoString
  name : GoString
  description : GoString
  shortcut : GoString
deriving DecidableEq, Repr

/-- The interface `Policy`; in this package its only dynamic type is `policy`. -/
abbrev Policy := policy

/-- The zero value `policy{}`. -/
def policy.zero : policy := ⟨[], [], [], []⟩

/-- Method `Id` of `policy`. -/
def policy.Id (p : policy) : GoString := p.id

/-- Method `Name` of `policy`. -/
def policy.Name (p : policy) : GoString := p.name

/-- Method `Description` of `policy`. -/
def policy.Description (p : policy) : GoString := p.description

/-- Method `Shortcut` of `policy`. -/
def policy.Shortcut (p : policy) : GoString := p.shortcut

/-- Package variable `allow`. -/
def allow : policy :=
  { id := lit "ALLOW", name := lit "Allow",
    description := lit "Allow the action once", shortcut := lit "a" }

/-- Package variable `allowAlways`. -/
def allowAlways : policy :=
  { id := lit "ALLOW_ALWAYS", name := lit "Always allow",
    description := lit "Always allow this action", shortcut := lit "s" }

/-- Package variable `deny`. -/
def deny : policy :=
  { id := lit "DENY", name := lit "Deny",
    description := lit "Deny this action this time", shortcut := lit "d" }

/-- Function `Allow`. -/
def Allow : Policy := allow

/-- Function `AllowAlways`. -/
def AllowAlways : Policy := allowAlways

/-- Function `Deny`. -/
def Deny : Policy := deny

/-- Function `All`: the slice `[]Policy{Allow(), AllowAlways(), Deny()}`. -/
def All : List Policy := [Allow, AllowAlways, Deny]

/-- The `for ... range` loop of `ShortcutValid` over the policies still to visit. -/
def ShortcutValid.loop (sc : GoString) : List Policy → Bool
  | [] => false
  | pol :: rest => if pol.Shortcut = sc then true else ShortcutValid.loop sc rest

/-- Function `ShortcutValid`. -/
def ShortcutValid (sc : GoString) : Bool := ShortcutValid.loop sc All

/-- The `for ... range` loop of `IdValid` over the policies still to visit. -/
def IdValid.loop (id : GoString) : List Policy → Bool
  | [] => false
  | pol :: rest => if pol.Id = id then true else IdValid.loop id rest

/-- Function `IdValid`. -/
def IdValid (id : GoString) : Bool := IdValid.loop id All

/-- A Go `error` made by `errors.New`: its message; `none` is the nil error. -/
abbrev GoError := Option GoString

/-- The `for ... range` loop of `ByShortcut` over the policies still to visit. -/
def ByShortcut.loop (sc : GoString) : List Policy → Policy × GoError
  | [] => (policy.zero, some (lit "policy with shortcut not found"))
  | p :: rest => if p.Shortcut = sc then (p, none) else ByShortcut.loop sc rest

/-- Function `ByShortcut`. -/
def ByShortcut (sc : GoString) : Policy × GoError := ByShortcut.loop sc All

/-- The `for ... range` loop of `ById` over the policies still to visit. -/
def ById.loop (id : GoString) : List Policy → Policy × GoError
  | [] => (policy.zero, some (lit "policy with id not found"))
  | pol :: rest => if pol.Id = id then (pol, none) else ById.loop id rest

/-- Function `ById`. -/
def ById (id : GoString) : Policy × GoError := ById.loop id All

end policies

/-! ## Standard library: `crypto/sha256`

The generic block function of `sha256block.go` and the padding of `checkSum`.
Words are `uint32`, kept as naturals reduced modulo `2 ^ 32`. -/

namespace sha256

/-- The round constants `_K`. -/
def _K : List Nat := [
    0x428a2f98, 0x71374491, 0xb5c0fbcf, 0xe9b5dba5, 0x3956c25b, 0x59f111f1, 0x923f82a4, 0xab1c5ed5,
    0xd807aa98, 0x12835b01, 0x243185be, 0x550c7dc3, 0x72be5d74, 0x80deb1fe, 0x9bdc06a7, 0xc19bf174,
    0xe49b69c1, 0xefbe4786, 0x0fc19dc6, 0x240ca1cc, 0x2de92c6f, 0x4a7484aa, 0x5cb0a9dc, 0x76f988da,
    0x983e5152, 0xa831c66d, 0xb00327c8, 0xbf597fc7, 0xc6e00bf3, 0xd5a79147, 0x06ca6351, 0x14292967,
    0x27b70a85, 0x2e1b2138, 0x4d2c6dfc, 0x53380d13, 0x650a7354, 0x766a0abb, 0x81c2c92e, 0x92722c85,
    0xa2bfe8a1, 0xa81a664b, 0xc24b8b70, 0xc76c51a3, 0xd192e819, 0xd6990624, 0xf40e3585, 0x106aa070,
    0x19a4c116, 0x1e376c08, 0x2748774c, 0x34b0bcb5, 0x391c0cb3, 0x4ed8aa4a, 0x5b9cca4f, 0x682e6ff3,
    0x748f82ee, 0x78a5636f, 0x84c87814, 0x8cc70208, 0x90befffa, 0xa4506ceb, 0xbef9a3f7, 0xc67178f2]

/-- The eight working words `a .. h` (also the chaining value `h0 .. h7`). -/
structure Regs where
  a : Nat
  b : Nat
  c : Nat
  d : Nat
  e : Nat
  f : Nat
  g : Nat
  h : Nat
deriving DecidableEq, Repr

/-- The initial chaining value `init0 .. init7` set by `Reset`. -/
def init : Regs :=
  ⟨0x6a09e667, 0xbb67ae85, 0x3c6ef372, 0xa54ff53a, 0x510e527f, 0x9b05688c, 0x1f83d9ab, 0x5be0cd19⟩

/-- Rotation to the right of a 32-bit word: `bits.RotateLeft32(x, -n)`. -/
def rotr (x n : Nat) : Nat := ((x >>> n) ||| (x <<< (32 - n))) % 2 ^ 32

/-- The byte `p[j]` as a number. -/
def byteAt (p : List Byte) (j : Nat) : Nat := (p.getD j 0).val

/-- The big-endian word `w[i]`, `i < 16`, read from the block. -/
def word (p : List Byte) (i : Nat) : Nat :=
  let j := i * 4
  byteAt p j <<< 24 ||| byteAt p (j + 1) <<< 16 ||| byteAt p (j + 2) <<< 8 ||| byteAt p (j + 3)

/-- One step `w[i] = t1 + w[i-7] + t2 + w[i-16]` of the message schedule, `16 ≤ i`. -/
def scheduleStep (w : List Nat) (i : Nat) : List Nat :=
  let v1 := w.getD (i - 2) 0
  let t1 := rotr v1 17 ^^^ rotr v1 19 ^^^ (v1 >>> 10)
  let v2 := w.getD (i - 15) 0
  let t2 := rotr v2 7 ^^^ rotr v2 18 ^^^ (v2 >>> 3)
  w ++ [(t1 + w.getD (i - 7) 0 + t2 + w.getD (i - 16) 0) % 2 ^ 32]

/-- The message schedule `w[0 .. 63]` of the block at the front of `p`. -/
def schedule (p : List Byte) : List Nat :=
  (List.range 48).foldl (fun w i => scheduleStep w (i + 16)) ((List.range 16).map (word p))

/-- One of the 64 rounds, with round constant `k` and schedule word `w`. -/
def round (r : Regs) (k w : Nat) : Regs :=
  let t1 := (r.h + (rotr r.e 6 ^^^ rotr r.e 11 ^^^ rotr r.e 25)
    + ((r.e &&& r.f) ^^^ ((2 ^ 32 - 1 - r.e) &&& r.g)) + k + w) % 2 ^ 32
  let t2 := ((rotr r.a 2 ^^^ rotr r.a 13 ^^^ rotr r.a 22)
    + ((r.a &&& r.b) ^^^ (r.a &&& r.c) ^^^ (r.b &&& r.c))) % 2 ^ 32
  ⟨(t1 + t2) % 2 ^ 32, r.a, r.b, r.c, (r.d + t1) % 2 ^ 32, r.e, r.f, r.g⟩

/-- The body of the loop of `blockGeneric`: the block at the front of `p` is absorbed. -/
def block (h : Regs) (p : List Byte) : Regs :=
  let w := schedule p
  let r := (List.range 64).foldl (fun r i => round r (_K.getD i 0) (w.getD i 0)) h
  ⟨(h.a + r.a) % 2 ^ 32, (h.b + r.b) % 2 ^ 32, (h.c + r.c) % 2 ^ 32, (h.d + r.d) % 2 ^ 32,
   (h.e + r.e) % 2 ^ 32, (h.f + r.f) % 2 ^ 32, (h.g + r.g) % 2 ^ 32, (h.h + r.h) % 2 ^ 32⟩

/-- The loop `for len(p) >= chunk` of `blockGeneric`; the first argument bounds the
number of iterations and `p.length` is always enough. -/
def blockGeneric : Nat → Regs → List Byte → Regs
  | 0, h, _ => h
  | n + 1, h, p => if 64 ≤ p.length then blockGeneric n (block h p) (p.drop 64) else h

/-- The four bytes of `binary.BigEndian.PutUint32`. -/
def putUint32 (v : Nat) : List Byte :=
  [Fin.ofNat (v >>> 24), Fin.ofNat (v >>> 16), Fin.ofNat (v >>> 8), Fin.ofNat v]

/-- The eight bytes of `binary.BigEndian.PutUint64`. -/
def putUint64 (v : Nat) : List Byte :=
  [Fin.ofNat (v >>> 56), Fin.ofNat (v >>> 48), Fin.ofNat (v >>> 40), Fin.ofNat (v >>> 32),
   Fin.ofNat (v >>> 24), Fin.ofNat (v >>> 16), Fin.ofNat (v >>> 8), Fin.ofNat v]

/-- The padding written by `checkSum`: a `0x80` byte and zero bytes up to 56 modulo 64. -/
def padding (len : Nat) : List Byte :=
  if len % 64 < 56 then (0x80 : Byte) :: List.replicate (56 - len % 64 - 1) 0
  else (0x80 : Byte) :: List.replicate (64 + 56 - len % 64 - 1) 0

/-- The SHA-256 digest of the bytes `msg` written to a hash: `checkSum`. -/
def checkSum (msg : List Byte) : List Byte :=
  let len := msg.length % 2 ^ 64
  let p := msg ++ padding len ++ putUint64 (len * 8 % 2 ^ 64)
  let h := blockGeneric p.length init p
  putUint32 h.a ++ putUint32 h.b ++ putUint32 h.c ++ putUint32 h.d ++
  putUint32 h.e ++ putUint32 h.f ++ putUint32 h.g ++ putUint32 h.h

/-- The state of a `hash.Hash` made by `sha256.New`: the bytes written to it so far. -/
structure digest where
  written : List Byte
deriving DecidableEq, Repr

/-- Function `sha256.New`: a hash to which nothing has been written. -/
def New : digest := ⟨[]⟩

/-- Method `Write`: the bytes are added to the running hash. -/
def digest.Write (d : digest) (p : List Byte) : digest := ⟨d.written ++ p⟩

/-- Method `Sum`: "Sum appends the current hash to b and returns the resulting
slice"; the bytes of `b` are not hashed. -/
def digest.Sum (d : digest) (b : List Byte) : List Byte := b ++ checkSum d.written

/-- Function `sha256.Sum256`: the digest of `data`. -/
def Sum256 (data : List Byte) : List Byte := checkSum data

end sha256

/-! ## Standard library: `encoding/base64` -/

namespace base64

/-- The alphabet `encodeStd` of `StdEncoding`. -/
def encodeStd : GoString :=
  lit "ABCDEFGHIJKLMNOPQRSTUVWXYZabcdefghijklmnopqrstuvwxyz0123456789+/"

/-- The character `enc.encode[v & 0x3F]`. -/
def encode (v : Nat) : Byte := encodeStd.getD (v &&& 0x3F) 0

/-- The padding character `StdPadding`. -/
def StdPadding : Byte := byteOfChar '='

/-- Method `EncodeToString` of `StdEncoding`: three bytes give four characters, and
a remainder of one or two bytes is padded with `=`. -/
def EncodeToString : List Byte → GoString
  | [] => []
  | [s0] =>
    let val := s0.val <<< 16
    [encode (val >>> 18), encode (val >>> 12), StdPadding, StdPadding]
  | [s0, s1] =>
    let val := s0.val <<< 16 ||| s1.val <<< 8
    [encode (val >>> 18), encode (val >>> 12), encode (val >>> 6), StdPadding]
  | s0 :: s1 :: s2 :: rest =>
    let val := s0.val <<< 16 ||| s1.val <<< 8 ||| s2.val
    encode (val >>> 18) :: encode (val >>> 12) :: encode (val >>> 6) :: encode val ::
      EncodeToString rest

end base64

/-! ## Standard library: `unicode/utf8` -/

namespace utf8

/-- The rune `RuneError`, U+FFFD. -/
def RuneError : Nat := 0xFFFD

/-- The table `first`: information about the first byte of a UTF-8 sequence. -/
def first (s0 : Nat) : Nat :=
  if s0 < 0x80 then 0xF0
  else if s0 < 0xC2 then 0xF1
  else if s0 < 0xE0 then 0x02
  else if s0 = 0xE0 then 0x13
  else if s0 < 0xED then 0x03
  else if s0 = 0xED then 0x23
  else if s0 < 0xF0 then 0x03
  else if s0 = 0xF0 then 0x34
  else if s0 < 0xF4 then 0x04
  else if s0 = 0xF4 then 0x44
  else 0xF1

/-- The table `acceptRanges`: the range `(lo, hi)` allowed for the second byte. -/
def acceptRanges (i : Nat) : Nat × Nat :=
  match i with
  | 0 => (0x80, 0xBF)
  | 1 => (0xA0, 0xBF)
  | 2 => (0x80, 0x9F)
  | 3 => (0x90, 0xBF)
  | 4 => (0x80, 0x8F)
  | _ => (0, 0)

/-- Function `DecodeRuneInString`: the first rune of `s` and its width in bytes;
`(RuneError, 1)` for an invalid encoding and `(RuneError, 0)` for the empty string. -/
def DecodeRuneInString (s : GoString) : Nat × Nat :=
  match s with
  | [] => (RuneError, 0)
  | s0 :: _ =>
    let x := first s0.val
    if 0xF0 ≤ x then
      (if x = 0xF0 then s0.val else RuneError, 1)
    else
      let sz := x &&& 7
      let accept := acceptRanges (x >>> 4)
      if s.length < sz then (RuneError, 1) else
      let s1 := (s.getD 1 0).val
      if s1 < accept.1 ∨ accept.2 < s1 then (RuneError, 1) else
      if sz ≤ 2 then ((s0.val &&& 0x1F) <<< 6 ||| (s1 &&& 0x3F), 2) else
      let s2 := (s.getD 2 0).val
      if s2 < 0x80 ∨ 0xBF < s2 then (RuneError, 1) else
      if sz ≤ 3 then ((s0.val &&& 0x0F) <<< 12 ||| (s1 &&& 0x3F) <<< 6 ||| (s2 &&& 0x3F), 3) else
      let s3 := (s.getD 3 0).val
      if s3 < 0x80 ∨ 0xBF < s3 then (RuneError, 1) else
      ((s0.val &&& 0x07) <<< 18 ||| (s1 &&& 0x3F) <<< 12 ||| (s2 &&& 0x3F) <<< 6 ||| (s3 &&& 0x3F), 4)

end utf8

/-! ## Standard library: `encoding/json`

The string encoder `appendString` as `json.Marshal` calls it, that is with
`escapeHTML` set. The escapes of the backspace and of the form feed are those of
Go 1.22 and later (earlier versions write them with `u0008` and `u000c`); no
theorem below depends on them. -/

namespace json

/-- The digits `hex`. -/
def hex : GoString := lit "0123456789abcdef"

/-- The table `htmlSafeSet` on a byte below `utf8.RuneSelf`: the byte is written as it is. -/
def htmlSafeSet (b : Byte) : Bool :=
  decide (0x20 ≤ b.val) && b != byteOfChar '"' && b != byteOfChar '\\' &&
    b != byteOfChar '<' && b != byteOfChar '>' && b != byteOfChar '&'

/-- The `switch b` of `appendString`: the escape of a byte that is not safe. -/
def escapeByte (b : Byte) : GoString :=
  if b = byteOfChar '\\' ∨ b = byteOfChar '"' then [byteOfChar '\\', b]
  else if b.val = 0x08 then lit "\\b"
  else if b.val = 0x0C then lit "\\f"
  else if b.val = 0x0A then lit "\\n"
  else if b.val = 0x0D then lit "\\r"
  else if b.val = 0x09 then lit "\\t"
  else lit "\\u00" ++ [hex.getD (b.val >>> 4) 0, hex.getD (b.val &&& 0xF) 0]

/-- The loop of `appendString` on the bytes of `src` still to encode; the first
argument bounds the number of iterations and `src.length` is always enough. -/
def appendString.loop : Nat → GoString → GoString
  | 0, _ => []
  | _, [] => []
  | n + 1, b :: rest =>
    if b.val < 0x80 then
      if htmlSafeSet b then b :: appendString.loop n rest
      else escapeByte b ++ appendString.loop n rest
    else
      let cs := utf8.DecodeRuneInString (b :: rest)
      if cs.1 = utf8.RuneError ∧ cs.2 = 1 then
        lit "\\ufffd" ++ appendString.loop n rest
      else if cs.1 = 0x2028 ∨ cs.1 = 0x2029 then
        lit "\\u202" ++ [hex.getD (cs.1 &&& 0xF) 0] ++ appendString.loop n ((b :: rest).drop cs.2)
      else
        (b :: rest).take cs.2 ++ appendString.loop n ((b :: rest).drop cs.2)

/-- Function `appendString` with `escapeHTML` set: the JSON string of `src`, where
each invalid UTF-8 byte is replaced by the escape of U+FFFD. -/
def appendString (src : GoString) : GoString :=
  [byteOfChar '"'] ++ appendString.loop src.length src ++ [byteOfChar '"']

/-- The encoder of a `[]string` that is not empty: the elements between brackets,
separated by commas. -/
def encodeSlice : List GoString → GoString
  | [] => []
  | [s] => appendString s
  | s :: rest => appendString s ++ lit "," ++ encodeSlice rest

end json

/-! ## Package `actions` -/

namespace actions

/-- The struct `Command`; `Args` is `none` for the nil slice. -/
structure Command where
  Name : GoString
  Args : Option (List GoString)
deriving DecidableEq, Repr

/-- The struct `Action`. -/
structure Action where
  Command : Command
  Plugin : GoString
deriving DecidableEq, Repr

/-- The length `len(c.Args)`, which is 0 for the nil slice. -/
def Command.lenArgs (c : Command) : Nat :=
  match c.Args with
  | none => 0
  | some l => l.length

/-- The elements of `c.Args`, none for the nil slice. -/
def Command.elems (c : Command) : List GoString :=
  match c.Args with
  | none => []
  | some l => l

end actions

/-- The encoder of the struct `Command`: field `name`, then field `args`, which
the tag `omitempty` leaves out when the slice has length 0, nil or not. -/
def json.marshalCommand (c : actions.Command) : GoString :=
  lit "\x7b\"name\":" ++ json.appendString c.Name ++
    (if c.lenArgs = 0 then [] else lit ",\"args\":[" ++ json.encodeSlice c.elems ++ lit "]") ++
    lit "\x7d"

/-- Function `json.Marshal` on an `Action`: field `command`, then field `plugin`.
Its error is nil on every action (the fields are strings and a slice of
strings), so that the `panic` of `Hash` is never reached. -/
def json.Marshal (a : actions.Action) : GoString :=
  lit "\x7b\"command\":" ++ json.marshalCommand a.Command ++ lit ",\"plugin\":" ++
    json.appendString a.Plugin ++ lit "\x7d"

namespace actions

/-- Method `Hash` of `Action` (action.go, lines 59-66). -/
def Action.Hash (a : Action) : GoString :=
  let bytes := json.Marshal a
  let hash := sha256.New
  base64.EncodeToString (hash.Sum bytes)

/-- An action whose plugin is the one-byte string "\xff", which is not valid UTF-8. -/
def collidingA : Action := ⟨⟨lit "run", none⟩, [0xff]⟩

/-- The action `collidingA` with the plugin "\xfe", not valid UTF-8 either. -/
def collidingB : Action := ⟨⟨lit "run", none⟩, [0xfe]⟩

/-- The action of `TestCollisionArgs`. -/
def testAction : Action := ⟨⟨lit "name", none⟩, lit "test"⟩

/-- The action `testAction` with one more character in its plugin. -/
def testsAction : Action := ⟨⟨lit "name", none⟩, lit "tests"⟩

end actions

/-! ## Standard library: `time` -/

namespace time

/-- One of the locations a `Time` can point to. -/
inductive Location where
  | localLoc
  | utcLoc
deriving DecidableEq, Repr

/-- The struct `time.Time`: the fields `wall` and `ext` and the pointer `loc`, `none`
for the nil pointer. Go compares two `Time` values with `==` field by field. -/
structure Time where
  wall : Nat
  ext : Int
  loc : Option Location
deriving DecidableEq, Repr

/-- The zero value `time.Time{}`. -/
def Time.zero : Time := ⟨0, 0, none⟩

/-- What the system clock gives to `time.Now`: the values of `wall` and `ext`. -/
structure Reading where
  wall : Nat
  ext : Int
deriving DecidableEq, Repr

/-- Function `time.Now`: it returns `Time{wall, ext, Local}` on every reading of the
clock, a value whose pointer `loc` is never nil. -/
def Now (r : Reading) : Time := ⟨r.wall, r.ext, some Location.localLoc⟩

end time

/-! ## Package `sessions` -/

namespace sessions

/-- The private struct `session`, the only dynamic type of the interface `Session`
in this package. -/
structure session where
  id : GoString
  secret : GoString
deriving DecidableEq, Repr

/-- Method `Id` of `session`. -/
def session.Id (s : session) : GoString := s.id

/-- Method `Secret` of `session`. -/
def session.Secret (s : session) : GoString := s.secret

/-- Function `New` of package `sessions`. -/
def New (id secret : GoString) : session := { id := id, secret := secret }

end sessions

/-! ## Package `storage`

The mutex of the in-memory storages is left out: `Store` and `Get` hold it from
their first to their last statement, so each of them is one step on the map. -/

namespace storage

/-- The struct `StoredPolicy` (policies.go, lines 39-44). -/
structure StoredPolicy where
  PolicyId : GoString
  Timestamp : time.Time
deriving DecidableEq, Repr

/-- The zero value `StoredPolicy{}`. -/
def StoredPolicy.zero : StoredPolicy := ⟨[], time.Time.zero⟩

/-- Modelled from the spec: the struct `StoredSession`, declared in a file that is
not among the sources (the spec: a session is "persisted as {secret, created:
timestamp} keyed by id"); storage.go and the tests build it with the fields
`Secret` and `Created`, in that order. -/
structure StoredSession where
  Secret : GoString
  Created : time.Time
deriving DecidableEq, Repr

/-- The zero value `StoredSession{}`. -/
def StoredSession.zero : StoredSession := ⟨[], time.Time.zero⟩

/-- The interface `Policies` (policies.go, lines 30-36) on a backend whose state has
type `σ`: `Store` changes the state, `Get` reads it. -/
structure Policies (σ : Type) where
  Store : σ → GoString → StoredPolicy → σ
  Get : σ → GoString → StoredPolicy × Bool

/-- Modelled from the spec: the interface `Sessions`, declared in a file that is not
among the sources; memory_storage.go implements it with the methods `Store` and
`Get`, of the same shape as those of `Policies`. -/
structure Sessions (σ : Type) where
  Store : σ → GoString → StoredSession → σ
  Get : σ → GoString → StoredSession × Bool

/-- The struct `memoryPolicyStorage`: the Go map `storage`, as the partial function
from keys to the values it holds. -/
structure memoryPolicyStorage where
  storage : GoString → Option StoredPolicy

/-- The struct `memorySessionStorage`. -/
structure memorySessionStorage where
  storage : GoString → Option StoredSession

/-- Method `Store` of `memoryPolicyStorage`: the empty value deletes the key, any
other value is assigned to it. -/
def memoryPolicyStorage.Store (m : memoryPolicyStorage) (key : GoString)
    (value : StoredPolicy) : memoryPolicyStorage :=
  if value = StoredPolicy.zero then
    ⟨fun k => if k = key then none else m.storage k⟩
  else
    ⟨fun k => if k = key then some value else m.storage k⟩

/-- Method `Get` of `memoryPolicyStorage`: the two results of `m.storage[key]`, the
zero value and `false` for a key that is not in the map. -/
def memoryPolicyStorage.Get (m : memoryPolicyStorage) (key : GoString) :
    StoredPolicy × Bool :=
  match m.storage key with
  | some value => (value, true)
  | none => (StoredPolicy.zero, false)

/-- Method `Store` of `memorySessionStorage`. -/
def memorySessionStorage.Store (m : memorySessionStorage) (key : GoString)
    (value : StoredSession) : memorySessionStorage :=
  if value = StoredSession.zero then
    ⟨fun k => if k = key then none else m.storage k⟩
  else
    ⟨fun k => if k = key then some value else m.storage k⟩

/-- Method `Get` of `memorySessionStorage`. -/
def memorySessionStorage.Get (m : memorySessionStorage) (key : GoString) :
    StoredSession × Bool :=
  match m.storage key with
  | some value => (value, true)
  | none => (StoredSession.zero, false)

/-- Function `NewMemoryPolicyStorage`: the empty map. -/
def NewMemoryPolicyStorage : memoryPolicyStorage := ⟨fun _ => none⟩

/-- Function `NewMemorySessionStorage`: the empty map. -/
def NewMemorySessionStorage : memorySessionStorage := ⟨fun _ => none⟩

/-- The in-memory policy storage as an implementation of `Policies`. -/
def memoryPolicies : Policies memoryPolicyStorage :=
  { Store := memoryPolicyStorage.Store, Get := memoryPolicyStorage.Get }

/-- The in-memory session storage as an implementation of `Sessions`. -/
def memorySessions : Sessions memorySessionStorage :=
  { Store := memorySessionStorage.Store, Get := memorySessionStorage.Get }

/-- Method `Policy` of `store` (storage.go, lines 74-81) on the backend `P` in state
`s`; the first result is `none` for the nil interface. -/
def store.Policy {σ : Type} (P : Policies σ) (s : σ) (a : actions.Action) :
    Option policies.Policy × Bool :=
  let (val, ok) := P.Get s a.Hash
  if !ok || decide (val = StoredPolicy.zero) || !policies.IdValid val.PolicyId then
    (none, false)
  else
    let (p, _) := policies.ById val.PolicyId
    (some p, true)

/-- Method `SetPolicy` of `store` (storage.go, lines 83-89); `pol` is `none` for the
nil interface and `now` is what the clock reads when `time.Now` is called. -/
def store.SetPolicy {σ : Type} (P : Policies σ) (s : σ) (a : actions.Action)
    (pol : Option policies.Policy) (now : time.Reading) : σ :=
  match pol with
  | none => P.Store s a.Hash StoredPolicy.zero
  | some pol => P.Store s a.Hash { PolicyId := pol.Id, Timestamp := time.Now now }

/-- Method `Session` of `store` (storage.go, lines 91-97). -/
def store.Session {σ : Type} (S : Sessions σ) (s : σ) (id : GoString) :
    Option sessions.session × Bool :=
  let (val, ok) := S.Get s id
  if !ok || decide (val = StoredSession.zero) then
    (none, false)
  else
    (some (sessions.New id val.Secret), true)

/-- Method `SetSession` of `store` (storage.go, lines 99-104); the result is `none`
when the method panics, which it does on the nil session. -/
def store.SetSession {σ : Type} (S : Sessions σ) (s : σ) (session : Option sessions.session)
    (now : time.Reading) : Option σ :=
  match session with
  | none => none
  | some session =>
    some (S.Store s session.Id { Secret := session.Secret, Created := time.Now now })

/-- Method `DeleteSession` of `store` (storage.go, lines 106-108). -/
def store.DeleteSession {σ : Type} (S : Sessions σ) (s : σ) (id : GoString) : σ :=
  S.Store s id StoredSession.zero

/-- A record of the policy storage, as `TestPolicyDeletion` stores one. -/
def examplePolicyRecord : StoredPolicy := ⟨lit "ALLOW", time.Now ⟨5, 7⟩⟩

/-- Another record of the policy storage. -/
def oldPolicyRecord : StoredPolicy := ⟨lit "DENY", time.Now ⟨1, 2⟩⟩

/-- A record of the session storage, as `TestSessionDeletion` stores one. -/
def exampleSessionRecord : StoredSession := ⟨lit "somesecret", time.Now ⟨5, 7⟩⟩

/-- A backend that answers every `Get` with a record of unknown identifier. -/
def corruptedBackend : Policies Unit :=
  { Store := fun _ _ _ => (), Get := fun _ _ => (⟨lit "allow", time.Now ⟨5, 7⟩⟩, true) }

end storage

/-! ## Package `ui`

The approval queue of `cliUI`. What the methods write to the terminal is left
out; what they do to the queue, to the files of the requests, to the response
channels and to the process is kept. A step of the model is one call of `Handle`
or one input read by a waiting `handlePrompt`, run from its first to its last
statement. -/

namespace ui

/-- A channel `chan policies.Policy`, known by its identity. -/
abbrev Chan := Nat

/-- The struct `requestResponse`; `File` is the name of the temporary file, `none`
for the nil pointer. -/
structure requestResponse where
  Req : actions.Action
  Res : Chan
  File : Option GoString
deriving DecidableEq, Repr

/-- Whether the process runs, has left through `log.Fatal`, or has panicked. -/
inductive Status where
  | running
  | fatal
  | panicked
deriving DecidableEq, Repr

/-- The struct `cliUI` with what the process did around it: `queue` is the field of
the struct, `prompts` counts the goroutines `handlePrompt` that wait for an
input, `sent` lists the sends on response channels, oldest first (a send is
taken to complete: the caller of `Handle` receives on its channel), `removed`
lists the files removed, and `status` tells whether the process still runs. -/
structure cliUI where
  queue : List requestResponse
  prompts : Nat
  sent : List (Chan × policies.Policy)
  removed : List GoString
  status : Status
deriving DecidableEq, Repr

/-- Function `NewCli`: the empty queue, in a process that runs. -/
def NewCli : cliUI :=
  { queue := [], prompts := 0, sent := [], removed := [], status := Status.running }

/-- Method `FileURI` of `requestResponse`, for its effect on `File`: a request
without a file gets the file `tmp` that `generateFile` made, and the result is
`none` when `generateFile` could not make it and left through `log.Fatal`. -/
def requestResponse.FileURI (r : requestResponse) (tmp : Option GoString) :
    Option requestResponse :=
  match r.File with
  | some _ => some r
  | none =>
    match tmp with
    | some f => some { r with File := some f }
    | none => none

/-- Method `writePrompt`: nothing on the empty queue, else `FileURI` on the head. -/
def cliUI.writePrompt (c : cliUI) (tmp : Option GoString) : cliUI :=
  match c.queue with
  | [] => c
  | r :: rest =>
    match r.FileURI tmp with
    | some r2 => { c with queue := r2 :: rest }
    | none => { c with status := Status.fatal }

/-- Method `render`: `writeQueue` and `writeHeader` only write to the terminal. -/
def cliUI.render (c : cliUI) (tmp : Option GoString) : cliUI :=
  c.writePrompt tmp

/-- Method `updateDisplayedPrompt`: on a queue that is not empty, `writePrompt` and
then `go c.handlePrompt()`, one more goroutine that waits for an input. -/
def cliUI.updateDisplayedPrompt (c : cliUI) (tmp : Option GoString) : cliUI :=
  if c.queue.length = 0 then c
  else
    let c1 := c.writePrompt tmp
    if c1.status = Status.running then { c1 with prompts := c1.prompts + 1 } else c1

/-- Method `handleQueue`: `render`, then `updateDisplayedQueue` (terminal only) on a
queue of more than one request and `updateDisplayedPrompt` on a queue of one. -/
def cliUI.handleQueue (c : cliUI) (tmp : Option GoString) : cliUI :=
  let c1 := c.render tmp
  if c1.status = Status.running then
    if c1.queue.length = 0 then c1
    else if 1 < c1.queue.length then c1
    else c1.updateDisplayedPrompt tmp
  else c1

/-- The first statement of `Handle`, `c.queue = append(c.queue, ...)`, which runs
before the mutex is taken. -/
def cliUI.enqueue (c : cliUI) (req : actions.Action) (res : Chan) : cliUI :=
  { c with queue := c.queue ++ [{ Req := req, Res := res, File := none }] }

/-- Method `Handle`: the request is appended to the queue, then `handleQueue`. -/
def cliUI.Handle (c : cliUI) (req : actions.Action) (res : Chan) (tmp : Option GoString) :
    cliUI :=
  cliUI.handleQueue { c with queue := c.queue ++ [{ Req := req, Res := res, File := none }] } tmp

/-- Method `handlePrompt` from the return of `getShortcutInput` on: `shortcut` is
what it returned and `removeOk` tells whether `os.Remove` succeeds. The decision
is sent to the head, its file is removed, the head is popped and, when requests
remain, `render` and `go c.updateDisplayedPrompt()`. -/
def cliUI.handlePrompt (c : cliUI) (shortcut : GoString) (removeOk : Bool)
    (tmp : Option GoString) : cliUI :=
  let (policy, err) := policies.ByShortcut shortcut
  if err.isSome then { c with status := Status.fatal }
  else
    match c.queue with
    | [] => { c with status := Status.panicked }
    | r :: rest =>
      let c1 := { c with sent := c.sent ++ [(r.Res, policy)] }
      match r.File with
      | none => { c1 with status := Status.panicked }
      | some f =>
        if removeOk then
          let c2 := { c1 with queue := rest, removed := c1.removed ++ [f] }
          if 0 < c2.queue.length then
            let c3 := c2.render tmp
            if c3.status = Status.running then c3.updateDisplayedPrompt tmp else c3
          else c2
        else { c1 with status := Status.fatal }

/-- What happens to a `cliUI`: a call `Handle(req, res)`, an input `inp` that
`App.GetInput` returns to a waiting `handlePrompt`, or a read on which
`fmt.Fscanln` reports an error, so that `App.GetInput` leaves through
`log.Fatal`. The first two carry what the system answers during the step: `tmp`
is the file that `generateFile` makes if it is called (`none` when it fails) and
`removeOk` tells whether `os.Remove` succeeds. -/
inductive Event where
  | Handle (req : actions.Action) (res : Chan) (tmp : Option GoString)
  | Input (inp : GoString) (removeOk : Bool) (tmp : Option GoString)
  | InputError
deriving DecidableEq, Repr

/-- One step: `none` when the event cannot happen, that is when the process has
stopped, or for an input when no `handlePrompt` waits for one. An input that is
not a shortcut makes `getShortcutInput` render and wait again. -/
def step (c : cliUI) : Event → Option cliUI
  | Event.Handle req res tmp =>
    if c.status = Status.running then some (c.Handle req res tmp) else none
  | Event.Input inp removeOk tmp =>
    if c.status = Status.running ∧ 0 < c.prompts then
      if policies.ShortcutValid inp then
        some (cliUI.handlePrompt { c with prompts := c.prompts - 1 } inp removeOk tmp)
      else some (c.render tmp)
    else none
  | Event.InputError =>
    if c.status = Status.running ∧ 0 < c.prompts then some { c with status := Status.fatal }
    else none

/-- A run: the events one after the other, `none` when one of them cannot happen. -/
def run : cliUI → List Event → Option cliUI
  | c, [] => some c
  | c, e :: es =>
    match step c e with
    | some c2 => run c2 es
    | none => none

/-- The channels of the requests handed to `Handle` during the events, in order. -/
def handed : List Event → List Chan
  | [] => []
  | Event.Handle _ res _ :: es => res :: handed es
  | Event.Input _ _ _ :: es => handed es
  | Event.InputError :: es => handed es

/-- The channels that received a decision, in the order of the sends. -/
def cliUI.decided (c : cliUI) : List Chan := c.sent.map Prod.fst

/-- The channels of the requests in the queue, head first. -/
def cliUI.waiting (c : cliUI) : List Chan := c.queue.map requestResponse.Res

/-- A run of three requests and two decisions, with a wrong input in between. -/
def exampleRun : List Event :=
  [Event.Handle actions.testAction 1 (some (lit "f1")),
   Event.Handle actions.testsAction 2 none,
   Event.Input (lit "x") true none,
   Event.Input (lit "d") true (some (lit "f2")),
   Event.Handle actions.collidingA 3 none,
   Event.Input (lit "s") true (some (lit "f3"))]

/-- The invariant of the queue: the channels served so far are the first of those
handed to `Handle`, and while the process runs the channels served followed by
those that wait are exactly those handed. -/
def Fifo (c : cliUI) (H : List Chan) : Prop :=
  c.decided <+: H ∧ (c.status = Status.running → c.decided ++ c.waiting = H)

/-- The state at the end of `exampleRun`. -/
def exampleEnd : cliUI :=
  { queue := [{ Req := actions.collidingA, Res := 3, File := some (lit "f3") }],
    prompts := 1,
    sent := [(1, policies.Deny), (2, policies.AllowAlways)],
    removed := [lit "f1", lit "f2"],
    status := Status.running }

end ui

/-! ## Standard library: `fmt.Fscanln` on one string

What `App.GetInput` calls: `fmt.Fscanln(a.Reader, &in)` with `in` a string. The
input is the list of the bytes typed so far; a scan that reaches its end waits
for more (the end of a closed input, an error too, is left out). -/

namespace utf8

/-- Function `FullRune`: whether the bytes begin with a full encoding of a rune, an
invalid encoding counting as a full rune of width 1. -/
def FullRune (p : List Byte) : Bool :=
  match p with
  | [] => false
  | p0 :: _ =>
    let x := first p0.val
    if (x &&& 7) ≤ p.length then true
    else
      let accept := acceptRanges (x >>> 4)
      if 1 < p.length ∧ ((p.getD 1 0).val < accept.1 ∨ accept.2 < (p.getD 1 0).val) then true
      else if 2 < p.length ∧ ((p.getD 2 0).val < 0x80 ∨ 0xBF < (p.getD 2 0).val) then true
      else false

/-- Function `AppendRune` on no bytes: the UTF-8 encoding of a rune, that of U+FFFD
for a surrogate and for a rune above U+10FFFF. -/
def AppendRune (r : Nat) : List Byte :=
  if r ≤ 0x7F then [Fin.ofNat r]
  else if r ≤ 0x7FF then [Fin.ofNat (0xC0 ||| r >>> 6), Fin.ofNat (0x80 ||| (r &&& 0x3F))]
  else if (0xD800 ≤ r ∧ r ≤ 0xDFFF) ∨ 0x10FFFF < r then [0xEF, 0xBF, 0xBD]
  else if r ≤ 0xFFFF then
    [Fin.ofNat (0xE0 ||| r >>> 12), Fin.ofNat (0x80 ||| (r >>> 6 &&& 0x3F)),
     Fin.ofNat (0x80 ||| (r &&& 0x3F))]
  else
    [Fin.ofNat (0xF0 ||| r >>> 18), Fin.ofNat (0x80 ||| (r >>> 12 &&& 0x3F)),
     Fin.ofNat (0x80 ||| (r >>> 6 &&& 0x3F)), Fin.ofNat (0x80 ||| (r &&& 0x3F))]

end utf8

namespace fmt

/-- The table `space` behind `isSpace`: the Unicode white space below U+10000. -/
def isSpace (r : Nat) : Bool :=
  decide ((0x0009 ≤ r ∧ r ≤ 0x000d) ∨ r = 0x0020 ∨ r = 0x0085 ∨ r = 0x00a0 ∨ r = 0x1680 ∨
    (0x2000 ≤ r ∧ r ≤ 0x200a) ∨ (0x2028 ≤ r ∧ r ≤ 0x2029) ∨ r = 0x202f ∨ r = 0x205f ∨
    r = 0x3000)

/-- Method `ReadRune` of `readRune`, the reader that `fmt` puts around a reader
without `ReadRune` such as `os.Stdin`: the next rune and the input after it,
`none` when the bytes typed so far do not hold a full rune. -/
def readRune (s : List Byte) : Option (Nat × List Byte) :=
  match s with
  | [] => none
  | b :: rest =>
    if b.val < 0x80 then some (b.val, rest)
    else
      match [1, 2, 3, 4].find? (fun n => decide (n ≤ s.length) && utf8.FullRune (s.take n)) with
      | none => none
      | some n => some ((utf8.DecodeRuneInString (s.take n)).1,
          s.drop (utf8.DecodeRuneInString (s.take n)).2)

/-- How a scan ends: with the word scanned and the input left after its line, with
an error, or still waiting for input. -/
inductive Scan where
  | word (w : GoString) (rest : List Byte)
  | error (msg : GoString)
  | waiting
deriving DecidableEq, Repr

/-- The loop at the end of `doScan` for `Fscanln`: after the word only white space
may stand before the newline, which is read too. The first argument bounds the
iterations and the length of the input is always enough. -/
def endOfLine (w : GoString) : Nat → List Byte → Scan
  | 0, _ => Scan.waiting
  | n + 1, s =>
    match readRune s with
    | none => Scan.waiting
    | some (r, rest) =>
      if r = 0x0A then Scan.word w rest
      else if isSpace r then endOfLine w n rest
      else Scan.error (lit "expected newline")

/-- Method `token` with `notSpace`: the runes up to the next white space are
appended to the word; then the end of the line is checked. -/
def token (w : GoString) : Nat → List Byte → Scan
  | 0, _ => Scan.waiting
  | n + 1, s =>
    match readRune s with
    | none => Scan.waiting
    | some (r, rest) =>
      if isSpace r then endOfLine w (n + 1) s
      else token (w ++ utf8.AppendRune r) n rest

/-- Method `SkipSpace` for `Fscanln` (a newline is no space), followed by the rest
of the scan: leading white space is skipped, a carriage return before a newline
too, and a newline before any word is the error "unexpected newline". -/
def SkipSpace : Nat → List Byte → Scan
  | 0, _ => Scan.waiting
  | n + 1, s =>
    match readRune s with
    | none => Scan.waiting
    | some (r, rest) =>
      if r = 0x0D then
        match readRune rest with
        | none => Scan.waiting
        | some (_, _) => SkipSpace n rest
      else if r = 0x0A then Scan.error (lit "unexpected newline")
      else if isSpace r then SkipSpace n rest
      else token [] (n + 1) s

/-- Function `fmt.Fscanln(r, &in)` with `in` a string, on the bytes typed so far. -/
def Fscanln (stdin : List Byte) : Scan := SkipSpace (stdin.length + 1) stdin

end fmt

/-! ## Package `cli` -/

namespace cli

/-- Method `GetInput` of `App` (cli.go, lines 204-211) on the bytes typed so far: the
result of `Fscanln`. On `word` it returns the word, on `error` it leaves through
`log.Fatal`, and on `waiting` it has not returned yet. -/
def GetInput (stdin : List Byte) : fmt.Scan := fmt.Fscanln stdin

/-- The type `Handler`, by what a call returns: the error, as a function of the
arguments. What a handler does besides is not modelled. -/
abbrev Handler := List GoString → policies.GoError

/-- The struct `Command` of package `cli`; `Handler` is `none` for the nil function. -/
structure Command where
  Name : GoString
  Usage : GoString
  Handler : Option Handler

/-- The struct `App`, for what `Run` reads of it: the commands (the pointers of
`Commands` are taken to be non-nil). -/
structure App where
  Commands : List Command

/-- What a call of `Run` did: the handlers it called, each by the index of its
command in `Commands` and with the arguments it got, how often it showed the
help, and the error it returned. What `Help` writes is left out. -/
structure Outcome where
  calls : List (Nat × List GoString)
  helps : Nat
  err : policies.GoError
deriving DecidableEq, Repr

/-- Method `executeCommand` (cli.go, lines 196-201) on the command of index `i`. -/
def executeCommand (i : Nat) (c : Command) (args : List GoString) : Outcome :=
  match c.Handler with
  | none => { calls := [], helps := 0, err := some (c.Name ++ lit " does not have a handler.") }
  | some h => { calls := [(i, args)], helps := 0, err := h args }

/-- The loop of `executeIfCommand` over the commands still to visit, the first of
which has index `i`: the first command of the name is executed. -/
def executeIfCommand.loop (cmd : GoString) (args : List GoString) :
    Nat → List Command → Bool × Outcome
  | _, [] => (false, { calls := [], helps := 0, err := none })
  | i, c :: rest =>
    if c.Name = cmd then (true, executeCommand i c args)
    else executeIfCommand.loop cmd args (i + 1) rest

/-- Method `executeIfCommand` (cli.go, lines 186-193). -/
def App.executeIfCommand (a : App) (cmd : GoString) (args : List GoString) : Bool × Outcome :=
  executeIfCommand.loop cmd args 0 a.Commands

/-- Method `Run` (cli.go, lines 161-184). -/
def App.Run (a : App) (arguments : List GoString) : Outcome :=
  match arguments with
  | [] => { calls := [], helps := 1, err := none }
  | cmd :: cmdArgs =>
    if cmd = lit "-h" ∨ cmd = lit "--help" then { calls := [], helps := 1, err := none }
    else
      let (isCommand, out) := a.executeIfCommand cmd cmdArgs
      if isCommand ∨ out.err.isSome then out
      else { out with helps := out.helps + 1, err := none }

end cli

/-! ## Package `ui`: reading the shortcut -/

namespace ui

/-- How far `getShortcutInput` got: the `cliUI`, the shortcut if it has returned
one, and the input not read yet. -/
structure Waited where
  ui : cliUI
  shortcut : Option GoString
  stdin : List Byte
deriving DecidableEq, Repr

/-- The loop of `getShortcutInput` on the bytes typed so far: `GetInput` is called
until it returns a valid shortcut, with a `render` after every other word; an
error of `Fscanln` ends the process. The first argument bounds the iterations,
and the length of the input plus one is always enough; `tmp` is the file that
`generateFile` makes if `render` calls it. -/
def getShortcutInput.loop : Nat → cliUI → List Byte → Option GoString → Waited
  | 0, c, stdin, _ => { ui := c, shortcut := none, stdin := stdin }
  | n + 1, c, stdin, tmp =>
    match cli.GetInput stdin with
    | fmt.Scan.waiting => { ui := c, shortcut := none, stdin := stdin }
    | fmt.Scan.error _ =>
      { ui := { c with status := Status.fatal }, shortcut := none, stdin := stdin }
    | fmt.Scan.word inp rest =>
      if policies.ShortcutValid inp then { ui := c, shortcut := some inp, stdin := rest }
      else
        let c1 := c.render tmp
        if c1.status = Status.running then getShortcutInput.loop n c1 rest tmp
        else { ui := c1, shortcut := none, stdin := rest }

/-- Method `getShortcutInput` (cli_ui.go, lines 216-225) on the bytes typed so far. -/
def cliUI.getShortcutInput (c : cliUI) (stdin : List Byte) (tmp : Option GoString) : Waited :=
  getShortcutInput.loop (stdin.length + 1) c stdin tmp

/-- The invariant of the review cycle: while the process runs, no `handlePrompt`
waits on an empty queue, and exactly one waits on a queue that is not empty,
whose head has its file. -/
def Ready (c : cliUI) : Prop :=
  c.status = Status.running →
    match c.queue with
    | [] => c.prompts = 0
    | r :: _ => c.prompts = 1 ∧ r.File.isSome = true

/-- The state after `Handle(testAction, 1)` on `NewCli()`: one request, under review. -/
def oneRequest : cliUI :=
  { queue := [{ Req := actions.testAction, Res := 1, File := some (lit "f1") }],
    prompts := 1, sent := [], removed := [], status := Status.running }

end ui

/-! ## The queue and the decision store, side by side

Package `ui` imports neither package `storage` nor a value of it: no method of
`cliUI` has a store in reach. A process that holds both is modelled by a pair,
on which a step of the review cycle changes the queue and an operation of the
store changes the store. -/

/-- A process with an approval queue and a decision store in memory. -/
structure Pipeline where
  ui : ui.cliUI
  store : storage.memoryPolicyStorage

/-- What happens to a `Pipeline`: a step of the review cycle, or a call of
`SetPolicy` on the store. -/
inductive Op where
  | review (e : ui.Event)
  | SetPolicy (a : actions.Action) (pol : Option policies.Policy) (now : time.Reading)

/-- The process at its start: `NewCli()` and `NewMemoryPolicyStorage()`. -/
def Pipeline.init : Pipeline := { ui := ui.NewCli, store := storage.NewMemoryPolicyStorage }

/-- One step of a `Pipeline`, `none` when the step cannot happen: a step of the
review cycle when `ui.step` refuses it, and a call of `SetPolicy` when the process
has stopped. -/
def Pipeline.step (s : Pipeline) : Op → Option Pipeline
  | Op.review e =>
    match ui.step s.ui e with
    | some u => some { s with ui := u }
    | none => none
  | Op.SetPolicy a pol now =>
    if s.ui.status = ui.Status.running then
      some { s with store := storage.store.SetPolicy storage.memoryPolicies s.store a pol now }
    else none

/-- A run of a `Pipeline`. -/
def Pipeline.run : Pipeline → List Op → Option Pipeline
  | s, [] => some s
  | s, o :: os =>
    match Pipeline.step s o with
    | some s2 => Pipeline.run s2 os
    | none => none

/-- Method `Policy` of the store of a `Pipeline`. -/
def Pipeline.Policy (s : Pipeline) (a : actions.Action) : Option policies.Policy × Bool :=
  storage.store.Policy storage.memoryPolicies s.store a

namespace cli

/-- A handler that returns the nil error. -/
def okHandler : Handler := fun _ => none

/-- An application with two commands of the same name, the first without a handler. -/
def shadowedApp : App :=
  { Commands := [{ Name := lit "start", Usage := lit "usage", Handler := none },
                 { Name := lit "start", Usage := lit "usage", Handler := some okHandler }] }

/-- The application of `TestCommandRouting`. -/
def testApp : App :=
  { Commands := [{ Name := lit "mycommand", Usage := lit "usage", Handler := some okHandler },
                 { Name := lit "mycommand2", Usage := lit "usage", Handler := some okHandler }] }

end cli

/-- The inputs that are no shortcut, as steps of the review cycle. -/
def wrongInputs (wrong : List (GoString × Bool × Option GoString)) : List Op :=
  wrong.map fun x => Op.review (ui.Event.Input x.1 x.2.1 x.2.2)

/-- The process after `Handle(testAction, 1)`: one request under review, empty store. -/
def onePending : Pipeline := { ui := ui.oneRequest, store := storage.NewMemoryPolicyStorage }

/-- The process whose store holds `AllowAlways()` for `testAction`, nothing queued. -/
def cachedAllowAlways : Pipeline :=
  { ui := ui.NewCli,
    store := storage.store.SetPolicy storage.memoryPolicies storage.NewMemoryPolicyStorage actions.testAction
      (some policies.AllowAlways) ⟨5, 7⟩ }

/-- The process after the reviewer answered `testAction` with "s". -/
def answeredAllowAlways : Pipeline :=
  { ui := { queue := [], prompts := 0, sent := [(1, policies.AllowAlways)], removed := [lit "f1"],
            status := ui.Status.running },
    store := storage.NewMemoryPolicyStorage }

/-- The process with `AllowAlways()` stored for `testAction` and `testAction` under
review. -/
def cachedPending : Pipeline := { ui := ui.oneRequest, store := cachedAllowAlways.store }

/-- The process `cachedPending` after the reviewer answered "d". -/
def cachedDenied : Pipeline :=
  { ui := { queue := [], prompts := 0, sent := [(1, policies.Deny)], removed := [lit "f1"],
            status := ui.Status.running },
    store := cachedAllowAlways.store }

/-- The identifiers of the policies given to `SetPolicy` during the operations. -/
def idsGiven : List Op → List GoString
  | [] => []
  | Op.SetPolicy _ (some p) _ :: os => p.Id :: idsGiven os
  | Op.SetPolicy _ none _ :: os => idsGiven os
  | Op.review _ :: os => idsGiven os

/-! ## Runs of the in-memory storages, and more example states -/

namespace storage

/-- A sequence of calls of `Store` on a `memoryPolicyStorage`, first call first. -/
def memoryPolicyStorage.stores (m : memoryPolicyStorage) :
    List (GoString × StoredPolicy) → memoryPolicyStorage
  | [] => m
  | (k, v) :: rest => (m.Store k v).stores rest

/-- A sequence of calls of `Store` on a `memorySessionStorage`, first call first. -/
def memorySessionStorage.stores (m : memorySessionStorage) :
    List (GoString × StoredSession) → memorySessionStorage
  | [] => m
  | (k, v) :: rest => (m.Store k v).stores rest

end storage

namespace cli

/-- An application with two commands of the same name, the second without a handler. -/
def shadowingApp : App :=
  { Commands := [{ Name := lit "start", Usage := lit "usage", Handler := some okHandler },
                 { Name := lit "start", Usage := lit "usage", Handler := none }] }

/-- An application whose only command is named "--help" and has no handler. -/
def helpNamedApp : App :=
  { Commands := [{ Name := lit "--help", Usage := lit "usage", Handler := none }] }

/-- An application whose only command has no handler. -/
def bareApp : App :=
  { Commands := [{ Name := lit "start", Usage := lit "usage", Handler := none }] }

end cli

namespace ui

/-- The invariant of the display files: no request behind the head has a file. -/
def HeadOnly (c : cliUI) : Prop := ∀ r ∈ c.queue.tail, r.File = none

/-- The state after `Handle(testAction, 1)` and `Handle(testsAction, 2)`: the first
request is under review and has its file, the second waits without one. -/
def twoRequests : cliUI :=
  { queue := [{ Req := actions.testAction, Res := 1, File := some (lit "f1") },
              { Req := actions.testsAction, Res := 2, File := none }],
    prompts := 1, sent := [], removed := [], status := Status.running }

/-- The state `twoRequests` after the answer "d" when `ioutil.TempFile` fails for the
second request: the decision is sent, the head is popped and the process has
left through `log.Fatal`. -/
def popFailed : cliUI :=
  { queue := [{ Req := actions.testsAction, Res := 2, File := none }],
    prompts := 0, sent := [(1, policies.Deny)], removed := [lit "f1"], status := Status.fatal }

/-- The state after `Handle(testAction, 1)` and `Handle(testsAction, 2)` when the
reviewer has answered "d" and `os.Remove` has failed: the decision is sent, the
head is still in the queue and the process has left through `log.Fatal`. -/
def removeFailed : cliUI :=
  { queue := [{ Req := actions.testAction, Res := 1, File := some (lit "f1") },
              { Req := actions.testsAction, Res := 2, File := none }],
    prompts := 0, sent := [(1, policies.Deny)], removed := [], status := Status.fatal }

/-- The state after `Handle(testAction, 1)` on `NewCli()` when `ioutil.TempFile` has
failed: no prompt was started and the process has left through `log.Fatal`. -/
def createFailed : cliUI :=
  { queue := [{ Req := actions.testAction, Res := 1, File := none }],
    prompts := 0, sent := [], removed := [], status := Status.fatal }

end ui

/-! ## Method `String` of `Command` -/

namespace strings

/-- Function `strings.Join`: the elements with `sep` between them. -/
def Join (elems : List GoString) (sep : GoString) : GoString :=
  match elems with
  | [] => []
  | [e] => e
  | e :: rest => rest.foldl (fun b s => b ++ sep ++ s) e

end strings

namespace actions

/-- Method `String` of `Command` (action.go, lines 43-48). -/
def Command.String (c : Command) : GoString :=
  if c.lenArgs = 0 then c.Name
  else c.Name ++ lit " " ++ strings.Join c.elems (lit " ")

/-- The command named "a b", without arguments. -/
def spacedName : Command := ⟨lit "a b", none⟩

/-- The command named "a" with the argument "b". -/
def splitName : Command := ⟨lit "a", some [lit "b"]⟩

end actions

/-! ## What `writePrompt` writes

The text of the prompt, with the parts of `strconv`, `fmt` and `cli` that make it. -/

namespace utf8

/-- Function `ValidRune`: a rune that is no surrogate and at most U+10FFFF. -/
def ValidRune (r : Nat) : Bool :=
  decide (r < 0xD800 ∨ (0xDFFF < r ∧ r ≤ 0x10FFFF))

end utf8

namespace strconv

/-- The digits `lowerhex`. -/
def lowerhex : GoString := lit "0123456789abcdef"

/-- Function `IsPrint`: the test in the code for a rune up to U+00FF; above, the
answer of the tables `isPrint16`, `isNotPrint16`, `isPrint32` and `isNotPrint32`
of the library, which is taken as the parameter `table`. -/
def IsPrint (table : Nat → Bool) (r : Nat) : Bool :=
  if r ≤ 0xFF then
    if 0x20 ≤ r ∧ r ≤ 0x7E then true
    else if 0xA1 ≤ r ∧ r ≤ 0xFF then decide (r ≠ 0xAD)
    else false
  else table r

/-- Function `appendEscapedRune` with the quote `"`, neither `ASCIIonly` nor
`graphicOnly`: what `Quote` writes for the rune `r`. -/
def appendEscapedRune (table : Nat → Bool) (r : Nat) : GoString :=
  if r = 0x22 ∨ r = 0x5C then [byteOfChar '\\', Fin.ofNat r]
  else if IsPrint table r then utf8.AppendRune r
  else if r = 0x07 then lit "\\a"
  else if r = 0x08 then lit "\\b"
  else if r = 0x0C then lit "\\f"
  else if r = 0x0A then lit "\\n"
  else if r = 0x0D then lit "\\r"
  else if r = 0x09 then lit "\\t"
  else if r = 0x0B then lit "\\v"
  else if r < 0x20 ∨ r = 0x7F then
    lit "\\x" ++ [lowerhex.getD ((r % 256) >>> 4) 0, lowerhex.getD ((r % 256) &&& 0xF) 0]
  else if !utf8.ValidRune r then
    lit "\\u" ++ [12, 8, 4, 0].map fun s => lowerhex.getD (0xFFFD >>> s &&& 0xF) 0
  else if r < 0x10000 then
    lit "\\u" ++ [12, 8, 4, 0].map fun s => lowerhex.getD (r >>> s &&& 0xF) 0
  else
    lit "\\U" ++ [28, 24, 20, 16, 12, 8, 4, 0].map fun s => lowerhex.getD (r >>> s &&& 0xF) 0

/-- The loop of `appendQuotedWith` on the bytes of `s` still to quote: a byte that
is no valid UTF-8 is written as `\x` and two digits, every other rune as
`appendEscapedRune` writes it. The first argument bounds the iterations and
the length of `s` is always enough. -/
def appendQuotedWith.loop (table : Nat → Bool) : Nat → GoString → GoString
  | 0, _ => []
  | _, [] => []
  | n + 1, b :: rest =>
    let d := if b.val < 0x80 then (b.val, 1) else utf8.DecodeRuneInString (b :: rest)
    if d.2 = 1 ∧ d.1 = utf8.RuneError then
      lit "\\x" ++ [lowerhex.getD (b.val >>> 4) 0, lowerhex.getD (b.val &&& 0xF) 0] ++
        appendQuotedWith.loop table n rest
    else appendEscapedRune table d.1 ++ appendQuotedWith.loop table n ((b :: rest).drop d.2)

/-- Function `Quote`, which the verb `%q` of `fmt` writes for a string. -/
def Quote (table : Nat → Bool) (s : GoString) : GoString :=
  [byteOfChar '"'] ++ appendQuotedWith.loop table s.length s ++ [byteOfChar '"']

end strconv

namespace fmt

/-- The loop of `truncateString`: the runes of `s` as long as `n` of them are left
to take. The first argument bounds the iterations. -/
def truncateString.loop : Nat → Nat → GoString → GoString
  | 0, _, _ => []
  | _, _, [] => []
  | fuel + 1, n, b :: rest =>
    if n = 0 then []
    else
      (b :: rest).take (utf8.DecodeRuneInString (b :: rest)).2 ++
        truncateString.loop fuel (n - 1) ((b :: rest).drop (utf8.DecodeRuneInString (b :: rest)).2)

/-- Method `truncateString` for a precision `prec`: the first `prec` runes of `s`. -/
def truncateString (s : GoString) (prec : Nat) : GoString :=
  truncateString.loop s.length prec s

/-- The verb `%d` on an integer that is not negative: its decimal digits. -/
def decimal (n : Nat) : GoString := (Nat.toDigits 10 n).map byteOfChar

end fmt

namespace strings

/-- Function `strings.Count` for a separator of one byte. -/
def Count (s : GoString) (sep : Byte) : Nat := s.count sep

end strings

namespace cli

/-- The type `EscapeCode`. -/
abbrev EscapeCode := GoString

/-- The type `Color`. -/
abbrev Color := GoString

/-- The constant `CursorBottom`. -/
def CursorBottom : EscapeCode := lit "\x1b[100B"

/-- The constant `CursorLeft`. -/
def CursorLeft : EscapeCode := lit "\x1b[100D"

/-- The constant `GreenColor`. -/
def GreenColor : Color := lit "\x1b[1;32m"

/-- The constant `RedColor`. -/
def RedColor : Color := lit "\x1b[1;31m"

/-- The constant `WhiteColor`. -/
def WhiteColor : Color := lit "\x1b[1;37m"

/-- Method `Format` of `Color`: `fmt.Sprintf(c.FmtString(), text)`, where the format is
the colour followed by `%s` and the reset code; no colour holds a `%`, so the
result is the colour, the text and the reset code. -/
def Color.Format (c : Color) (text : GoString) : GoString :=
  c ++ text ++ lit "\x1b[0m"

/-- Function `CursorUp`, for a number of rows that is not negative. -/
def CursorUp (rows : Nat) : EscapeCode := lit "\x1b[" ++ fmt.decimal rows ++ lit "A"

end cli

namespace ui

/-- The constant `promptHeight`. -/
def promptHeight : Nat := 6

/-- The map `colorMap`: the colour of a policy, `none` for a policy that is no key. -/
def colorMap (pol : policies.Policy) : Option cli.Color :=
  if pol = policies.Allow then some cli.GreenColor
  else if pol = policies.AllowAlways then some cli.GreenColor
  else if pol = policies.Deny then some cli.RedColor
  else none

/-- Function `decisionString` (cli_ui.go, lines 235-241). -/
def decisionString (pol : policies.Policy) : GoString :=
  cli.Color.Format ((colorMap pol).getD cli.WhiteColor)
    (pol.Name ++ lit " (" ++ pol.Shortcut ++ lit ")")

/-- The text that `FileURI` returns for a file of name `name`; the names that
`ioutil.TempFile` makes in `os.TempDir()` are taken to be absolute and clean, so
that `filepath.Abs` returns them as they are. -/
def requestResponse.FileURI.text (name : GoString) : GoString := lit "file://" ++ name

/-- What `writePrompt` (cli_ui.go, lines 122-133) writes to `c.App.Writer`: nothing on
the empty queue, else the five `Fprintf` in order, of which the last two are
not reached when `FileURI` leaves through `log.Fatal`. The conversion
`string(len(c.queue))` is the UTF-8 encoding of the rune whose number is the
length of the queue. -/
def cliUI.writePrompt.output (table : Nat → Bool) (c : cliUI) (tmp : Option GoString) :
    GoString :=
  match c.queue with
  | [] => []
  | r :: _ =>
    let first := cli.CursorBottom ++ cli.CursorLeft ++ cli.CursorUp (promptHeight - 1)
    let second :=
      cli.Color.Format cli.GreenColor (lit "1. NEW REQUEST" ++ utf8.AppendRune c.queue.length) ++
        lit " By " ++ strconv.Quote table r.Req.Plugin ++ lit ":\n\n"
    let third :=
      lit "     " ++
        cli.Color.Format cli.WhiteColor
          (strconv.Quote table (fmt.truncateString r.Req.Command.String 100)) ++ lit "\n"
    match r.FileURI tmp with
    | none => first ++ second ++ third
    | some r2 =>
      first ++ second ++ third ++
        (lit "Full command at " ++ requestResponse.FileURI.text (r2.File.getD []) ++ lit "\n\n") ++
        (decisionString policies.Deny ++ lit "/" ++ decisionString policies.Allow ++ lit "/" ++
          decisionString policies.AllowAlways ++ lit ": ")

/-- The queue of `TestPromptHeight`: one request, by "testplugin" for the command "test". -/
def testQueue : cliUI :=
  { queue := [{ Req := ⟨⟨lit "test", none⟩, lit "testplugin"⟩, Res := 0, File := none }],
    prompts := 0, sent := [], removed := [], status := Status.running }

/-- A queue of ten requests like that of `TestPromptHeight`. -/
def tenQueue : cliUI :=
  { queue := List.replicate 10
      { Req := ⟨⟨lit "test", none⟩, lit "testplugin"⟩, Res := 0, File := none },
    prompts := 0, sent := [], removed := [], status := Status.running }

end ui

/-! ## Theorems: package `policies` -/

namespace policies

theorem IdValid_loop_iff (id : GoString) (l : List Policy) :
    IdValid.loop id l = true ↔ ∃ p ∈ l, p.Id = id := by
  induction l with
  | nil => simp [IdValid.loop]
  | cons q rest ih =>
    by_cases h : q.Id = id
    · simp [IdValid.loop, h]
    · simp [IdValid.loop, h, ih]

theorem ShortcutValid_loop_iff (sc : GoString) (l : List Policy) :
    ShortcutValid.loop sc l = true ↔ ∃ p ∈ l, p.Shortcut = sc := by
  induction l with
  | nil => simp [ShortcutValid.loop]
  | cons q rest ih =>
    by_cases h : q.Shortcut = sc
    · simp [ShortcutValid.loop, h]
    · simp [ShortcutValid.loop, h, ih]

theorem ById_loop_found (id : GoString) (l : List Policy) (h : ∃ p ∈ l, p.Id = id) :
    (ById.loop id l).2 = none ∧ (ById.loop id l).1 ∈ l ∧ (ById.loop id l).1.Id = id := by
  induction l with
  | nil => simp at h
  | cons q rest ih =>
    by_cases hq : q.Id = id
    · simp [ById.loop, hq]
    · have h2 : ∃ p ∈ rest, p.Id = id := by
        obtain ⟨p, hp, hpid⟩ := h
        rcases List.mem_cons.mp hp with rfl | hp
        · exact absurd hpid hq
        · exact ⟨p, hp, hpid⟩
      obtain ⟨h1, h3, h4⟩ := ih h2
      simp [ById.loop, hq, h1, h3, h4]

theorem ById_loop_missing (id : GoString) (l : List Policy) (h : ∀ p ∈ l, p.Id ≠ id) :
    ById.loop id l = (policy.zero, some (lit "policy with id not found")) := by
  induction l with
  | nil => rfl
  | cons q rest ih =>
    have hq : q.Id ≠ id := h q (List.mem_cons_self _ _)
    simp only [ById.loop, hq, if_false]
    exact ih (fun p hp => h p (List.mem_cons_of_mem _ hp))

theorem ByShortcut_loop_found (sc : GoString) (l : List Policy) (h : ∃ p ∈ l, p.Shortcut = sc) :
    (ByShortcut.loop sc l).2 = none ∧ (ByShortcut.loop sc l).1 ∈ l ∧
      (ByShortcut.loop sc l).1.Shortcut = sc := by
  induction l with
  | nil => simp at h
  | cons q rest ih =>
    by_cases hq : q.Shortcut = sc
    · simp [ByShortcut.loop, hq]
    · have h2 : ∃ p ∈ rest, p.Shortcut = sc := by
        obtain ⟨p, hp, hpsc⟩ := h
        rcases List.mem_cons.mp hp with rfl | hp
        · exact absurd hpsc hq
        · exact ⟨p, hp, hpsc⟩
      obtain ⟨h1, h3, h4⟩ := ih h2
      simp [ByShortcut.loop, hq, h1, h3, h4]

theorem ByShortcut_loop_missing (sc : GoString) (l : List Policy)
    (h : ∀ p ∈ l, p.Shortcut ≠ sc) :
    ByShortcut.loop sc l = (policy.zero, some (lit "policy with shortcut not found")) := by
  induction l with
  | nil => rfl
  | cons q rest ih =>
    have hq : q.Shortcut ≠ sc := h q (List.mem_cons_self _ _)
    simp only [ByShortcut.loop, hq, if_false]
    exact ih (fun p hp => h p (List.mem_cons_of_mem _ hp))

theorem mem_All (p : Policy) : p ∈ All ↔ p = Allow ∨ p = AllowAlways ∨ p = Deny := by
  simp [All]

theorem exists_Id_iff (id : GoString) :
    (∃ p ∈ All, p.Id = id) ↔ id = lit "ALLOW" ∨ id = lit "ALLOW_ALWAYS" ∨ id = lit "DENY" := by
  constructor
  · rintro ⟨p, hp, rfl⟩
    rcases (mem_All p).mp hp with rfl | rfl | rfl
    · exact Or.inl rfl
    · exact Or.inr (Or.inl rfl)
    · exact Or.inr (Or.inr rfl)
  · rintro (rfl | rfl | rfl)
    · exact ⟨Allow, by decide, rfl⟩
    · exact ⟨AllowAlways, by decide, rfl⟩
    · exact ⟨Deny, by decide, rfl⟩

theorem exists_Shortcut_iff (sc : GoString) :
    (∃ p ∈ All, p.Shortcut = sc) ↔ sc = lit "a" ∨ sc = lit "s" ∨ sc = lit "d" := by
  constructor
  · rintro ⟨p, hp, rfl⟩
    rcases (mem_All p).mp hp with rfl | rfl | rfl
    · exact Or.inl rfl
    · exact Or.inr (Or.inl rfl)
    · exact Or.inr (Or.inr rfl)
  · rintro (rfl | rfl | rfl)
    · exact ⟨Allow, by decide, rfl⟩
    · exact ⟨AllowAlways, by decide, rfl⟩
    · exact ⟨Deny, by decide, rfl⟩

/-- C5: `All()` has exactly three elements, and `Allow()`, `AllowAlways()` and
`Deny()` each occur in it exactly once. -/
theorem All_holds_each_policy_once :
    All.length = 3 ∧ All.count Allow = 1 ∧ All.count AllowAlways = 1 ∧ All.count Deny = 1 := by
  decide

/-- C6: two different policies of `All()` have different identifiers and different
shortcuts. -/
theorem All_ids_and_shortcuts_unique (p q : Policy) (hp : p ∈ All) (hq : q ∈ All)
    (hne : p ≠ q) : p.Id ≠ q.Id ∧ p.Shortcut ≠ q.Shortcut := by
  rcases (mem_All p).mp hp with rfl | rfl | rfl <;>
    rcases (mem_All q).mp hq with rfl | rfl | rfl <;>
    first
      | exact absurd rfl hne
      | decide

/-- The statement of C6 on `Allow()` and `Deny()`. -/
theorem All_ids_and_shortcuts_unique_witness :
    Allow ∈ All ∧ Deny ∈ All ∧ Allow ≠ Deny ∧
      Allow.Id ≠ Deny.Id ∧ Allow.Shortcut ≠ Deny.Shortcut :=
  ⟨by decide, by decide, by decide,
    All_ids_and_shortcuts_unique Allow Deny (by decide) (by decide) (by decide)⟩

/-- C7: for every policy `p` of `All()`, `ById(p.Id())` and `ByShortcut(p.Shortcut())`
both return `p` with a nil error. -/
theorem getters_return_the_policy (p : Policy) (hp : p ∈ All) :
    ById p.Id = (p, none) ∧ ByShortcut p.Shortcut = (p, none) := by
  rcases (mem_All p).mp hp with rfl | rfl | rfl <;> decide

/-- The statement of C7 on `AllowAlways()`. -/
theorem getters_return_the_policy_witness :
    AllowAlways ∈ All ∧ ById AllowAlways.Id = (AllowAlways, none) ∧
      ByShortcut AllowAlways.Shortcut = (AllowAlways, none) :=
  ⟨by decide, getters_return_the_policy AllowAlways (by decide)⟩

/-- C8: `ById(id)` returns an error exactly when `id` is none of "ALLOW",
"ALLOW_ALWAYS" and "DENY"; when it returns no error, the policy it returns has
identifier `id`. -/
theorem ById_error_iff (id : GoString) :
    ((ById id).2 ≠ none ↔
        id ≠ lit "ALLOW" ∧ id ≠ lit "ALLOW_ALWAYS" ∧ id ≠ lit "DENY") ∧
      ((ById id).2 = none → (ById id).1.Id = id) := by
  by_cases h : ∃ p ∈ All, p.Id = id
  · obtain ⟨h1, _, h3⟩ := ById_loop_found id All h
    have h4 := (exists_Id_iff id).mp h
    refine ⟨?_, fun _ => h3⟩
    simp only [ById, h1, ne_eq, not_true_eq_false, false_iff]
    tauto
  · have h1 := ById_loop_missing id All (fun p hp hpid => h ⟨p, hp, hpid⟩)
    have h4 := mt (exists_Id_iff id).mpr h
    refine ⟨?_, ?_⟩
    · simp only [ById, h1, ne_eq]
      constructor
      · intro _; tauto
      · intro _; simp
    · simp [ById, h1]

/-- C9: `ByShortcut(sc)` returns an error exactly when `sc` is none of "a", "s" and
"d"; when it returns no error, the policy it returns has shortcut `sc`. -/
theorem ByShortcut_error_iff (sc : GoString) :
    ((ByShortcut sc).2 ≠ none ↔ sc ≠ lit "a" ∧ sc ≠ lit "s" ∧ sc ≠ lit "d") ∧
      ((ByShortcut sc).2 = none → (ByShortcut sc).1.Shortcut = sc) := by
  by_cases h : ∃ p ∈ All, p.Shortcut = sc
  · obtain ⟨h1, _, h3⟩ := ByShortcut_loop_found sc All h
    have h4 := (exists_Shortcut_iff sc).mp h
    refine ⟨?_, fun _ => h3⟩
    simp only [ByShortcut, h1, ne_eq, not_true_eq_false, false_iff]
    tauto
  · have h1 := ByShortcut_loop_missing sc All (fun p hp hpsc => h ⟨p, hp, hpsc⟩)
    have h4 := mt (exists_Shortcut_iff sc).mpr h
    refine ⟨?_, ?_⟩
    · simp only [ByShortcut, h1, ne_eq]
      constructor
      · intro _; tauto
      · intro _; simp
    · simp [ByShortcut, h1]

/-- C10: `IdValid(x)` is true exactly when a policy of `All()` has identifier `x`, and
`ShortcutValid(x)` exactly when a policy of `All()` has shortcut `x`; so both are
true on every policy of `All()`, and false on every string that is the identifier
(the shortcut) of none. -/
theorem validity_iff_in_All :
    (∀ x, IdValid x = true ↔ ∃ p ∈ All, p.Id = x) ∧
    (∀ x, ShortcutValid x = true ↔ ∃ p ∈ All, p.Shortcut = x) ∧
    (∀ p ∈ All, IdValid p.Id = true ∧ ShortcutValid p.Shortcut = true) ∧
    (∀ x, (∀ p ∈ All, p.Id ≠ x) → IdValid x = false) ∧
    (∀ x, (∀ p ∈ All, p.Shortcut ≠ x) → ShortcutValid x = false) := by
  refine ⟨fun x => IdValid_loop_iff x All, fun x => ShortcutValid_loop_iff x All, ?_, ?_, ?_⟩
  · intro p hp
    exact ⟨(IdValid_loop_iff p.Id All).mpr ⟨p, hp, rfl⟩,
      (ShortcutValid_loop_iff p.Shortcut All).mpr ⟨p, hp, rfl⟩⟩
  · intro x hx
    cases hv : IdValid x with
    | false => rfl
    | true =>
      obtain ⟨p, hp, hpx⟩ := (IdValid_loop_iff x All).mp hv
      exact absurd hpx (hx p hp)
  · intro x hx
    cases hv : ShortcutValid x with
    | false => rfl
    | true =>
      obtain ⟨p, hp, hpx⟩ := (ShortcutValid_loop_iff x All).mp hv
      exact absurd hpx (hx p hp)

end policies

/-! ## Theorems: package `actions` -/

theorem base64.length_EncodeToString (l : List Byte) :
    (base64.EncodeToString l).length = 4 * ((l.length + 2) / 3) := by
  induction l using base64.EncodeToString.induct with
  | case1 => rfl
  | case2 s0 => simp [base64.EncodeToString]
  | case3 s0 s1 => simp [base64.EncodeToString]
  | case4 s0 s1 s2 rest ih =>
    simp only [base64.EncodeToString, List.length_cons, ih]
    omega

theorem sha256.length_checkSum (msg : List Byte) : (sha256.checkSum msg).length = 32 := by
  simp [sha256.checkSum, sha256.putUint32]

theorem sha256.blockGeneric_fuel (n m : Nat) (h : sha256.Regs) (p : List Byte)
    (hn : p.length ≤ n) (hm : p.length ≤ m) :
    sha256.blockGeneric n h p = sha256.blockGeneric m h p := by
  induction n generalizing m h p with
  | zero =>
    have hp : p = [] := List.length_eq_zero.mp (Nat.le_zero.mp hn)
    subst hp
    cases m <;> simp [sha256.blockGeneric]
  | succ n ih =>
    cases m with
    | zero =>
      have hp : p = [] := List.length_eq_zero.mp (Nat.le_zero.mp hm)
      subst hp
      simp [sha256.blockGeneric]
    | succ m =>
      simp only [sha256.blockGeneric]
      split
      · apply ih <;> simp only [List.length_drop] <;> omega
      · rfl

theorem utf8.one_le_size (b : Byte) (rest : GoString) :
    1 ≤ (utf8.DecodeRuneInString (b :: rest)).2 := by
  simp only [utf8.DecodeRuneInString]
  repeat' split
  all_goals simp

theorem json.appendString_loop_fuel (n m : Nat) (src : GoString)
    (hn : src.length ≤ n) (hm : src.length ≤ m) :
    json.appendString.loop n src = json.appendString.loop m src := by
  induction n generalizing m src with
  | zero =>
    have hp : src = [] := List.length_eq_zero.mp (Nat.le_zero.mp hn)
    subst hp
    cases m <;> simp [json.appendString.loop]
  | succ n ih =>
    cases src with
    | nil => cases m <;> simp [json.appendString.loop]
    | cons b rest =>
      cases m with
      | zero => simp at hm
      | succ m =>
        have h1 := utf8.one_le_size b rest
        simp only [List.length_cons] at hn hm
        have hr : json.appendString.loop n rest = json.appendString.loop m rest :=
          ih m rest (by omega) (by omega)
        have hd : json.appendString.loop n ((b :: rest).drop (utf8.DecodeRuneInString (b :: rest)).2)
            = json.appendString.loop m ((b :: rest).drop (utf8.DecodeRuneInString (b :: rest)).2) := by
          apply ih <;> simp only [List.length_drop, List.length_cons] <;> omega
        simp only [json.appendString.loop, hr, hd]

namespace actions

theorem Action.two_le_length_Marshal (a : Action) : 2 ≤ (json.Marshal a).length := by
  have h : (lit "\x7b\"command\":").length = 11 := by decide
  simp only [json.Marshal, List.length_append, h]
  omega

theorem Action.length_Hash (a : Action) :
    a.Hash.length = 4 * (((json.Marshal a).length + 34) / 3) := by
  simp [Action.Hash, sha256.digest.Sum, base64.length_EncodeToString, sha256.length_checkSum]

theorem Action.Marshal_colliding :
    json.Marshal collidingA =
        lit "\x7b\"command\":\x7b\"name\":\"run\"\x7d,\"plugin\":\"\\ufffd\"\x7d" ∧
      json.Marshal collidingB =
        lit "\x7b\"command\":\x7b\"name\":\"run\"\x7d,\"plugin\":\"\\ufffd\"\x7d" := by
  decide

set_option maxRecDepth 100000 in
theorem Action.Hash_testAction :
    testAction.Hash =
      lit "eyJjb21tYW5kIjp7Im5hbWUiOiJuYW1lIn0sInBsdWdpbiI6InRlc3QifeOwxEKY/BwUmvv0yJlvuSQnrkHkZJuTTKSVmRt4UrhV" := by
  decide

set_option maxRecDepth 100000 in
theorem Action.digest_testAction :
    base64.EncodeToString (sha256.Sum256 (json.Marshal testAction)) =
      lit "UrqfRrb/4V+7JcP8HQFTBp8aKcyad4CvNhOqO/7bfTQ=" := by
  decide

set_option maxRecDepth 100000 in
/-- C1 fails on the actions `collidingA` and `collidingB`: their plugins differ (and
their commands are the same), yet `Hash()` returns the same string for both,
because `json.Marshal` writes every byte that is not valid UTF-8 as the escape of
U+FFFD. -/
theorem Hash_collides_on_invalid_utf8 :
    collidingA.Plugin ≠ collidingB.Plugin ∧
    collidingA.Hash =
      lit "eyJjb21tYW5kIjp7Im5hbWUiOiJydW4ifSwicGx1Z2luIjoiXHVmZmZkIn3jsMRCmPwcFJr79MiZb7kkJ65B5GSbk0yklZkbeFK4VQ==" ∧
    collidingB.Hash =
      lit "eyJjb21tYW5kIjp7Im5hbWUiOiJydW4ifSwicGx1Z2luIjoiXHVmZmZkIn3jsMRCmPwcFJr79MiZb7kkJ65B5GSbk0yklZkbeFK4VQ==" := by
  decide

/-- C2: for every plugin and command name, the action with nil `Args` and the action
with empty `Args` have the same `Hash()`. -/
theorem Hash_nil_args_eq_empty_args (plugin name : GoString) :
    Action.Hash ⟨⟨name, none⟩, plugin⟩ = Action.Hash ⟨⟨name, some []⟩, plugin⟩ := by
  simp [Action.Hash, json.Marshal, json.marshalCommand, Command.lenArgs]

/-- C3 fails on every action: `Hash()` is the base64 encoding of the JSON of the
action followed by the SHA-256 digest of the empty input (what `Sum` appends to
its argument when nothing was written to the hash), and that is never the base64
encoding of the SHA-256 digest of the JSON. -/
theorem Hash_is_not_the_digest_of_the_json (a : Action) :
    a.Hash = base64.EncodeToString (json.Marshal a ++ sha256.Sum256 []) ∧
    a.Hash ≠ base64.EncodeToString (sha256.Sum256 (json.Marshal a)) := by
  refine ⟨rfl, fun h => ?_⟩
  have h1 := congrArg List.length h
  rw [Action.length_Hash, base64.length_EncodeToString, sha256.Sum256,
    sha256.length_checkSum] at h1
  have h2 := Action.two_le_length_Marshal a
  omega

/-- C4 fails on the actions `testAction` and `testsAction`, which differ by one
character of the plugin: their fingerprints have 100 and 104 characters. -/
theorem Hash_length_depends_on_the_action :
    testAction.Hash.length = 100 ∧ testsAction.Hash.length = 104 := by
  rw [Action.length_Hash, Action.length_Hash]
  decide

end actions

/-! ## Theorems: package `storage` -/

theorem policies.Id_injective_on_All (p q : policies.Policy) (hp : p ∈ policies.All)
    (hq : q ∈ policies.All) (h : p.Id = q.Id) : p = q := by
  rcases (policies.mem_All p).mp hp with rfl | rfl | rfl <;>
    rcases (policies.mem_All q).mp hq with rfl | rfl | rfl <;>
    first
      | rfl
      | exact absurd h (by decide)

theorem actions.Action.Hash_colliding : actions.collidingA.Hash = actions.collidingB.Hash := by
  have h : json.Marshal actions.collidingA = json.Marshal actions.collidingB := by decide
  simp only [actions.Action.Hash, h]

namespace storage
open policies

theorem memoryPolicyStorage.Get_Store_self_policy (m : memoryPolicyStorage) (k : GoString)
    (v : StoredPolicy) :
    (m.Store k v).Get k = if v = StoredPolicy.zero then (StoredPolicy.zero, false) else (v, true) := by
  by_cases h : v = StoredPolicy.zero <;> simp [memoryPolicyStorage.Store, memoryPolicyStorage.Get, h]

theorem memoryPolicyStorage.Get_Store_other_policy (m : memoryPolicyStorage) (k k2 : GoString)
    (v : StoredPolicy) (h : k2 ≠ k) : (m.Store k v).Get k2 = m.Get k2 := by
  by_cases hv : v = StoredPolicy.zero <;>
    simp [memoryPolicyStorage.Store, memoryPolicyStorage.Get, hv, h]

theorem memorySessionStorage.Get_Store_self_session (m : memorySessionStorage) (k : GoString)
    (v : StoredSession) :
    (m.Store k v).Get k = if v = StoredSession.zero then (StoredSession.zero, false) else (v, true) := by
  by_cases h : v = StoredSession.zero <;>
    simp [memorySessionStorage.Store, memorySessionStorage.Get, h]

theorem memorySessionStorage.Get_Store_other_session (m : memorySessionStorage) (k k2 : GoString)
    (v : StoredSession) (h : k2 ≠ k) : (m.Store k v).Get k2 = m.Get k2 := by
  by_cases hv : v = StoredSession.zero <;>
    simp [memorySessionStorage.Store, memorySessionStorage.Get, hv, h]

/-- C11: in every state of the in-memory policy storage and of the in-memory session
storage, for every key `k` and every value that is not the zero value, `Get(k)`
after `Store(k, v)` returns `(v, true)`, whatever `k` held before. -/
theorem Get_after_Store (mp : memoryPolicyStorage) (ms : memorySessionStorage) (k : GoString)
    (vp : StoredPolicy) (vs : StoredSession)
    (hp : vp ≠ StoredPolicy.zero) (hs : vs ≠ StoredSession.zero) :
    (mp.Store k vp).Get k = (vp, true) ∧ (ms.Store k vs).Get k = (vs, true) := by
  rw [memoryPolicyStorage.Get_Store_self_policy, memorySessionStorage.Get_Store_self_session]
  simp [hp, hs]

/-- The statement of C11 on a key that held another record. -/
theorem Get_after_Store_witness :
    examplePolicyRecord ≠ StoredPolicy.zero ∧ exampleSessionRecord ≠ StoredSession.zero ∧
    ((NewMemoryPolicyStorage.Store (lit "somehash") oldPolicyRecord).Store (lit "somehash")
        examplePolicyRecord).Get (lit "somehash") = (examplePolicyRecord, true) ∧
    (NewMemorySessionStorage.Store (lit "somehash") exampleSessionRecord).Get (lit "somehash") =
      (exampleSessionRecord, true) :=
  ⟨by decide, by decide,
    Get_after_Store (NewMemoryPolicyStorage.Store (lit "somehash") oldPolicyRecord)
      NewMemorySessionStorage (lit "somehash") examplePolicyRecord exampleSessionRecord
      (by decide) (by decide)⟩

/-- C12: in every state of the two in-memory storages and for every key `k`, `Get(k)`
after `Store(k, zero value)` returns the zero value and `false`. -/
theorem Get_after_Store_zero (mp : memoryPolicyStorage) (ms : memorySessionStorage)
    (k : GoString) :
    (mp.Store k StoredPolicy.zero).Get k = (StoredPolicy.zero, false) ∧
    (ms.Store k StoredSession.zero).Get k = (StoredSession.zero, false) := by
  rw [memoryPolicyStorage.Get_Store_self_policy, memorySessionStorage.Get_Store_self_session]
  simp

/-- C13: in the two in-memory storages, `Store(k, v)` leaves the result of `Get(k2)`
as it was, for every key `k2` other than `k` and every `v`, the zero value too. -/
theorem Store_keeps_other_keys (mp : memoryPolicyStorage) (ms : memorySessionStorage)
    (k k2 : GoString) (vp : StoredPolicy) (vs : StoredSession) (h : k2 ≠ k) :
    (mp.Store k vp).Get k2 = mp.Get k2 ∧ (ms.Store k vs).Get k2 = ms.Get k2 :=
  ⟨memoryPolicyStorage.Get_Store_other_policy mp k k2 vp h,
    memorySessionStorage.Get_Store_other_session ms k k2 vs h⟩

/-- The statement of C13 on the keys "somehash" and "other". -/
theorem Store_keeps_other_keys_witness :
    lit "other" ≠ lit "somehash" ∧
    ((NewMemoryPolicyStorage.Store (lit "other") oldPolicyRecord).Store (lit "somehash")
        StoredPolicy.zero).Get (lit "other") =
      (NewMemoryPolicyStorage.Store (lit "other") oldPolicyRecord).Get (lit "other") ∧
    (NewMemorySessionStorage.Store (lit "somehash") exampleSessionRecord).Get (lit "other") =
      NewMemorySessionStorage.Get (lit "other") :=
  ⟨by decide,
    Store_keeps_other_keys (NewMemoryPolicyStorage.Store (lit "other") oldPolicyRecord)
      NewMemorySessionStorage (lit "somehash") (lit "other") StoredPolicy.zero
      exampleSessionRecord (by decide)⟩

theorem Now_ne_zero (r : time.Reading) : time.Now r ≠ time.Time.zero := by
  simp [time.Now, time.Time.zero]

theorem store.Policy_eq {σ : Type} (P : Policies σ) (s : σ) (a : actions.Action) :
    store.Policy P s a =
      if (P.Get s a.Hash).2 = true ∧ IdValid (P.Get s a.Hash).1.PolicyId = true then
        (some (ById (P.Get s a.Hash).1.PolicyId).1, true)
      else (none, false) := by
  unfold store.Policy
  rcases hg : P.Get s a.Hash with ⟨val, ok⟩
  by_cases hz : val = StoredPolicy.zero
  · subst hz
    have h0 : IdValid StoredPolicy.zero.PolicyId = false := by decide
    simp [h0]
  · cases ok <;> cases hv : IdValid val.PolicyId <;> simp [hz, hv]

theorem store.Policy_SetPolicy_of_Hash_eq (m : memoryPolicyStorage) (a b : actions.Action)
    (p : policies.Policy) (now : time.Reading) (hp : p ∈ All) (h : b.Hash = a.Hash) :
    store.Policy memoryPolicies (store.SetPolicy memoryPolicies m a (some p) now) b =
      (some p, true) := by
  have hne : ({ PolicyId := p.Id, Timestamp := time.Now now } : StoredPolicy) ≠
      StoredPolicy.zero := by
    intro h
    exact Now_ne_zero now (congrArg StoredPolicy.Timestamp h)
  have hv : IdValid p.Id = true := (IdValid_loop_iff p.Id All).mpr ⟨p, hp, rfl⟩
  have hb : (ById p.Id).1 = p := by
    rcases (mem_All p).mp hp with rfl | rfl | rfl <;> decide
  rw [store.Policy_eq, h]
  simp only [store.SetPolicy, memoryPolicies, memoryPolicyStorage.Get_Store_self_policy, hne, if_false,
    hv, hb, and_self, if_true]

/-- C14: on the in-memory policy storage, for every action `a` and every policy `p`
of `All()`, `Policy(a)` after `SetPolicy(a, p)` returns `(p, true)`, whatever the
storage held before. -/
theorem Policy_after_SetPolicy (m : memoryPolicyStorage) (a : actions.Action) (p : Policy)
    (now : time.Reading) (hp : p ∈ All) :
    store.Policy memoryPolicies (store.SetPolicy memoryPolicies m a (some p) now) a =
      (some p, true) :=
  store.Policy_SetPolicy_of_Hash_eq m a a p now hp rfl

/-- The statement of C14 on `testAction`, set to `Allow()` and then to `Deny()`. -/
theorem Policy_after_SetPolicy_witness :
    Deny ∈ All ∧
    store.Policy memoryPolicies
      (store.SetPolicy memoryPolicies
        (store.SetPolicy memoryPolicies NewMemoryPolicyStorage actions.testAction (some Allow)
          ⟨1, 2⟩)
        actions.testAction (some Deny) ⟨5, 7⟩) actions.testAction = (some Deny, true) :=
  ⟨by decide, Policy_after_SetPolicy _ actions.testAction Deny ⟨5, 7⟩ (by decide)⟩

/-- C15: on the in-memory policy storage, for every action `a`, `Policy(a)` after
`SetPolicy(a, nil)` returns `(nil, false)`, whatever the storage held before. -/
theorem Policy_after_SetPolicy_nil (m : memoryPolicyStorage) (a : actions.Action)
    (now : time.Reading) :
    store.Policy memoryPolicies (store.SetPolicy memoryPolicies m a none now) a =
      (none, false) := by
  rw [store.Policy_eq]
  simp [store.SetPolicy, memoryPolicies, memoryPolicyStorage.Get_Store_self_policy]

/-- C16: on every backend, in every state and for every action `a`: when `Get` finds
a record under `a.Hash()` whose `PolicyId` is the identifier of a policy `q` of
`All()`, `Policy(a)` returns `(q, true)`; in every other case it returns
`(nil, false)`; so its second result is true exactly in the first case. -/
theorem Policy_iff_known_record {σ : Type} (P : Policies σ) (s : σ) (a : actions.Action) :
    (∀ q ∈ All, (P.Get s a.Hash).2 = true → (P.Get s a.Hash).1.PolicyId = q.Id →
      store.Policy P s a = (some q, true)) ∧
    (¬ ((P.Get s a.Hash).2 = true ∧ ∃ q ∈ All, (P.Get s a.Hash).1.PolicyId = q.Id) →
      store.Policy P s a = (none, false)) ∧
    ((store.Policy P s a).2 = true ↔
      ((P.Get s a.Hash).2 = true ∧ ∃ q ∈ All, (P.Get s a.Hash).1.PolicyId = q.Id)) := by
  have key : ∀ q ∈ All, (P.Get s a.Hash).2 = true → (P.Get s a.Hash).1.PolicyId = q.Id →
      store.Policy P s a = (some q, true) := by
    intro q hq hok hid
    have hex : ∃ p ∈ All, p.Id = (P.Get s a.Hash).1.PolicyId := ⟨q, hq, hid.symm⟩
    have hval : IdValid (P.Get s a.Hash).1.PolicyId = true := (IdValid_loop_iff _ All).mpr hex
    obtain ⟨_, h2, h3⟩ := ById_loop_found _ All hex
    have hb : (ById (P.Get s a.Hash).1.PolicyId).1 = q :=
      Id_injective_on_All _ _ h2 hq (h3.trans hid)
    rw [store.Policy_eq]
    simp only [hok, hval, hb, and_self, if_true]
  have miss : ¬ ((P.Get s a.Hash).2 = true ∧ ∃ q ∈ All, (P.Get s a.Hash).1.PolicyId = q.Id) →
      store.Policy P s a = (none, false) := by
    intro hn
    rw [store.Policy_eq]
    have : ¬ ((P.Get s a.Hash).2 = true ∧ IdValid (P.Get s a.Hash).1.PolicyId = true) := by
      rintro ⟨hok, hv⟩
      obtain ⟨q, hq, hid⟩ := (IdValid_loop_iff _ All).mp hv
      exact hn ⟨hok, q, hq, hid.symm⟩
    simp only [this, if_false]
  refine ⟨key, miss, ?_⟩
  constructor
  · intro h
    by_contra hn
    rw [miss hn] at h
    exact absurd h (by decide)
  · rintro ⟨hok, q, hq, hid⟩
    rw [key q hq hok hid]

/-- The statement of C16 on a backend with an unknown identifier and on a record of
`Deny()`. -/
theorem Policy_iff_known_record_witness :
    store.Policy corruptedBackend () actions.testAction = (none, false) ∧
    store.Policy memoryPolicies
        (NewMemoryPolicyStorage.Store actions.testAction.Hash ⟨lit "DENY", time.Time.zero⟩)
        actions.testAction = (some Deny, true) := by
  refine ⟨(Policy_iff_known_record corruptedBackend () actions.testAction).2.1 ?_,
    (Policy_iff_known_record memoryPolicies _ actions.testAction).1 Deny (by decide) ?_ ?_⟩
  · rintro ⟨_, q, hq, hid⟩
    rcases (mem_All q).mp hq with rfl | rfl | rfl <;> exact absurd hid (by decide)
  · simp only [memoryPolicies, memoryPolicyStorage.Get_Store_self_policy]
    rw [if_neg (by decide)]
  · simp only [memoryPolicies, memoryPolicyStorage.Get_Store_self_policy]
    rw [if_neg (by decide)]
    rfl

theorem store.Policy_SetPolicy_of_Hash_ne (m : memoryPolicyStorage) (a b : actions.Action)
    (pol : Option policies.Policy) (now : time.Reading) (h : b.Hash ≠ a.Hash) :
    store.Policy memoryPolicies (store.SetPolicy memoryPolicies m a pol now) b =
      store.Policy memoryPolicies m b := by
  rw [store.Policy_eq, store.Policy_eq]
  cases pol <;>
    simp only [store.SetPolicy, memoryPolicies, memoryPolicyStorage.Get_Store_other_policy _ _ _ _ h]

/-- C17 fails on the actions `collidingA` and `collidingB`, whose plugins differ: in
the empty in-memory storage `Policy(collidingB)` is `(nil, false)`, and after
`SetPolicy(collidingA, AllowAlways())` it is `(AllowAlways(), true)`, because the
two actions have the same `Hash()`. -/
theorem SetPolicy_changes_Policy_of_colliding_action :
    actions.collidingA.Plugin ≠ actions.collidingB.Plugin ∧
    store.Policy memoryPolicies NewMemoryPolicyStorage actions.collidingB = (none, false) ∧
    store.Policy memoryPolicies
      (store.SetPolicy memoryPolicies NewMemoryPolicyStorage actions.collidingA
        (some AllowAlways) ⟨5, 7⟩) actions.collidingB = (some AllowAlways, true) := by
  refine ⟨by decide, ?_, ?_⟩
  · rw [store.Policy_eq]
    simp [memoryPolicies, memoryPolicyStorage.Get, NewMemoryPolicyStorage]
  · exact store.Policy_SetPolicy_of_Hash_eq _ _ _ _ _ (by decide)
      actions.Action.Hash_colliding.symm

/-- C18: on the in-memory session storage, for every session `s` (empty id or secret
included), `SetSession(s)` does not panic and `Session(s.Id())` then returns a
session with the id and the secret of `s`, and `true`, whatever the storage held
before. -/
theorem Session_after_SetSession (m : memorySessionStorage) (s : sessions.session)
    (now : time.Reading) :
    ∃ m2 s2, store.SetSession memorySessions m (some s) now = some m2 ∧
      store.Session memorySessions m2 s.Id = (some s2, true) ∧
      s2.Id = s.Id ∧ s2.Secret = s.Secret := by
  have hne : ({ Secret := s.Secret, Created := time.Now now } : StoredSession) ≠
      StoredSession.zero := by
    intro h
    exact Now_ne_zero now (congrArg StoredSession.Created h)
  refine ⟨_, sessions.New s.Id s.Secret, rfl, ?_, rfl, rfl⟩
  simp [store.Session, memorySessions, memorySessionStorage.Get_Store_self_session, hne]

/-- C19: on the in-memory session storage, `Session(id)` after `DeleteSession(id)`
returns `(nil, false)`, and `Session(id2)` is unchanged for every other `id2`. -/
theorem Session_after_DeleteSession (m : memorySessionStorage) (id id2 : GoString)
    (h : id2 ≠ id) :
    store.Session memorySessions (store.DeleteSession memorySessions m id) id = (none, false) ∧
    store.Session memorySessions (store.DeleteSession memorySessions m id) id2 =
      store.Session memorySessions m id2 := by
  constructor
  · simp [store.Session, store.DeleteSession, memorySessions,
      memorySessionStorage.Get_Store_self_session]
  · simp only [store.Session, store.DeleteSession, memorySessions,
      memorySessionStorage.Get_Store_other_session _ _ _ _ h]

/-- The statement of C19 on the ids "test" and "t". -/
theorem Session_after_DeleteSession_witness :
    lit "t" ≠ lit "test" ∧
    store.Session memorySessions
      (store.DeleteSession memorySessions
        (NewMemorySessionStorage.Store (lit "test") exampleSessionRecord) (lit "test"))
      (lit "test") = (none, false) ∧
    store.Session memorySessions
      (store.DeleteSession memorySessions
        (NewMemorySessionStorage.Store (lit "t") exampleSessionRecord) (lit "test"))
      (lit "t") =
      store.Session memorySessions
        (NewMemorySessionStorage.Store (lit "t") exampleSessionRecord) (lit "t") :=
  ⟨by decide,
    (Session_after_DeleteSession _ (lit "test") (lit "t") (by decide)).1,
    (Session_after_DeleteSession _ (lit "test") (lit "t") (by decide)).2⟩
end storage

/-! ## Theorems: package `ui` -/

namespace ui

theorem cliUI.writePrompt_facts (c : cliUI) (tmp : Option GoString) :
    (c.writePrompt tmp).sent = c.sent ∧ (c.writePrompt tmp).waiting = c.waiting := by
  unfold cliUI.writePrompt
  cases hq : c.queue with
  | nil => simp
  | cons r rest =>
    simp only
    unfold requestResponse.FileURI
    cases hf : r.File with
    | some f => simp [cliUI.waiting, hq]
    | none =>
      cases tmp with
      | none => simp [cliUI.waiting, hq]
      | some f => simp [cliUI.waiting, hq]

theorem cliUI.updateDisplayedPrompt_facts (c : cliUI) (tmp : Option GoString) :
    (c.updateDisplayedPrompt tmp).sent = c.sent ∧
      (c.updateDisplayedPrompt tmp).waiting = c.waiting := by
  have h := cliUI.writePrompt_facts c tmp
  unfold cliUI.updateDisplayedPrompt
  split
  · exact ⟨rfl, rfl⟩
  · simp only
    split
    · exact h
    · exact h

theorem cliUI.Handle_facts (c : cliUI) (req : actions.Action) (res : Chan)
    (tmp : Option GoString) :
    (c.Handle req res tmp).sent = c.sent ∧ (c.Handle req res tmp).waiting = c.waiting ++ [res] := by
  have h0 : ∀ c0 : cliUI, (c0.handleQueue tmp).sent = c0.sent ∧
      (c0.handleQueue tmp).waiting = c0.waiting := by
    intro c0
    have h1 := cliUI.writePrompt_facts c0 tmp
    have h2 := cliUI.updateDisplayedPrompt_facts (c0.render tmp) tmp
    unfold cliUI.handleQueue
    simp only [cliUI.render] at h2 ⊢
    split
    · split
      · exact h1
      · split
        · exact h1
        · exact ⟨h2.1.trans h1.1, h2.2.trans h1.2⟩
    · exact h1
  have h := h0 { c with queue := c.queue ++ [{ Req := req, Res := res, File := none }] }
  unfold cliUI.Handle
  refine ⟨h.1, h.2.trans ?_⟩
  simp [cliUI.waiting]

/-- What `handlePrompt` does to the channels: either the process stops and at most
the head has been served, or the head has been served and popped. -/
theorem cliUI.handlePrompt_facts (c : cliUI) (sc : GoString) (removeOk : Bool)
    (tmp : Option GoString) :
    ((c.handlePrompt sc removeOk tmp).status ≠ Status.running ∧
        ((c.handlePrompt sc removeOk tmp).decided = c.decided ∨
          ∃ r rest, c.queue = r :: rest ∧
            (c.handlePrompt sc removeOk tmp).decided = c.decided ++ [r.Res])) ∨
      ∃ r rest, c.queue = r :: rest ∧
        (c.handlePrompt sc removeOk tmp).sent = c.sent ++ [(r.Res, (policies.ByShortcut sc).1)] ∧
        (c.handlePrompt sc removeOk tmp).waiting = rest.map requestResponse.Res := by
  unfold cliUI.handlePrompt
  rcases hb : policies.ByShortcut sc with ⟨policy, err⟩
  simp only
  cases err with
  | some e => left; simp [cliUI.decided]
  | none =>
    simp only [Option.isSome_none, Bool.false_eq_true, if_false]
    cases hq : c.queue with
    | nil => left; simp [cliUI.decided]
    | cons r rest =>
      simp only
      cases hf : r.File with
      | none => left; exact ⟨by simp, Or.inr ⟨r, rest, rfl, by simp [cliUI.decided]⟩⟩
      | some f =>
        simp only
        cases removeOk with
        | false => left; exact ⟨by simp, Or.inr ⟨r, rest, rfl, by simp [cliUI.decided]⟩⟩
        | true =>
          right
          refine ⟨r, rest, rfl, ?_⟩
          simp only [if_true]
          have hs : (cliUI.mk rest c.prompts (c.sent ++ [(r.Res, policy)]) (c.removed ++ [f])
              c.status).sent = c.sent ++ [(r.Res, policy)] := rfl
          have hw : (cliUI.mk rest c.prompts (c.sent ++ [(r.Res, policy)]) (c.removed ++ [f])
              c.status).waiting = rest.map requestResponse.Res := rfl
          generalize (cliUI.mk rest c.prompts (c.sent ++ [(r.Res, policy)]) (c.removed ++ [f])
              c.status) = c2 at hs hw ⊢
          have h1 := cliUI.writePrompt_facts c2 tmp
          have h2 := cliUI.updateDisplayedPrompt_facts (c2.writePrompt tmp) tmp
          simp only [cliUI.render]
          split
          · split
            · exact ⟨h2.1.trans (h1.1.trans hs), h2.2.trans (h1.2.trans hw)⟩
            · exact ⟨h1.1.trans hs, h1.2.trans hw⟩
          · exact ⟨hs, hw⟩

theorem Fifo_step (c c2 : cliUI) (e : Event) (H : List Chan) (hc : Fifo c H)
    (hs : step c e = some c2) : Fifo c2 (H ++ handed [e]) := by
  obtain ⟨hpre, hrun⟩ := hc
  cases e with
  | Handle req res tmp =>
    simp only [step] at hs
    split at hs
    · rename_i hst
      have hH := hrun hst
      injection hs with hs
      subst hs
      obtain ⟨h1, h2⟩ := cliUI.Handle_facts c req res tmp
      have hd : (c.Handle req res tmp).decided = c.decided := by
        simp only [cliUI.decided, h1]
      refine ⟨?_, fun _ => ?_⟩
      · rw [hd]
        exact hpre.trans (List.prefix_append _ _)
      · rw [hd, h2, ← hH]
        simp [handed]
    · exact absurd hs (by simp)
  | Input inp removeOk tmp =>
    simp only [step] at hs
    split at hs
    · rename_i hst
      have hH := hrun hst.1
      simp only [handed, List.append_nil]
      split at hs
      · injection hs with hs
        subst hs
        rcases cliUI.handlePrompt_facts { c with prompts := c.prompts - 1 } inp removeOk tmp
          with ⟨hstop, hdec | ⟨r, rest, hq, hdec⟩⟩ | ⟨r, rest, hq, hsent, hwait⟩
        · refine ⟨?_, fun h => absurd h hstop⟩
          rw [hdec]
          exact hpre
        · refine ⟨?_, fun h => absurd h hstop⟩
          rw [hdec, ← hH]
          have hq2 : c.queue = r :: rest := hq
          simp [cliUI.decided, cliUI.waiting, hq2]
        · have hq2 : c.queue = r :: rest := hq
          have hsent2 : (cliUI.handlePrompt { c with prompts := c.prompts - 1 } inp removeOk
              tmp).decided = c.decided ++ [r.Res] := by
            simp only [cliUI.decided, hsent, List.map_append, List.map_cons, List.map_nil]
          have hall : (c.decided ++ [r.Res]) ++ rest.map requestResponse.Res = H := by
            rw [← hH]
            simp [cliUI.waiting, hq2]
          refine ⟨?_, fun _ => ?_⟩
          · rw [hsent2, ← hall]
            exact List.prefix_append _ _
          · rw [hsent2, hwait, hall]
      · injection hs with hs
        subst hs
        obtain ⟨h1, h2⟩ := cliUI.writePrompt_facts c tmp
        have hd : (c.render tmp).decided = c.decided := by
          simp only [cliUI.decided, cliUI.render, h1]
        refine ⟨?_, fun _ => ?_⟩
        · rw [hd]; exact hpre
        · rw [hd]
          simp only [cliUI.render, h2]
          exact hH
    · exact absurd hs (by simp)
  | InputError =>
    simp only [step] at hs
    split at hs
    · injection hs with hs
      subst hs
      simp only [handed, List.append_nil]
      exact ⟨hpre, fun h => absurd h (by simp)⟩
    · exact absurd hs (by simp)

theorem handed_append (es fs : List Event) : handed (es ++ fs) = handed es ++ handed fs := by
  induction es with
  | nil => rfl
  | cons e es ih => cases e <;> simp [handed, ih]

theorem Fifo_run (evs : List Event) (c c2 : cliUI) (H : List Chan) (hc : Fifo c H)
    (hr : run c evs = some c2) : Fifo c2 (H ++ handed evs) := by
  induction evs generalizing c H with
  | nil =>
    simp only [run] at hr
    injection hr with hr
    subst hr
    simpa [handed] using hc
  | cons e es ih =>
    simp only [run] at hr
    cases hs : step c e with
    | none => rw [hs] at hr; exact absurd hr (by simp)
    | some c1 =>
      rw [hs] at hr
      have h1 := Fifo_step c c1 e H hc hs
      have h2 := ih c1 (H ++ handed [e]) h1 hr
      have : H ++ handed (e :: es) = H ++ handed [e] ++ handed es := by
        rw [List.append_assoc, ← handed_append]
        rfl
      rw [this]
      exact h2

theorem Fifo_NewCli : Fifo NewCli [] := by
  refine ⟨?_, fun _ => ?_⟩ <;> simp [NewCli, cliUI.decided, cliUI.waiting]

/-- C20: in every run of `Handle` calls and inputs from `NewCli()`, the channels that
received a decision, in the order of the sends, are the first of the channels
handed to `Handle`, in the order of the calls; and while the process runs, they
are followed in that order by the channels of the queue, head first: a request
enters at the tail and leaves at the head, when its decision is sent. -/
theorem decisions_follow_the_order_of_Handle (evs : List Event) (c : cliUI)
    (h : run NewCli evs = some c) :
    c.decided <+: handed evs ∧
      (c.status = Status.running → c.decided ++ c.waiting = handed evs) := by
  have := Fifo_run evs NewCli c [] Fifo_NewCli h
  simpa [Fifo] using this

/-- The statement of C20 on `exampleRun`. -/
theorem decisions_follow_the_order_of_Handle_witness :
    run NewCli exampleRun = some exampleEnd ∧
    exampleEnd.decided = [1, 2] ∧ exampleEnd.waiting = [3] ∧ handed exampleRun = [1, 2, 3] ∧
    exampleEnd.decided <+: handed exampleRun :=
  ⟨by decide, by decide, by decide, by decide,
    (decisions_follow_the_order_of_Handle exampleRun exampleEnd (by decide)).1⟩

theorem cliUI.writePrompt_of_file (c : cliUI) (tmp : Option GoString) (r : requestResponse)
    (rest : List requestResponse) (hq : c.queue = r :: rest) (hf : r.File.isSome = true) :
    c.writePrompt tmp = c := by
  obtain ⟨f, hf⟩ := Option.isSome_iff_exists.mp hf
  unfold cliUI.writePrompt
  rw [hq]
  simp only [requestResponse.FileURI, hf]
  rw [← hq]

theorem cliUI.writePrompt_no_file (c : cliUI) (tmp : Option GoString) (r : requestResponse)
    (rest : List requestResponse) (hq : c.queue = r :: rest) (hf : r.File = none) :
    c.writePrompt tmp =
      match tmp with
      | some f => { c with queue := { r with File := some f } :: rest }
      | none => { c with status := Status.fatal } := by
  unfold cliUI.writePrompt
  rw [hq]
  cases tmp <;> simp [requestResponse.FileURI, hf]

theorem cliUI.Handle_nonempty (c : cliUI) (req : actions.Action) (res : Chan)
    (tmp : Option GoString) (r : requestResponse) (rest : List requestResponse)
    (hq : c.queue = r :: rest) (hf : r.File.isSome = true) (hrun : c.status = Status.running) :
    c.Handle req res tmp = c.enqueue req res := by
  have h1 : (c.enqueue req res).writePrompt tmp = c.enqueue req res :=
    cliUI.writePrompt_of_file _ tmp r (rest ++ [{ Req := req, Res := res, File := none }])
      (by simp [cliUI.enqueue, hq]) hf
  have h2 : (c.enqueue req res).status = Status.running := hrun
  have h3 : (c.enqueue req res).queue.length = rest.length + 2 := by
    simp [cliUI.enqueue, hq]
  show (c.enqueue req res).handleQueue tmp = c.enqueue req res
  unfold cliUI.handleQueue
  simp only [cliUI.render, h1, h2, h3, if_true]
  rw [if_neg (by omega), if_pos (by omega)]

theorem cliUI.Handle_empty_some (c : cliUI) (req : actions.Action) (res : Chan)
    (f : GoString) (hq : c.queue = []) (hrun : c.status = Status.running) :
    c.Handle req res (some f) =
      { c with queue := [{ Req := req, Res := res, File := some f }], prompts := c.prompts + 1 } := by
  simp [cliUI.Handle, cliUI.handleQueue, cliUI.render, cliUI.writePrompt,
    requestResponse.FileURI, cliUI.updateDisplayedPrompt, hq, hrun]

theorem cliUI.Handle_empty_none (c : cliUI) (req : actions.Action) (res : Chan)
    (hq : c.queue = []) :
    c.Handle req res none =
      { c with queue := [{ Req := req, Res := res, File := none }], status := Status.fatal } := by
  simp [cliUI.Handle, cliUI.handleQueue, cliUI.render, cliUI.writePrompt,
    requestResponse.FileURI, hq]

theorem Ready_Handle (c : cliUI) (req : actions.Action) (res : Chan) (tmp : Option GoString)
    (hc : Ready c) (hrun : c.status = Status.running) : Ready (c.Handle req res tmp) := by
  have hc2 := hc hrun
  cases hq : c.queue with
  | nil =>
    rw [hq] at hc2
    simp only at hc2
    cases tmp with
    | none =>
      rw [cliUI.Handle_empty_none c req res hq]
      intro h
      exact absurd h (by simp)
    | some f =>
      rw [cliUI.Handle_empty_some c req res f hq hrun]
      intro _
      simp [hc2]
  | cons r rest =>
    rw [hq] at hc2
    simp only at hc2
    rw [cliUI.Handle_nonempty c req res tmp r rest hq hc2.2 hrun]
    intro _
    simp [cliUI.enqueue, hq, hc2]

theorem ByShortcut_of_valid (sc : GoString) (h : policies.ShortcutValid sc = true) :
    ∃ p, p ∈ policies.All ∧ p.Shortcut = sc ∧ policies.ByShortcut sc = (p, none) := by
  have hex := (policies.ShortcutValid_loop_iff sc policies.All).mp h
  obtain ⟨h1, h2, h3⟩ := policies.ByShortcut_loop_found sc policies.All hex
  exact ⟨(policies.ByShortcut sc).1, h2, h3, Prod.ext rfl h1⟩

theorem cliUI.handlePrompt_served (c : cliUI) (sc : GoString) (removeOk : Bool)
    (tmp : Option GoString) (p : policies.Policy) (r : requestResponse)
    (rest : List requestResponse) (f : GoString)
    (hb : policies.ByShortcut sc = (p, none)) (hq : c.queue = r :: rest)
    (hf : r.File = some f) :
    c.handlePrompt sc removeOk tmp =
      if removeOk then
        if 0 < rest.length then
          if ((cliUI.mk rest c.prompts (c.sent ++ [(r.Res, p)]) (c.removed ++ [f])
              c.status).render tmp).status = Status.running then
            ((cliUI.mk rest c.prompts (c.sent ++ [(r.Res, p)]) (c.removed ++ [f])
              c.status).render tmp).updateDisplayedPrompt tmp
          else (cliUI.mk rest c.prompts (c.sent ++ [(r.Res, p)]) (c.removed ++ [f])
              c.status).render tmp
        else cliUI.mk rest c.prompts (c.sent ++ [(r.Res, p)]) (c.removed ++ [f]) c.status
      else cliUI.mk c.queue c.prompts (c.sent ++ [(r.Res, p)]) c.removed Status.fatal := by
  unfold cliUI.handlePrompt
  rw [hb]
  simp only [Option.isSome_none, Bool.false_eq_true, if_false, hq, hf]

theorem Ready_handlePrompt (c : cliUI) (sc : GoString) (removeOk : Bool)
    (tmp : Option GoString) (hc : Ready c) (hrun : c.status = Status.running)
    (hp : 0 < c.prompts) (hv : policies.ShortcutValid sc = true) :
    Ready (cliUI.handlePrompt { c with prompts := c.prompts - 1 } sc removeOk tmp) := by
  have hc2 := hc hrun
  obtain ⟨p, _, _, hb⟩ := ByShortcut_of_valid sc hv
  cases hq : c.queue with
  | nil =>
    rw [hq] at hc2
    simp only at hc2
    omega
  | cons r rest =>
    rw [hq] at hc2
    simp only at hc2
    obtain ⟨f, hf⟩ := Option.isSome_iff_exists.mp hc2.2
    rw [cliUI.handlePrompt_served (cliUI.mk (r :: rest) (c.prompts - 1) c.sent c.removed c.status)
      sc removeOk tmp p r rest f hb rfl hf]
    cases removeOk with
    | false =>
      intro h
      exact absurd h (by simp)
    | true =>
      simp only [if_true]
      cases rest with
      | nil =>
        intro _
        simp [hc2.1]
      | cons r2 rest2 =>
        simp only [List.length_cons, Nat.zero_lt_succ, if_true, cliUI.render]
        cases hf2 : r2.File with
        | some f2 =>
          intro _
          simp [cliUI.updateDisplayedPrompt, cliUI.writePrompt, requestResponse.FileURI, hf2,
            hrun, hc2.1]
        | none =>
          cases tmp with
          | none =>
            intro h
            exfalso
            revert h
            simp [cliUI.writePrompt, requestResponse.FileURI, hf2]
          | some f3 =>
            intro _
            simp [cliUI.updateDisplayedPrompt, cliUI.writePrompt, requestResponse.FileURI, hf2,
              hrun, hc2.1]

theorem Ready_step (c c2 : cliUI) (e : Event) (hc : Ready c) (hs : step c e = some c2) :
    Ready c2 := by
  cases e with
  | Handle req res tmp =>
    simp only [step] at hs
    split at hs
    · rename_i hrun
      injection hs with hs
      subst hs
      exact Ready_Handle c req res tmp hc hrun
    · exact absurd hs (by simp)
  | Input inp removeOk tmp =>
    simp only [step] at hs
    split at hs
    · rename_i hst
      split at hs
      · rename_i hv
        injection hs with hs
        subst hs
        exact Ready_handlePrompt c inp removeOk tmp hc hst.1 hst.2 hv
      · injection hs with hs
        subst hs
        have hc2 := hc hst.1
        cases hq : c.queue with
        | nil =>
          rw [hq] at hc2
          simp only at hc2
          have := hst.2
          omega
        | cons r rest =>
          rw [hq] at hc2
          simp only at hc2
          rw [cliUI.render, cliUI.writePrompt_of_file c tmp r rest hq hc2.2]
          exact hc
    · exact absurd hs (by simp)
  | InputError =>
    simp only [step] at hs
    split at hs
    · injection hs with hs
      subst hs
      intro h
      exact absurd h (by simp)
    · exact absurd hs (by simp)

theorem Ready_run (evs : List Event) (c c2 : cliUI) (hc : Ready c) (hr : run c evs = some c2) :
    Ready c2 := by
  induction evs generalizing c with
  | nil =>
    simp only [run] at hr
    injection hr with hr
    subst hr
    exact hc
  | cons e es ih =>
    simp only [run] at hr
    cases hs : step c e with
    | none => rw [hs] at hr; exact absurd hr (by simp)
    | some c1 =>
      rw [hs] at hr
      exact ih c1 (Ready_step c c1 e hc hs) hr

theorem Ready_NewCli : Ready NewCli := by
  intro _
  simp [NewCli]

theorem cliUI.handlePrompt_effect (c : cliUI) (sc : GoString) (removeOk : Bool)
    (tmp : Option GoString) (p : policies.Policy) (r : requestResponse)
    (rest : List requestResponse) (f : GoString)
    (hb : policies.ByShortcut sc = (p, none)) (hq : c.queue = r :: rest)
    (hf : r.File = some f) :
    (c.handlePrompt sc removeOk tmp).sent = c.sent ++ [(r.Res, p)] ∧
      ((c.handlePrompt sc removeOk tmp).waiting = rest.map requestResponse.Res ∨
        ((c.handlePrompt sc removeOk tmp).waiting = c.waiting ∧
          (c.handlePrompt sc removeOk tmp).status ≠ Status.running)) := by
  rw [cliUI.handlePrompt_served c sc removeOk tmp p r rest f hb hq hf]
  cases removeOk with
  | false => exact ⟨rfl, Or.inr ⟨rfl, by simp⟩⟩
  | true =>
    simp only [if_true]
    have hs : (cliUI.mk rest c.prompts (c.sent ++ [(r.Res, p)]) (c.removed ++ [f])
        c.status).sent = c.sent ++ [(r.Res, p)] := rfl
    have hw : (cliUI.mk rest c.prompts (c.sent ++ [(r.Res, p)]) (c.removed ++ [f])
        c.status).waiting = rest.map requestResponse.Res := rfl
    generalize (cliUI.mk rest c.prompts (c.sent ++ [(r.Res, p)]) (c.removed ++ [f])
        c.status) = c2 at hs hw ⊢
    have h1 := cliUI.writePrompt_facts c2 tmp
    have h2 := cliUI.updateDisplayedPrompt_facts (c2.writePrompt tmp) tmp
    simp only [cliUI.render]
    split
    · split
      · exact ⟨h2.1.trans (h1.1.trans hs), Or.inl (h2.2.trans (h1.2.trans hw))⟩
      · exact ⟨h1.1.trans hs, Or.inl (h1.2.trans hw)⟩
    · exact ⟨hs, Or.inl hw⟩

theorem Ready_head (c : cliUI) (hc : Ready c) (hrun : c.status = Status.running)
    (hp : 0 < c.prompts) :
    ∃ r rest f, c.queue = r :: rest ∧ r.File = some f ∧ c.prompts = 1 := by
  have hc2 := hc hrun
  cases hq : c.queue with
  | nil =>
    rw [hq] at hc2
    simp only at hc2
    omega
  | cons r rest =>
    rw [hq] at hc2
    simp only at hc2
    obtain ⟨f, hf⟩ := Option.isSome_iff_exists.mp hc2.2
    exact ⟨r, rest, f, rfl, hf, hc2.1⟩

theorem step_valid_input (c c2 : cliUI) (inp : GoString) (removeOk : Bool)
    (tmp : Option GoString) (hc : Ready c) (hv : policies.ShortcutValid inp = true)
    (hs : step c (Event.Input inp removeOk tmp) = some c2) :
    ∃ r rest p, policies.ByShortcut inp = (p, none) ∧ c.queue = r :: rest ∧
      c2.sent = c.sent ++ [(r.Res, p)] ∧
      (c2.waiting = rest.map requestResponse.Res ∨
        (c2.waiting = c.waiting ∧ c2.status ≠ Status.running)) := by
  simp only [step, hv, if_true] at hs
  split at hs
  · rename_i hst
    injection hs with hs
    obtain ⟨p, _, _, hb⟩ := ByShortcut_of_valid inp hv
    obtain ⟨r, rest, f, hq, hf, _⟩ := Ready_head c hc hst.1 hst.2
    have := cliUI.handlePrompt_effect
      (cliUI.mk c.queue (c.prompts - 1) c.sent c.removed c.status) inp removeOk tmp
      p r rest f hb hq hf
    rw [hs] at this
    exact ⟨r, rest, p, hb, hq, this⟩
  · exact absurd hs (by simp)

/-- What one step does to the channels, from a state that satisfies `Ready`: either
it sends nothing and no request leaves the queue, or it sends one decision, to
the head, which leaves the queue unless the process stops. -/
theorem step_effect (c c2 : cliUI) (e : Event) (hc : Ready c) (hs : step c e = some c2) :
    (c2.sent = c.sent ∧ c2.waiting = c.waiting ++ handed [e]) ∨
      ∃ r rest p, c.queue = r :: rest ∧ c2.sent = c.sent ++ [(r.Res, p)] ∧
        (c2.waiting = rest.map requestResponse.Res ∨
          (c2.waiting = c.waiting ∧ c2.status ≠ Status.running)) := by
  cases e with
  | Handle req res tmp =>
    simp only [step] at hs
    split at hs
    · injection hs with hs
      subst hs
      exact Or.inl (cliUI.Handle_facts c req res tmp)
    · exact absurd hs (by simp)
  | Input inp removeOk tmp =>
    cases hv : policies.ShortcutValid inp with
    | true =>
      obtain ⟨r, rest, p, _, hq, h2, h3⟩ := step_valid_input c c2 inp removeOk tmp hc hv hs
      exact Or.inr ⟨r, rest, p, hq, h2, h3⟩
    | false =>
      simp only [step, hv, Bool.false_eq_true, if_false] at hs
      split at hs
      · injection hs with hs
        subst hs
        obtain ⟨h1, h2⟩ := cliUI.writePrompt_facts c tmp
        exact Or.inl ⟨h1, by simpa [handed, cliUI.render] using h2⟩
      · exact absurd hs (by simp)
  | InputError =>
    simp only [step] at hs
    split at hs
    · injection hs with hs
      subst hs
      exact Or.inl ⟨rfl, by simp [handed, cliUI.waiting]⟩
    · exact absurd hs (by simp)

theorem step_wrong_input (c : cliUI) (inp : GoString) (removeOk : Bool)
    (tmp : Option GoString) (hc : Ready c) (hrun : c.status = Status.running)
    (hp : 0 < c.prompts) (hv : policies.ShortcutValid inp = false) :
    step c (Event.Input inp removeOk tmp) = some c := by
  obtain ⟨r, rest, f, hq, hf, _⟩ := Ready_head c hc hrun hp
  simp only [step, hrun, hp, and_self, if_true, hv, Bool.false_eq_true, if_false, cliUI.render]
  rw [cliUI.writePrompt_of_file c tmp r rest hq (by simp [hf])]

/-- C21: in every run from `NewCli()`: when the channels handed to `Handle` are
pairwise different, no channel is sent to twice; while the process runs, every
channel handed either has received its decision or waits in the queue; and
every step either sends nothing and takes no request out of the queue, or sends
one decision, to the head, which is the request that leaves the queue. -/
theorem no_request_is_served_twice (evs : List Event) (c : cliUI)
    (h : run NewCli evs = some c) :
    ((handed evs).Nodup → c.decided.Nodup) ∧
    (c.status = Status.running → c.decided ++ c.waiting = handed evs) ∧
    (∀ e c2, step c e = some c2 →
      (c2.sent = c.sent ∧ c2.waiting = c.waiting ++ handed [e]) ∨
      ∃ r rest p, c.queue = r :: rest ∧ c2.sent = c.sent ++ [(r.Res, p)] ∧
        (c2.waiting = rest.map requestResponse.Res ∨
          (c2.waiting = c.waiting ∧ c2.status ≠ Status.running))) := by
  have hf := Fifo_run evs NewCli c [] Fifo_NewCli h
  simp only [List.nil_append] at hf
  have hr := Ready_run evs NewCli c Ready_NewCli h
  refine ⟨fun hnd => ?_, hf.2, fun e c2 hs => ?_⟩
  · exact (List.Sublist.nodup (List.IsPrefix.sublist hf.1)) hnd
  · exact step_effect c c2 e hr hs

/-- The statement of C21 on `exampleRun`. -/
theorem no_request_is_served_twice_witness :
    run NewCli exampleRun = some exampleEnd ∧ (handed exampleRun).Nodup ∧
      exampleEnd.decided.Nodup ∧ exampleEnd.decided ++ exampleEnd.waiting = handed exampleRun :=
  ⟨by decide, by decide,
    (no_request_is_served_twice exampleRun exampleEnd (by decide)).1 (by decide),
    (no_request_is_served_twice exampleRun exampleEnd (by decide)).2.1 (by decide)⟩

/-- C22: in every state reached by a run from `NewCli()` in which the process runs, a
`handlePrompt` waits for input exactly when the queue is not empty, never more
than one does, and the valid input it reads is answered on the channel of
`queue[0]`. -/
theorem one_prompt_waits_for_the_head (evs : List Event) (c : cliUI)
    (h : run NewCli evs = some c) (hrun : c.status = Status.running) :
    (0 < c.prompts ↔ c.queue ≠ []) ∧ c.prompts ≤ 1 ∧
    (∀ inp removeOk tmp c2, policies.ShortcutValid inp = true →
      step c (Event.Input inp removeOk tmp) = some c2 →
      ∃ r rest, c.queue = r :: rest ∧
        c2.sent = c.sent ++ [(r.Res, (policies.ByShortcut inp).1)]) := by
  have hr := Ready_run evs NewCli c Ready_NewCli h
  have hc2 := hr hrun
  refine ⟨?_, ?_, ?_⟩
  · cases hq : c.queue with
    | nil => rw [hq] at hc2; simp only at hc2; simp [hc2]
    | cons r rest => rw [hq] at hc2; simp only at hc2; simp [hc2.1]
  · cases hq : c.queue with
    | nil => rw [hq] at hc2; simp only at hc2; omega
    | cons r rest => rw [hq] at hc2; simp only at hc2; omega
  · intro inp removeOk tmp c2 hv hs
    obtain ⟨r, rest, p, hb, hq, h2, _⟩ := step_valid_input c c2 inp removeOk tmp hr hv hs
    exact ⟨r, rest, hq, by rw [h2, hb]⟩

/-- The statement of C22 on `exampleRun`. -/
theorem one_prompt_waits_for_the_head_witness :
    run NewCli exampleRun = some exampleEnd ∧ exampleEnd.status = Status.running ∧
      exampleEnd.prompts = 1 ∧ exampleEnd.queue ≠ [] ∧ (0 < exampleEnd.prompts ↔ exampleEnd.queue ≠ []) :=
  ⟨by decide, by decide, by decide, by decide,
    (one_prompt_waits_for_the_head exampleRun exampleEnd (by decide) (by decide)).1⟩

/-- C26 fails on an empty line: with one request under review, `Fscanln` answers the
input "\n" with the error "unexpected newline", so that on the input lines "",
"d" the process ends in `GetInput` and `getShortcutInput` never returns "d";
on the lines "x", "d" it skips "x" and returns "d" with the queue as it was. -/
theorem an_empty_line_ends_the_process :
    run NewCli [Event.Handle actions.testAction 1 (some (lit "f1"))] = some oneRequest ∧
    fmt.Fscanln (lit "\n") = fmt.Scan.error (lit "unexpected newline") ∧
    oneRequest.getShortcutInput (lit "\nd\n") none =
      { ui := { oneRequest with status := Status.fatal }, shortcut := none,
        stdin := lit "\nd\n" } ∧
    oneRequest.getShortcutInput (lit "x\nd\n") none =
      { ui := oneRequest, shortcut := some (lit "d"), stdin := [] } := by
  decide

/-- C30 fails on two calls of `Handle` on the empty queue whose first statements, the
appends made before the mutex is taken, both run before either `handleQueue`:
both calls find two requests in the queue, neither starts `handlePrompt`, and the
queue keeps two requests that nobody reviews. -/
theorem two_interleaved_Handle_calls_start_no_prompt :
    (((NewCli.enqueue actions.testAction 1).enqueue actions.testsAction 2).handleQueue
        (some (lit "f1"))).handleQueue none =
      { queue := [{ Req := actions.testAction, Res := 1, File := some (lit "f1") },
                  { Req := actions.testsAction, Res := 2, File := none }],
        prompts := 0, sent := [], removed := [], status := Status.running } ∧
    (∀ (c : cliUI) (req : actions.Action) (res : Chan) (tmp : Option GoString),
      c.Handle req res tmp = (c.enqueue req res).handleQueue tmp) := by
  exact ⟨by decide, fun _ _ _ _ => rfl⟩

theorem step_stopped (c : cliUI) (e : Event) (h : c.status ≠ Status.running) :
    step c e = none := by
  cases e <;> simp [step, h]

end ui

/-! ## Theorems: package `cli` -/

namespace cli

theorem executeIfCommand_loop_first (cmd : GoString) (args : List GoString) (i : Nat)
    (before : List Command) (c : Command) (after : List Command)
    (hb : ∀ d ∈ before, d.Name ≠ cmd) (hc : c.Name = cmd) :
    executeIfCommand.loop cmd args i (before ++ c :: after) =
      (true, executeCommand (i + before.length) c args) := by
  induction before generalizing i with
  | nil => simp [executeIfCommand.loop, hc]
  | cons d ds ih =>
    have hd : d.Name ≠ cmd := hb d (List.mem_cons_self _ _)
    have := ih (i + 1) (fun e he => hb e (List.mem_cons_of_mem _ he))
    have he : i + 1 + ds.length = i + (ds.length + 1) := by omega
    rw [he] at this
    simp only [List.cons_append, executeIfCommand.loop, hd, if_false, List.length_cons]
    exact this

theorem executeIfCommand_loop_none (cmd : GoString) (args : List GoString) (i : Nat)
    (cs : List Command) (h : ∀ d ∈ cs, d.Name ≠ cmd) :
    executeIfCommand.loop cmd args i cs = (false, { calls := [], helps := 0, err := none }) := by
  induction cs generalizing i with
  | nil => rfl
  | cons d ds ih =>
    have hd : d.Name ≠ cmd := h d (List.mem_cons_self _ _)
    simp only [executeIfCommand.loop, hd, if_false]
    exact ih (i + 1) (fun e he => h e (List.mem_cons_of_mem _ he))

/-- C28 fails on `shadowedApp`: "start" is the name of a command with a handler, yet
`Run` stops at the first command of that name, which has none: it calls no
handler and returns the error "start does not have a handler.". -/
theorem Run_stops_at_the_first_command_of_the_name :
    (∃ c ∈ shadowedApp.Commands, c.Name = lit "start" ∧ c.Handler.isSome = true) ∧
    shadowedApp.Run [lit "start"] =
      { calls := [], helps := 0, err := some (lit "start does not have a handler.") } := by
  refine ⟨⟨{ Name := lit "start", Usage := lit "usage", Handler := some okHandler }, ?_, rfl, rfl⟩,
    by decide⟩
  simp [shadowedApp]

/-- C28 as amended: when the first argument is neither "-h" nor "--help" and the
first command of that name in `Commands` has a handler, `Run` calls that
handler once with the remaining arguments in order (none when there are none),
calls no other handler, shows no help and returns the error of the handler. -/
theorem Run_calls_the_handler_of_the_first_command (a : App) (cmd : GoString)
    (cmdArgs : List GoString) (before : List Command) (c : Command) (after : List Command)
    (h : Handler) (h1 : cmd ≠ lit "-h") (h2 : cmd ≠ lit "--help")
    (hcs : a.Commands = before ++ c :: after) (hb : ∀ d ∈ before, d.Name ≠ cmd)
    (hc : c.Name = cmd) (hh : c.Handler = some h) :
    a.Run (cmd :: cmdArgs) =
      { calls := [(before.length, cmdArgs)], helps := 0, err := h cmdArgs } := by
  have := executeIfCommand_loop_first cmd cmdArgs 0 before c after hb hc
  simp only [App.Run, h1, h2, or_self, if_false, App.executeIfCommand, hcs, this,
    executeCommand, hh, true_or, if_true, Nat.zero_add]

/-- The statement of C28 as amended on the two calls of `TestCommandRouting`. -/
theorem Run_calls_the_handler_of_the_first_command_witness :
    testApp.Run [lit "mycommand2", lit "Hello", lit "Second argument"] =
      { calls := [(1, [lit "Hello", lit "Second argument"])], helps := 0, err := none } ∧
    testApp.Run [lit "mycommand"] = { calls := [(0, [])], helps := 0, err := none } :=
  ⟨Run_calls_the_handler_of_the_first_command testApp (lit "mycommand2")
      [lit "Hello", lit "Second argument"]
      [{ Name := lit "mycommand", Usage := lit "usage", Handler := some okHandler }]
      { Name := lit "mycommand2", Usage := lit "usage", Handler := some okHandler } []
      okHandler (by decide) (by decide) rfl (by decide) rfl rfl,
    Run_calls_the_handler_of_the_first_command testApp (lit "mycommand") [] []
      { Name := lit "mycommand", Usage := lit "usage", Handler := some okHandler }
      [{ Name := lit "mycommand2", Usage := lit "usage", Handler := some okHandler }]
      okHandler (by decide) (by decide) rfl (by simp) rfl rfl⟩

/-- C29: on an empty argument list, on one that starts with "-h" or "--help", and on
one whose first element is the name of no command, `Run` calls no handler and
returns the nil error (after showing the help once). -/
theorem Run_without_a_command_calls_no_handler (a : App) (arguments : List GoString)
    (h : arguments = [] ∨
      (∃ rest, arguments = lit "-h" :: rest ∨ arguments = lit "--help" :: rest) ∨
      (∃ cmd rest, arguments = cmd :: rest ∧ ∀ c ∈ a.Commands, c.Name ≠ cmd)) :
    (a.Run arguments).calls = [] ∧ (a.Run arguments).err = none ∧
      (a.Run arguments).helps = 1 := by
  rcases h with rfl | ⟨rest, rfl | rfl⟩ | ⟨cmd, rest, rfl, hno⟩
  · exact ⟨rfl, rfl, rfl⟩
  · simp [App.Run]
  · simp [App.Run]
  · by_cases hh : cmd = lit "-h" ∨ cmd = lit "--help"
    · simp [App.Run, hh]
    · have := executeIfCommand_loop_none cmd rest 0 a.Commands hno
      simp [App.Run, hh, App.executeIfCommand, this]

/-- The statement of C29 on the argument "hi" of `TestCommandRouting`. -/
theorem Run_without_a_command_calls_no_handler_witness :
    (testApp.Run [lit "hi"]).calls = [] ∧ (testApp.Run [lit "hi"]).err = none ∧
      (testApp.Run [lit "hi"]).helps = 1 :=
  Run_without_a_command_calls_no_handler testApp [lit "hi"]
    (Or.inr (Or.inr ⟨lit "hi", [], rfl, by
      intro c hc
      simp only [testApp, List.mem_cons, List.mem_singleton, List.not_mem_nil, or_false] at hc
      rcases hc with rfl | rfl <;> decide⟩))

end cli

/-! ## Theorems: the queue and the decision store -/

section pipeline

open policies ui storage

theorem Pipeline.step_review_store (s s2 : Pipeline) (e : ui.Event)
    (h : Pipeline.step s (Op.review e) = some s2) :
    s2.store = s.store ∧ ui.step s.ui e = some s2.ui := by
  simp only [Pipeline.step] at h
  cases hs : ui.step s.ui e with
  | none => rw [hs] at h; exact absurd h (by simp)
  | some u =>
    rw [hs] at h
    injection h with h
    subst h
    exact ⟨rfl, rfl⟩

theorem Pipeline.step_SetPolicy (s s2 : Pipeline) (a : actions.Action)
    (pol : Option policies.Policy) (now : time.Reading)
    (h : Pipeline.step s (Op.SetPolicy a pol now) = some s2) :
    s.ui.status = Status.running ∧
      s2 = { s with store := store.SetPolicy memoryPolicies s.store a pol now } := by
  simp only [Pipeline.step] at h
  split at h
  · rename_i hrun
    injection h with h
    exact ⟨hrun, h.symm⟩
  · exact absurd h (by simp)

theorem Pipeline.step_SetPolicy_running (s : Pipeline) (a : actions.Action)
    (pol : Option policies.Policy) (now : time.Reading) (hrun : s.ui.status = Status.running) :
    Pipeline.step s (Op.SetPolicy a pol now) =
      some { s with store := store.SetPolicy memoryPolicies s.store a pol now } := by
  simp only [Pipeline.step, hrun, if_true]

theorem Pipeline.no_step_when_stopped (s : Pipeline) (o : Op)
    (h : s.ui.status ≠ Status.running) :
    Pipeline.step s o = none := by
  cases o with
  | review e => simp only [Pipeline.step, ui.step_stopped s.ui e h]
  | SetPolicy a pol now => simp only [Pipeline.step, h, if_false]

theorem Pipeline.ui_stays_Ready (ops : List Op) (s s2 : Pipeline) (hc : ui.Ready s.ui)
    (h : Pipeline.run s ops = some s2) : ui.Ready s2.ui := by
  induction ops generalizing s with
  | nil =>
    simp only [Pipeline.run] at h
    injection h with h
    subst h
    exact hc
  | cons o os ih =>
    simp only [Pipeline.run] at h
    cases hs : Pipeline.step s o with
    | none => rw [hs] at h; exact absurd h (by simp)
    | some s1 =>
      rw [hs] at h
      refine ih s1 ?_ h
      cases o with
      | review e =>
        obtain ⟨_, h2⟩ := Pipeline.step_review_store s s1 e hs
        exact ui.Ready_step s.ui s1.ui e hc h2
      | SetPolicy a pol now =>
        obtain ⟨_, h2⟩ := Pipeline.step_SetPolicy s s1 a pol now hs
        subst h2
        exact hc

theorem Pipeline.run_review_store (es : List ui.Event) (s s2 : Pipeline)
    (h : Pipeline.run s (es.map Op.review) = some s2) : s2.store = s.store := by
  induction es generalizing s with
  | nil =>
    simp only [List.map_nil, Pipeline.run] at h
    injection h with h
    subst h
    rfl
  | cons e es ih =>
    simp only [List.map_cons, Pipeline.run] at h
    cases hs : Pipeline.step s (Op.review e) with
    | none => rw [hs] at h; exact absurd h (by simp)
    | some s1 =>
      rw [hs] at h
      rw [ih s1 h]
      exact (Pipeline.step_review_store s s1 e hs).1

theorem Pipeline.run_wrongInputs (s : Pipeline) (wrong : List (GoString × Bool × Option GoString))
    (ops : List Op) (hc : ui.Ready s.ui) (hrun : s.ui.status = Status.running)
    (hp : 0 < s.ui.prompts) (hw : ∀ x ∈ wrong, ShortcutValid x.1 = false) :
    Pipeline.run s (wrongInputs wrong ++ ops) = Pipeline.run s ops := by
  induction wrong with
  | nil => rfl
  | cons x xs ih =>
    have h1 := ui.step_wrong_input s.ui x.1 x.2.1 x.2.2 hc hrun hp
      (hw x (List.mem_cons_self _ _))
    have h2 : Pipeline.step s (Op.review (ui.Event.Input x.1 x.2.1 x.2.2)) = some s := by
      simp only [Pipeline.step, h1]
    show Pipeline.run s (Op.review (ui.Event.Input x.1 x.2.1 x.2.2) ::
      (wrongInputs xs ++ ops)) = Pipeline.run s ops
    simp only [Pipeline.run, h2]
    exact ih (fun y hy => hw y (List.mem_cons_of_mem _ hy))

theorem Ready_init : ui.Ready Pipeline.init.ui := ui.Ready_NewCli

theorem Pipeline.step_shortcut (s : Pipeline) (p : policies.Policy) (removeOk : Bool)
    (tmp : Option GoString) (hc : ui.Ready s.ui) (hrun : s.ui.status = Status.running)
    (hp : 0 < s.ui.prompts) (hpa : p ∈ All) :
    ∃ r rest s2, s.ui.queue = r :: rest ∧
      Pipeline.step s (Op.review (ui.Event.Input p.Shortcut removeOk tmp)) = some s2 ∧
      s2.ui.sent = s.ui.sent ++ [(r.Res, p)] ∧ s2.store = s.store := by
  have hv : ShortcutValid p.Shortcut = true :=
    (ShortcutValid_loop_iff p.Shortcut All).mpr ⟨p, hpa, rfl⟩
  have hb : ByShortcut p.Shortcut = (p, none) := by
    rcases (mem_All p).mp hpa with rfl | rfl | rfl <;> decide
  obtain ⟨r, rest, f, hq, hf, _⟩ := ui.Ready_head s.ui hc hrun hp
  have hst : ui.step s.ui (ui.Event.Input p.Shortcut removeOk tmp) =
      some (cliUI.handlePrompt { s.ui with prompts := s.ui.prompts - 1 } p.Shortcut removeOk
        tmp) := by
    simp only [ui.step, hrun, hp, and_self, if_true, hv]
  have heff := (cliUI.handlePrompt_effect
    (cliUI.mk s.ui.queue (s.ui.prompts - 1) s.ui.sent s.ui.removed s.ui.status) p.Shortcut
    removeOk tmp p r rest f hb hq hf).1
  refine ⟨r, rest, { s with ui := cliUI.handlePrompt (cliUI.mk s.ui.queue (s.ui.prompts - 1)
    s.ui.sent s.ui.removed s.ui.status) p.Shortcut removeOk tmp }, hq, ?_, heff, rfl⟩
  simp only [Pipeline.step, hst]

theorem Pipeline.stored_ids_step (s s2 : Pipeline) (o : Op) (ids : List GoString)
    (hinv : ∀ k v, s.store.storage k = some v → v.PolicyId ∈ ids)
    (hs : Pipeline.step s o = some s2) :
    ∀ k v, s2.store.storage k = some v → v.PolicyId ∈ ids ++ idsGiven [o] := by
  intro k v hk
  cases o with
  | review e =>
    obtain ⟨h1, _⟩ := Pipeline.step_review_store s s2 e hs
    rw [h1] at hk
    exact List.mem_append_left _ (hinv k v hk)
  | SetPolicy a pol now =>
    obtain ⟨_, hs⟩ := Pipeline.step_SetPolicy s s2 a pol now hs
    subst hs
    cases pol with
    | none =>
      simp only [store.SetPolicy, memoryPolicies, memoryPolicyStorage.Store, if_true] at hk
      by_cases hka : k = a.Hash
      · simp [hka] at hk
      · simp only [hka, if_false] at hk
        exact List.mem_append_left _ (hinv k v hk)
    | some p =>
      have hne : ({ PolicyId := p.Id, Timestamp := time.Now now } : StoredPolicy) ≠
          StoredPolicy.zero := by
        intro h
        exact Now_ne_zero now (congrArg StoredPolicy.Timestamp h)
      simp only [store.SetPolicy, memoryPolicies, memoryPolicyStorage.Store, hne, if_false] at hk
      by_cases hka : k = a.Hash
      · simp only [hka, if_true, Option.some.injEq] at hk
        subst hk
        simp [idsGiven]
      · simp only [hka, if_false] at hk
        exact List.mem_append_left _ (hinv k v hk)

theorem idsGiven_append (os ps : List Op) : idsGiven (os ++ ps) = idsGiven os ++ idsGiven ps := by
  induction os with
  | nil => rfl
  | cons o os ih =>
    cases o with
    | review e => simpa [idsGiven] using ih
    | SetPolicy a pol now => cases pol <;> simpa [idsGiven] using ih

theorem Pipeline.stored_ids_run (ops : List Op) (s s2 : Pipeline) (ids : List GoString)
    (hinv : ∀ k v, s.store.storage k = some v → v.PolicyId ∈ ids)
    (h : Pipeline.run s ops = some s2) :
    ∀ k v, s2.store.storage k = some v → v.PolicyId ∈ ids ++ idsGiven ops := by
  induction ops generalizing s ids with
  | nil =>
    simp only [Pipeline.run] at h
    injection h with h
    subst h
    simpa [idsGiven] using hinv
  | cons o os ih =>
    simp only [Pipeline.run] at h
    cases hs : Pipeline.step s o with
    | none => rw [hs] at h; exact absurd h (by simp)
    | some s1 =>
      rw [hs] at h
      have h1 := Pipeline.stored_ids_step s s1 o ids hinv hs
      have h2 := ih s1 (ids ++ idsGiven [o]) h1 h
      have : ids ++ idsGiven (o :: os) = ids ++ idsGiven [o] ++ idsGiven os := by
        rw [List.append_assoc, ← idsGiven_append]
        rfl
      rw [this]
      exact h2

theorem Pipeline.Policy_cachedAllowAlways (u : ui.cliUI) :
    Pipeline.Policy { ui := u, store := cachedAllowAlways.store } actions.testAction =
      (some AllowAlways, true) :=
  store.Policy_SetPolicy_of_Hash_eq NewMemoryPolicyStorage actions.testAction
    actions.testAction AllowAlways ⟨5, 7⟩ (by decide) rfl

theorem Pipeline.step_SetPolicy_init :
    Pipeline.step Pipeline.init (Op.SetPolicy actions.testAction (some AllowAlways) ⟨5, 7⟩) =
      some cachedAllowAlways :=
  Pipeline.step_SetPolicy_running Pipeline.init actions.testAction (some AllowAlways) ⟨5, 7⟩ rfl

theorem Pipeline.run_cachedAllowAlways :
    Pipeline.run Pipeline.init [Op.SetPolicy actions.testAction (some AllowAlways) ⟨5, 7⟩] =
      some cachedAllowAlways := by
  simp only [Pipeline.run, Pipeline.step_SetPolicy_init]

theorem Pipeline.step_Handle_cachedAllowAlways :
    Pipeline.step cachedAllowAlways
        (Op.review (ui.Event.Handle actions.testAction 1 (some (lit "f1")))) =
      some cachedPending := by
  have : ui.step ui.NewCli
      (ui.Event.Handle actions.testAction 1 (some (lit "f1"))) = some ui.oneRequest := by
    decide
  show Pipeline.step { ui := ui.NewCli, store := cachedAllowAlways.store } _ = _
  simp only [Pipeline.step, this]
  rfl

/-- C27 fails on `testAction` with a stored `AllowAlways()` record: the reviewer
answers "d", `Deny()` is sent on the channel of the request, and the store
still holds the record, so that `Policy(testAction)` is `(AllowAlways(), true)`
after the Deny. -/
theorem a_cached_record_survives_a_Deny :
    Pipeline.run Pipeline.init
        [Op.SetPolicy actions.testAction (some AllowAlways) ⟨5, 7⟩,
         Op.review (ui.Event.Handle actions.testAction 1 (some (lit "f1"))),
         Op.review (ui.Event.Input (lit "d") true none)] = some cachedDenied ∧
    cachedDenied.ui.sent = [(1, Deny)] ∧
    cachedDenied.Policy actions.testAction = (some AllowAlways, true) := by
  refine ⟨?_, rfl, Pipeline.Policy_cachedAllowAlways _⟩
  have h1 := Pipeline.step_SetPolicy_init
  have h2 := Pipeline.step_Handle_cachedAllowAlways
  have h3 : ui.step ui.oneRequest (ui.Event.Input (lit "d") true none) =
      some (cliUI.mk [] 0 [(1, Deny)] [lit "f1"] Status.running) := by decide
  have h4 : Pipeline.step cachedPending (Op.review (ui.Event.Input (lit "d") true none)) =
      some cachedDenied := by
    show Pipeline.step { ui := ui.oneRequest, store := cachedAllowAlways.store } _ = _
    simp only [Pipeline.step, h3]
    rfl
  simp only [Pipeline.run, h1, h2, h4]

/-- C27 as amended: in every state reached by a run of the queue and the store in
which a `handlePrompt` waits, after any inputs that are no shortcut, the
shortcut of a policy `p` of `All()` ("d" for `Deny()`, "a" for `Allow()`, "s"
for `AllowAlways()`) makes `handlePrompt` send `p` on the channel of the head;
the decision leaves the store as it was, so that `Policy` answers as before for
every action: a request without a record has none after its decision, `Deny()`
included, and none at all when no policy was given to `SetPolicy` before. -/
theorem decision_is_the_policy_of_the_shortcut (ops : List Op) (s : Pipeline)
    (wrong : List (GoString × Bool × Option GoString)) (p : Policy) (removeOk : Bool)
    (tmp : Option GoString)
    (h : Pipeline.run Pipeline.init ops = some s) (hrun : s.ui.status = Status.running)
    (hp : 0 < s.ui.prompts) (hw : ∀ x ∈ wrong, ShortcutValid x.1 = false) (hpa : p ∈ All) :
    (Deny.Shortcut = lit "d" ∧ Allow.Shortcut = lit "a" ∧ AllowAlways.Shortcut = lit "s") ∧
    ∃ r rest s2, s.ui.queue = r :: rest ∧
      Pipeline.run s (wrongInputs wrong ++ [Op.review (ui.Event.Input p.Shortcut removeOk tmp)])
        = some s2 ∧
      s2.ui.sent = s.ui.sent ++ [(r.Res, p)] ∧
      s2.store = s.store ∧
      (∀ a, s2.Policy a = s.Policy a) ∧
      (s.Policy r.Req = (none, false) → s2.Policy r.Req = (none, false)) ∧
      (idsGiven ops = [] → s2.Policy r.Req = (none, false)) := by
  refine ⟨by decide, ?_⟩
  have hc := Pipeline.ui_stays_Ready ops Pipeline.init s Ready_init h
  rw [Pipeline.run_wrongInputs s wrong _ hc hrun hp hw]
  obtain ⟨r, rest, s2, hq, h2, h3, h4⟩ := Pipeline.step_shortcut s p removeOk tmp hc hrun hp hpa
  refine ⟨r, rest, s2, hq, ?_, h3, h4, fun a => ?_, fun h0 => ?_, fun hno => ?_⟩
  · simp only [Pipeline.run, h2]
  · simp only [Pipeline.Policy, h4]
  · simp only [Pipeline.Policy, h4] at h0 ⊢
    exact h0
  · have hrec := Pipeline.stored_ids_run ops Pipeline.init s []
      (by intro k v hk; simp [Pipeline.init, NewMemoryPolicyStorage] at hk) h
    have hnone : s.store.storage r.Req.Hash = none := by
      cases hm : s.store.storage r.Req.Hash with
      | none => rfl
      | some w =>
        have := hrec _ w hm
        rw [hno] at this
        simp at this
    rw [Pipeline.Policy, h4, store.Policy_eq]
    simp [memoryPolicies, memoryPolicyStorage.Get, hnone]

/-- The statement of C27 as amended on one request, answered "x" and then "d". -/
theorem decision_is_the_policy_of_the_shortcut_witness :
    ∃ s2, Pipeline.run onePending
        (wrongInputs [(lit "x", true, none)] ++
          [Op.review (ui.Event.Input Deny.Shortcut true none)]) = some s2 ∧
      s2.ui.sent = [(1, Deny)] ∧ s2.Policy actions.testAction = (none, false) := by
  have hrun : Pipeline.run Pipeline.init
      [Op.review (ui.Event.Handle actions.testAction 1 (some (lit "f1")))] = some onePending := by
    rfl
  obtain ⟨_, r, rest, s2, hq, h2, h3, _, _, _, h6⟩ :=
    decision_is_the_policy_of_the_shortcut _ onePending [(lit "x", true, none)] Deny true none
      hrun (by decide) (by decide) (by decide) (by decide)
  have hr : r.Res = 1 ∧ r.Req = actions.testAction := by
    have : ui.oneRequest.queue = r :: rest := hq
    simp only [ui.oneRequest, List.cons.injEq] at this
    rw [← this.1]
    exact ⟨rfl, rfl⟩
  refine ⟨s2, h2, ?_, ?_⟩
  · rw [h3, hr.1]
    rfl
  · rw [← hr.2]
    exact h6 rfl

/-- C23 fails on `testAction` with a cached `AllowAlways()` record: `Policy` returns
`(AllowAlways(), true)`, and `Handle` still puts the request in the queue,
starts a prompt and sends no decision. -/
theorem Handle_queues_an_action_with_a_cached_decision :
    Pipeline.run Pipeline.init [Op.SetPolicy actions.testAction (some AllowAlways) ⟨5, 7⟩] =
      some cachedAllowAlways ∧
    cachedAllowAlways.Policy actions.testAction = (some AllowAlways, true) ∧
    ∃ s2, Pipeline.step cachedAllowAlways
        (Op.review (ui.Event.Handle actions.testAction 1 (some (lit "f1")))) = some s2 ∧
      s2.ui = ui.oneRequest ∧ s2.ui.queue ≠ cachedAllowAlways.ui.queue ∧
      s2.ui.prompts = 1 ∧ s2.ui.sent = [] := by
  refine ⟨Pipeline.run_cachedAllowAlways, Pipeline.Policy_cachedAllowAlways _,
    ⟨cachedPending, Pipeline.step_Handle_cachedAllowAlways, rfl, ?_, rfl, rfl⟩⟩
  show ui.oneRequest.queue ≠ ui.NewCli.queue
  decide

/-- C23 as amended: `Handle` does not look into the decision store. In every running
state reached by a run of the queue and the store, for an action with a cached
`AllowAlways()` record, `Handle` appends the request at the tail of the queue,
sends no decision and leaves the store as it is; when the queue was empty and
the file of the request can be made it starts the prompt of the request, and
when the queue was not empty the prompt of the head goes on waiting; the
process runs on, and the cached decision is what `Policy` returns, before and
after. -/
theorem Handle_does_not_consult_the_store (ops : List Op) (s : Pipeline) (a : actions.Action)
    (res : Chan) (tmp : Option GoString)
    (h : Pipeline.run Pipeline.init ops = some s) (hrun : s.ui.status = Status.running)
    (hcached : s.Policy a = (some AllowAlways, true))
    (hfile : s.ui.queue ≠ [] ∨ ∃ f, tmp = some f) :
    ∃ s2, Pipeline.step s (Op.review (ui.Event.Handle a res tmp)) = some s2 ∧
      s2.ui.status = Status.running ∧ s2.ui.prompts = 1 ∧
      (s.ui.queue = [] → s.ui.prompts = 0 ∧
        s2.ui.queue = [{ Req := a, Res := res, File := tmp }]) ∧
      (s.ui.queue ≠ [] → s.ui.prompts = 1 ∧
        s2.ui.queue = s.ui.queue ++ [{ Req := a, Res := res, File := none }]) ∧
      s2.ui.waiting = s.ui.waiting ++ [res] ∧ s2.ui.sent = s.ui.sent ∧
      s2.store = s.store ∧ s2.Policy a = (some AllowAlways, true) := by
  have hc := Pipeline.ui_stays_Ready ops Pipeline.init s Ready_init h
  obtain ⟨h1, h2⟩ := cliUI.Handle_facts s.ui a res tmp
  have hc2 := hc hrun
  refine ⟨{ s with ui := s.ui.Handle a res tmp }, ?_, ?_, ?_, ?_, ?_, h2, h1, rfl, hcached⟩
  · simp only [Pipeline.step, ui.step, hrun, if_true]
  all_goals
    cases hq : s.ui.queue with
    | nil =>
      rw [hq] at hc2
      simp only at hc2
      rcases hfile with hne | ⟨f, rfl⟩
      · exact absurd hq hne
      · simp [cliUI.Handle_empty_some s.ui a res f hq hrun, hrun, hc2]
    | cons r rest =>
      rw [hq] at hc2
      simp only at hc2
      simp [cliUI.Handle_nonempty s.ui a res tmp r rest hq hc2.2 hrun, cliUI.enqueue, hrun, hc2.1,
        hq]

/-- The statement of C23 as amended on `cachedAllowAlways`, where the file of the
request is made. -/
theorem Handle_does_not_consult_the_store_witness :
    ∃ s2, Pipeline.step cachedAllowAlways
        (Op.review (ui.Event.Handle actions.testAction 1 (some (lit "f1")))) = some s2 ∧
      s2.ui.status = Status.running ∧ s2.ui.prompts = 1 ∧ s2.ui.waiting = [1] ∧
      s2.ui.sent = [] ∧ s2.Policy actions.testAction = (some AllowAlways, true) := by
  obtain ⟨s2, h1, h2, h3, _, _, h6, h7, _, h9⟩ := Handle_does_not_consult_the_store
    [Op.SetPolicy actions.testAction (some AllowAlways) ⟨5, 7⟩] cachedAllowAlways
    actions.testAction 1 (some (lit "f1")) Pipeline.run_cachedAllowAlways rfl
    (Pipeline.Policy_cachedAllowAlways _) (Or.inr ⟨_, rfl⟩)
  exact ⟨s2, h1, h2, h3, h6, h7, h9⟩

/-- C24 fails on `testAction` answered with "s" on the empty store: `AllowAlways()` is
sent on the channel of the request and `Policy(testAction)` is still
`(nil, false)`. -/
theorem AllowAlways_is_not_written_to_the_store :
    Pipeline.run Pipeline.init
        [Op.review (ui.Event.Handle actions.testAction 1 (some (lit "f1"))),
         Op.review (ui.Event.Input (lit "s") true none)] = some answeredAllowAlways ∧
    answeredAllowAlways.ui.sent = [(1, AllowAlways)] ∧
    answeredAllowAlways.Policy actions.testAction = (none, false) := by
  refine ⟨?_, rfl, ?_⟩
  · have h1 : ui.step ui.NewCli (ui.Event.Handle actions.testAction 1 (some (lit "f1"))) =
        some ui.oneRequest := by decide
    have h2 : ui.step ui.oneRequest (ui.Event.Input (lit "s") true none) =
        some (cliUI.mk [] 0 [(1, AllowAlways)] [lit "f1"] Status.running) := by decide
    simp only [Pipeline.run, Pipeline.step, Pipeline.init, h1, h2, answeredAllowAlways]
  · simp [Pipeline.Policy, answeredAllowAlways, store.Policy_eq, memoryPolicies,
      memoryPolicyStorage.Get, NewMemoryPolicyStorage]

theorem Pipeline.Policy_after_SetPolicy_step (s : Pipeline) (a : actions.Action)
    (p : policies.Policy) (now : time.Reading) (hp : p ∈ All)
    (hrun : s.ui.status = Status.running) :
    ∃ s3, Pipeline.step s (Op.SetPolicy a (some p) now) = some s3 ∧ s3.ui = s.ui ∧
      s3.store.Get a.Hash = (⟨p.Id, time.Now now⟩, true) ∧ s3.Policy a = (some p, true) := by
  have hne : ({ PolicyId := p.Id, Timestamp := time.Now now } : StoredPolicy) ≠
      StoredPolicy.zero := by
    intro h
    exact Now_ne_zero now (congrArg StoredPolicy.Timestamp h)
  refine ⟨_, Pipeline.step_SetPolicy_running s a (some p) now hrun, rfl, ?_, ?_⟩
  · show (memoryPolicyStorage.Store s.store a.Hash
      { PolicyId := p.Id, Timestamp := time.Now now }).Get a.Hash = _
    rw [memoryPolicyStorage.Get_Store_self_policy, if_neg hne]
  · exact store.Policy_SetPolicy_of_Hash_eq s.store a a p now hp rfl

/-- C24 as amended: when the reviewer answers the head request with "s" in a state
reached by a run of the queue and the store, `handlePrompt` sends
`AllowAlways()` on its channel and leaves the store as it was, and no later
step of the review cycle writes to it either; when the process still runs, a
call `SetPolicy(action, AllowAlways())` writes the record with identifier
"ALLOW_ALWAYS" under the fingerprint, after which `Policy(action)` returns
`(AllowAlways(), true)`; a process that has stopped takes no step. -/
theorem AllowAlways_is_stored_by_SetPolicy_only (ops : List Op) (s s2 : Pipeline)
    (removeOk : Bool) (tmp : Option GoString) (now : time.Reading)
    (h : Pipeline.run Pipeline.init ops = some s)
    (hs : Pipeline.step s (Op.review (ui.Event.Input (lit "s") removeOk tmp)) = some s2) :
    ∃ r rest, s.ui.queue = r :: rest ∧
      s2.ui.sent = s.ui.sent ++ [(r.Res, AllowAlways)] ∧ s2.store = s.store ∧
      s2.Policy r.Req = s.Policy r.Req ∧
      (∀ (es : List ui.Event) (s4 : Pipeline),
        Pipeline.run s2 (es.map Op.review) = some s4 → s4.store = s.store) ∧
      (s2.ui.status = Status.running →
        ∃ s3, Pipeline.step s2 (Op.SetPolicy r.Req (some AllowAlways) now) = some s3 ∧
          s3.ui = s2.ui ∧
          s3.store.Get r.Req.Hash = (⟨lit "ALLOW_ALWAYS", time.Now now⟩, true) ∧
          s3.Policy r.Req = (some AllowAlways, true)) ∧
      (s2.ui.status ≠ Status.running → ∀ o, Pipeline.step s2 o = none) := by
  have hc := Pipeline.ui_stays_Ready ops Pipeline.init s Ready_init h
  obtain ⟨hst, hui⟩ := Pipeline.step_review_store s s2 (ui.Event.Input (lit "s") removeOk tmp) hs
  obtain ⟨r, rest, p, hb, hq, hsent, _⟩ :=
    ui.step_valid_input s.ui s2.ui (lit "s") removeOk tmp hc (by decide) hui
  have hp : p = AllowAlways := by
    have : ByShortcut (lit "s") = (AllowAlways, none) := by decide
    rw [this] at hb
    exact (congrArg Prod.fst hb).symm
  subst hp
  refine ⟨r, rest, hq, hsent, hst, by simp only [Pipeline.Policy, hst], fun es s4 h4 => ?_,
    fun hrun2 => ?_, fun hstop o => Pipeline.no_step_when_stopped s2 o hstop⟩
  · rw [Pipeline.run_review_store es s2 s4 h4, hst]
  · exact Pipeline.Policy_after_SetPolicy_step s2 r.Req AllowAlways now (by decide) hrun2

/-- The statement of C24 as amended on one request: the answer "s", and then
`SetPolicy(testAction, AllowAlways())`. -/
theorem AllowAlways_is_stored_by_SetPolicy_only_witness :
    Pipeline.step onePending (Op.review (ui.Event.Input (lit "s") true none)) =
      some answeredAllowAlways ∧
    ∃ s3, Pipeline.step answeredAllowAlways
        (Op.SetPolicy actions.testAction (some AllowAlways) ⟨5, 7⟩) = some s3 ∧
      s3.ui = answeredAllowAlways.ui ∧
      s3.store.Get actions.testAction.Hash = (⟨lit "ALLOW_ALWAYS", time.Now ⟨5, 7⟩⟩, true) ∧
      s3.Policy actions.testAction = (some AllowAlways, true) := by
  have hrun : Pipeline.run Pipeline.init
      [Op.review (ui.Event.Handle actions.testAction 1 (some (lit "f1")))] = some onePending := by
    rfl
  have hstep : Pipeline.step onePending (Op.review (ui.Event.Input (lit "s") true none)) =
      some answeredAllowAlways := by
    have h2 : ui.step ui.oneRequest (ui.Event.Input (lit "s") true none) =
        some (cliUI.mk [] 0 [(1, AllowAlways)] [lit "f1"] Status.running) := by decide
    simp only [Pipeline.step, onePending, h2, answeredAllowAlways]
  obtain ⟨r, rest, hq, _, _, _, _, h6, _⟩ :=
    AllowAlways_is_stored_by_SetPolicy_only
      [Op.review (ui.Event.Handle actions.testAction 1 (some (lit "f1")))] onePending
      answeredAllowAlways true none ⟨5, 7⟩ hrun hstep
  have hr : r.Req = actions.testAction := by
    have : ui.oneRequest.queue = r :: rest := hq
    simp only [ui.oneRequest, List.cons.injEq] at this
    rw [← this.1]
  rw [hr] at h6
  exact ⟨hstep, h6 rfl⟩

/-- C25 fails on `SetPolicy(testAction, Allow())`: the store then holds a record with
identifier "ALLOW" under the fingerprint of `testAction`. -/
theorem SetPolicy_persists_Allow :
    ∃ s, Pipeline.run Pipeline.init [Op.SetPolicy actions.testAction (some Allow) ⟨5, 7⟩] =
        some s ∧
      s.store.Get actions.testAction.Hash = (⟨lit "ALLOW", time.Now ⟨5, 7⟩⟩, true) := by
  obtain ⟨s3, h1, _, h3, _⟩ := Pipeline.Policy_after_SetPolicy_step Pipeline.init
    actions.testAction Allow ⟨5, 7⟩ (by decide) rfl
  exact ⟨s3, by simp only [Pipeline.run, h1], h3⟩

/-- C25 as amended: after any run of the queue and the store, every record of the
store has the identifier of a policy that was given to `SetPolicy` during the
run; `SetPolicy(a, p)` stores the identifier of `p` whichever policy `p` is, and
a process that runs can call it; and no step of the review cycle changes the
store. -/
theorem the_store_keeps_what_SetPolicy_is_given (ops : List Op) (s : Pipeline)
    (h : Pipeline.run Pipeline.init ops = some s) :
    (∀ k v, s.store.Get k = (v, true) → v.PolicyId ∈ idsGiven ops) ∧
    (∀ a p now s2, Pipeline.step s (Op.SetPolicy a (some p) now) = some s2 →
      s2.store.Get a.Hash = (⟨p.Id, time.Now now⟩, true)) ∧
    (∀ e s2, Pipeline.step s (Op.review e) = some s2 → s2.store = s.store) ∧
    (∀ a p now, (store.SetPolicy memoryPolicies s.store a (some p) now).Get a.Hash =
      (⟨p.Id, time.Now now⟩, true)) ∧
    (s.ui.status = Status.running → ∀ a pol now, ∃ s2,
      Pipeline.step s (Op.SetPolicy a pol now) = some s2) := by
  have hstore : ∀ (a : actions.Action) (p : policies.Policy) (now : time.Reading),
      (store.SetPolicy memoryPolicies s.store a (some p) now).Get a.Hash =
        (⟨p.Id, time.Now now⟩, true) := by
    intro a p now
    have hne : ({ PolicyId := p.Id, Timestamp := time.Now now } : StoredPolicy) ≠
        StoredPolicy.zero := by
      intro h
      exact Now_ne_zero now (congrArg StoredPolicy.Timestamp h)
    show (memoryPolicyStorage.Store s.store a.Hash
      { PolicyId := p.Id, Timestamp := time.Now now }).Get a.Hash = _
    rw [memoryPolicyStorage.Get_Store_self_policy, if_neg hne]
  refine ⟨fun k v hk => ?_, fun a p now s2 hs => ?_, fun e s2 hs => ?_, hstore,
    fun hrun a pol now => ⟨_, Pipeline.step_SetPolicy_running s a pol now hrun⟩⟩
  · have := Pipeline.stored_ids_run ops Pipeline.init s []
      (by intro k v hk; simp [Pipeline.init, NewMemoryPolicyStorage] at hk) h k v
    simp only [List.nil_append] at this
    apply this
    simp only [memoryPolicyStorage.Get] at hk
    cases hm : s.store.storage k with
    | none => rw [hm] at hk; simp at hk
    | some w =>
      rw [hm] at hk
      simp only [Prod.mk.injEq, and_true] at hk
      rw [hk]
  · obtain ⟨_, hs⟩ := Pipeline.step_SetPolicy s s2 a (some p) now hs
    subst hs
    exact hstore a p now
  · exact (Pipeline.step_review_store s s2 e hs).1

/-- The statement of C25 as amended on `SetPolicy(testAction, Deny())`. -/
theorem the_store_keeps_what_SetPolicy_is_given_witness :
    ∃ s, Pipeline.run Pipeline.init [Op.SetPolicy actions.testAction (some Deny) ⟨5, 7⟩] =
        some s ∧
      ∀ k v, s.store.Get k = (v, true) → v.PolicyId ∈ [lit "DENY"] :=
  ⟨_, rfl, (the_store_keeps_what_SetPolicy_is_given
    [Op.SetPolicy actions.testAction (some Deny) ⟨5, 7⟩] _ rfl).1⟩

end pipeline

/-! ## Theorems: the in-memory storages and the remaining claims -/

namespace storage

theorem memoryPolicyStorage.Store_no_zero_policy (m : memoryPolicyStorage) (k : GoString)
    (v : StoredPolicy) (h : ∀ j w, m.storage j = some w → w ≠ StoredPolicy.zero) :
    ∀ j w, (m.Store k v).storage j = some w → w ≠ StoredPolicy.zero := by
  intro j w hj
  unfold memoryPolicyStorage.Store at hj
  by_cases hv : v = StoredPolicy.zero
  · simp only [hv, if_true] at hj
    by_cases hjk : j = k
    · simp [hjk] at hj
    · simp only [hjk, if_false] at hj
      exact h j w hj
  · simp only [hv, if_false] at hj
    by_cases hjk : j = k
    · simp only [hjk, if_true, Option.some.injEq] at hj
      rw [← hj]
      exact hv
    · simp only [hjk, if_false] at hj
      exact h j w hj

theorem memorySessionStorage.Store_no_zero_session (m : memorySessionStorage) (k : GoString)
    (v : StoredSession) (h : ∀ j w, m.storage j = some w → w ≠ StoredSession.zero) :
    ∀ j w, (m.Store k v).storage j = some w → w ≠ StoredSession.zero := by
  intro j w hj
  unfold memorySessionStorage.Store at hj
  by_cases hv : v = StoredSession.zero
  · simp only [hv, if_true] at hj
    by_cases hjk : j = k
    · simp [hjk] at hj
    · simp only [hjk, if_false] at hj
      exact h j w hj
  · simp only [hv, if_false] at hj
    by_cases hjk : j = k
    · simp only [hjk, if_true, Option.some.injEq] at hj
      rw [← hj]
      exact hv
    · simp only [hjk, if_false] at hj
      exact h j w hj

theorem memoryPolicyStorage.stores_no_zero_policy (l : List (GoString × StoredPolicy))
    (m : memoryPolicyStorage) (h : ∀ j w, m.storage j = some w → w ≠ StoredPolicy.zero) :
    ∀ j w, (m.stores l).storage j = some w → w ≠ StoredPolicy.zero := by
  induction l generalizing m with
  | nil => exact h
  | cons kv rest ih =>
    obtain ⟨k, v⟩ := kv
    exact ih (m.Store k v) (memoryPolicyStorage.Store_no_zero_policy m k v h)

theorem memorySessionStorage.stores_no_zero_session (l : List (GoString × StoredSession))
    (m : memorySessionStorage) (h : ∀ j w, m.storage j = some w → w ≠ StoredSession.zero) :
    ∀ j w, (m.stores l).storage j = some w → w ≠ StoredSession.zero := by
  induction l generalizing m with
  | nil => exact h
  | cons kv rest ih =>
    obtain ⟨k, v⟩ := kv
    exact ih (m.Store k v) (memorySessionStorage.Store_no_zero_session m k v h)

/-- C36: in every state reached from `NewMemoryPolicyStorage()` or from
`NewMemorySessionStorage()` by calls of `Store`, a `Get` that reports the key
present returns a value that is not the zero value. -/
theorem memory_storages_hold_no_empty_record (ps : List (GoString × StoredPolicy))
    (ss : List (GoString × StoredSession)) (k : GoString) :
    (∀ v, (NewMemoryPolicyStorage.stores ps).Get k = (v, true) → v ≠ StoredPolicy.zero) ∧
    (∀ v, (NewMemorySessionStorage.stores ss).Get k = (v, true) → v ≠ StoredSession.zero) := by
  constructor
  · intro v hv
    have h := memoryPolicyStorage.stores_no_zero_policy ps NewMemoryPolicyStorage
      (by intro j w hj; simp [NewMemoryPolicyStorage] at hj) k
    unfold memoryPolicyStorage.Get at hv
    cases hm : (NewMemoryPolicyStorage.stores ps).storage k with
    | none => rw [hm] at hv; simp at hv
    | some w =>
      rw [hm] at hv
      simp only [Prod.mk.injEq, and_true] at hv
      rw [← hv]
      exact h w hm
  · intro v hv
    have h := memorySessionStorage.stores_no_zero_session ss NewMemorySessionStorage
      (by intro j w hj; simp [NewMemorySessionStorage] at hj) k
    unfold memorySessionStorage.Get at hv
    cases hm : (NewMemorySessionStorage.stores ss).storage k with
    | none => rw [hm] at hv; simp at hv
    | some w =>
      rw [hm] at hv
      simp only [Prod.mk.injEq, and_true] at hv
      rw [← hv]
      exact h w hm

/-- The statement of C36 after two calls of `Store`, one of them with the zero value. -/
theorem memory_storages_hold_no_empty_record_witness :
    (NewMemoryPolicyStorage.stores
        [(lit "k", examplePolicyRecord), (lit "j", StoredPolicy.zero)]).Get (lit "k") =
      (examplePolicyRecord, true) ∧ examplePolicyRecord ≠ StoredPolicy.zero ∧
    (NewMemorySessionStorage.stores
        [(lit "k", exampleSessionRecord), (lit "k", StoredSession.zero)]).Get (lit "k") =
      (StoredSession.zero, false) :=
  ⟨by decide,
    (memory_storages_hold_no_empty_record
      [(lit "k", examplePolicyRecord), (lit "j", StoredPolicy.zero)] [] (lit "k")).1
      examplePolicyRecord (by decide),
    by decide⟩

end storage

namespace cli

/-- C37 fails on `shadowingApp`, where "start" names a command without a handler
behind one with a handler: `Run` calls the handler of the first and returns its
nil error. It fails on `helpNamedApp` too, whose command without a handler is
named "--help": `Run` shows the help and returns the nil error. -/
theorem Run_passes_by_a_command_without_handler :
    ((∃ c ∈ shadowingApp.Commands, c.Name = lit "start" ∧ c.Handler.isNone = true) ∧
      shadowingApp.Run [lit "start"] = { calls := [(0, [])], helps := 0, err := none }) ∧
    ((∃ c ∈ helpNamedApp.Commands, c.Name = lit "--help" ∧ c.Handler.isNone = true) ∧
      helpNamedApp.Run [lit "--help"] = { calls := [], helps := 1, err := none }) := by
  refine ⟨⟨⟨{ Name := lit "start", Usage := lit "usage", Handler := none }, ?_, rfl, rfl⟩,
      by decide⟩,
    ⟨⟨{ Name := lit "--help", Usage := lit "usage", Handler := none }, ?_, rfl, rfl⟩,
      by decide⟩⟩
  · simp [shadowingApp]
  · simp [helpNamedApp]

/-- C37 as amended: when the first argument is neither "-h" nor "--help" and the
first command of that name in `Commands` has no handler, `Run` calls no handler,
shows no help and returns the error "<name> does not have a handler.". -/
theorem Run_reports_the_first_command_without_handler (a : App) (cmd : GoString)
    (cmdArgs : List GoString) (before : List Command) (c : Command) (after : List Command)
    (h1 : cmd ≠ lit "-h") (h2 : cmd ≠ lit "--help")
    (hcs : a.Commands = before ++ c :: after) (hb : ∀ d ∈ before, d.Name ≠ cmd)
    (hc : c.Name = cmd) (hh : c.Handler = none) :
    a.Run (cmd :: cmdArgs) =
      { calls := [], helps := 0, err := some (cmd ++ lit " does not have a handler.") } := by
  have := executeIfCommand_loop_first cmd cmdArgs 0 before c after hb hc
  simp only [App.Run, h1, h2, or_self, if_false, App.executeIfCommand, hcs, this,
    executeCommand, hh, true_or, if_true, hc]

/-- The statement of C37 as amended on `bareApp`. -/
theorem Run_reports_the_first_command_without_handler_witness :
    bareApp.Run [lit "start", lit "now"] =
      { calls := [], helps := 0, err := some (lit "start does not have a handler.") } :=
  Run_reports_the_first_command_without_handler bareApp (lit "start") [lit "now"] []
    { Name := lit "start", Usage := lit "usage", Handler := none } []
    (by decide) (by decide) rfl (by simp) rfl rfl

end cli

namespace ui

theorem getShortcutInput_loop_valid (n : Nat) (c : cliUI) (stdin : List Byte)
    (tmp : Option GoString) (sc : GoString)
    (h : (getShortcutInput.loop n c stdin tmp).shortcut = some sc) :
    policies.ShortcutValid sc = true := by
  induction n generalizing c stdin with
  | zero => simp [getShortcutInput.loop] at h
  | succ n ih =>
    unfold getShortcutInput.loop at h
    cases hg : cli.GetInput stdin with
    | waiting => rw [hg] at h; simp at h
    | error msg => rw [hg] at h; simp at h
    | word inp rest =>
      rw [hg] at h
      simp only at h
      cases hv : policies.ShortcutValid inp with
      | true =>
        simp only [hv, if_true, Option.some.injEq] at h
        rw [← h]
        exact hv
      | false =>
        simp only [hv, Bool.false_eq_true, if_false] at h
        split at h
        · exact ih _ _ h
        · simp at h

/-- C33: whatever the bound on its iterations, every string that
`getShortcutInput` returns satisfies `ShortcutValid`, and for every string that
satisfies `ShortcutValid` the error of `ByShortcut` is nil: the branch
`log.Fatal(err)` at the start of `handlePrompt` is never taken. -/
theorem handlePrompt_never_gets_an_unknown_shortcut :
    (∀ (n : Nat) (c : cliUI) (stdin : List Byte) (tmp : Option GoString) (sc : GoString),
      (getShortcutInput.loop n c stdin tmp).shortcut = some sc →
        policies.ShortcutValid sc = true) ∧
    (∀ (c : cliUI) (stdin : List Byte) (tmp : Option GoString) (sc : GoString),
      (c.getShortcutInput stdin tmp).shortcut = some sc →
        policies.ShortcutValid sc = true ∧ (policies.ByShortcut sc).2 = none) ∧
    (∀ sc : GoString, policies.ShortcutValid sc = true → (policies.ByShortcut sc).2 = none) := by
  have h3 : ∀ sc : GoString, policies.ShortcutValid sc = true →
      (policies.ByShortcut sc).2 = none := by
    intro sc hv
    obtain ⟨p, _, _, hb⟩ := ByShortcut_of_valid sc hv
    rw [hb]
  refine ⟨getShortcutInput_loop_valid, fun c stdin tmp sc h => ?_, h3⟩
  have hv := getShortcutInput_loop_valid _ c stdin tmp sc h
  exact ⟨hv, h3 sc hv⟩

/-- The statement of C33 on the input lines "x" and "d". -/
theorem handlePrompt_never_gets_an_unknown_shortcut_witness :
    (oneRequest.getShortcutInput (lit "x\nd\n") none).shortcut = some (lit "d") ∧
      policies.ShortcutValid (lit "d") = true ∧ (policies.ByShortcut (lit "d")).2 = none :=
  ⟨by decide, handlePrompt_never_gets_an_unknown_shortcut.2.1 oneRequest (lit "x\nd\n") none
    (lit "d") (by decide)⟩

theorem cliUI.writePrompt_status (c : cliUI) (tmp : Option GoString) :
    (c.writePrompt tmp).status = c.status ∨ (c.writePrompt tmp).status = Status.fatal := by
  unfold cliUI.writePrompt
  cases hq : c.queue with
  | nil => exact Or.inl rfl
  | cons r rest =>
    simp only
    cases hf : r.FileURI tmp with
    | some r2 => exact Or.inl rfl
    | none => exact Or.inr rfl

theorem cliUI.updateDisplayedPrompt_status (c : cliUI) (tmp : Option GoString) :
    (c.updateDisplayedPrompt tmp).status = c.status ∨
      (c.updateDisplayedPrompt tmp).status = Status.fatal := by
  have h := cliUI.writePrompt_status c tmp
  unfold cliUI.updateDisplayedPrompt
  split
  · exact Or.inl rfl
  · simp only
    split
    · exact h
    · exact h

theorem cliUI.handleQueue_status (c : cliUI) (tmp : Option GoString) :
    (c.handleQueue tmp).status = c.status ∨ (c.handleQueue tmp).status = Status.fatal := by
  have h1 := cliUI.writePrompt_status c tmp
  have h2 := cliUI.updateDisplayedPrompt_status (c.render tmp) tmp
  unfold cliUI.handleQueue
  simp only [cliUI.render] at h2 ⊢
  split
  · split
    · exact h1
    · split
      · exact h1
      · rcases h2 with h2 | h2
        · rcases h1 with h1 | h1
          · exact Or.inl (h2.trans h1)
          · exact Or.inr (h2.trans h1)
        · exact Or.inr h2
  · exact h1

theorem step_status (c c2 : cliUI) (e : Event) (hc : Ready c) (hs : step c e = some c2) :
    c2.status = Status.running ∨ c2.status = Status.fatal := by
  cases e with
  | Handle req res tmp =>
    simp only [step] at hs
    split at hs
    · rename_i hrun
      injection hs with hs
      subst hs
      have := cliUI.handleQueue_status
        { c with queue := c.queue ++ [{ Req := req, Res := res, File := none }] } tmp
      unfold cliUI.Handle
      rcases this with h | h
      · exact Or.inl (h.trans hrun)
      · exact Or.inr h
    · exact absurd hs (by simp)
  | Input inp removeOk tmp =>
    cases hv : policies.ShortcutValid inp with
    | true =>
      simp only [step, hv, if_true] at hs
      split at hs
      · rename_i hst
        injection hs with hs
        obtain ⟨p, _, _, hb⟩ := ByShortcut_of_valid inp hv
        obtain ⟨r, rest, f, hq, hf, _⟩ := Ready_head c hc hst.1 hst.2
        have hserved := cliUI.handlePrompt_served
          (cliUI.mk c.queue (c.prompts - 1) c.sent c.removed c.status) inp removeOk tmp
          p r rest f hb hq hf
        rw [hs] at hserved
        rw [hserved]
        cases removeOk with
        | false => exact Or.inr rfl
        | true =>
          simp only [if_true]
          have hs0 : (cliUI.mk rest (c.prompts - 1) (c.sent ++ [(r.Res, p)]) (c.removed ++ [f])
              c.status).status = Status.running := hst.1
          generalize (cliUI.mk rest (c.prompts - 1) (c.sent ++ [(r.Res, p)]) (c.removed ++ [f])
              c.status) = c3 at hs0 ⊢
          have h1 := cliUI.writePrompt_status c3 tmp
          have h2 := cliUI.updateDisplayedPrompt_status (c3.writePrompt tmp) tmp
          simp only [cliUI.render]
          split
          · split
            · rename_i hr
              rcases h2 with h2 | h2
              · exact Or.inl (h2.trans hr)
              · exact Or.inr h2
            · rcases h1 with h1 | h1
              · exact Or.inl (h1.trans hs0)
              · exact Or.inr h1
          · exact Or.inl hs0
      · exact absurd hs (by simp)
    | false =>
      simp only [step, hv, Bool.false_eq_true, if_false] at hs
      split at hs
      · rename_i hst
        injection hs with hs
        subst hs
        rcases cliUI.writePrompt_status c tmp with h | h
        · exact Or.inl (h.trans hst.1)
        · exact Or.inr h
      · exact absurd hs (by simp)
  | InputError =>
    simp only [step] at hs
    split at hs
    · injection hs with hs
      subst hs
      exact Or.inr rfl
    · exact absurd hs (by simp)

theorem run_status (evs : List Event) (c c2 : cliUI) (hc : Ready c)
    (h0 : c.status = Status.running ∨ c.status = Status.fatal) (hr : run c evs = some c2) :
    c2.status = Status.running ∨ c2.status = Status.fatal := by
  induction evs generalizing c with
  | nil =>
    simp only [run] at hr
    injection hr with hr
    subst hr
    exact h0
  | cons e es ih =>
    simp only [run] at hr
    cases hs : step c e with
    | none => rw [hs] at hr; exact absurd hr (by simp)
    | some c1 =>
      rw [hs] at hr
      exact ih c1 (Ready_step c c1 e hc hs) (step_status c c1 e hc hs) hr

/-- C34: in every state reached by a run from `NewCli()` the process has not
panicked; while it runs, a `handlePrompt` waits only on a queue that is not
empty and whose head has its file, and none waits on the empty queue. -/
theorem handlePrompt_finds_the_head_and_its_file (evs : List Event) (c : cliUI)
    (h : run NewCli evs = some c) :
    c.status ≠ Status.panicked ∧
    (c.status = Status.running → 0 < c.prompts →
      ∃ r rest f, c.queue = r :: rest ∧ r.File = some f) ∧
    (c.status = Status.running → c.queue = [] → c.prompts = 0) := by
  have hr := Ready_run evs NewCli c Ready_NewCli h
  refine ⟨?_, fun hrun hp => ?_, fun hrun hq => ?_⟩
  · rcases run_status evs NewCli c Ready_NewCli (Or.inl rfl) h with h1 | h1 <;> rw [h1] <;> decide
  · obtain ⟨r, rest, f, hq, hf, _⟩ := Ready_head c hr hrun hp
    exact ⟨r, rest, f, hq, hf⟩
  · have := hr hrun
    rw [hq] at this
    exact this

/-- The statement of C34 on `exampleRun`. -/
theorem handlePrompt_finds_the_head_and_its_file_witness :
    run NewCli exampleRun = some exampleEnd ∧ exampleEnd.status ≠ Status.panicked ∧
      ∃ r rest f, exampleEnd.queue = r :: rest ∧ r.File = some f :=
  ⟨by decide, (handlePrompt_finds_the_head_and_its_file exampleRun exampleEnd (by decide)).1,
    (handlePrompt_finds_the_head_and_its_file exampleRun exampleEnd (by decide)).2.1
      (by decide) (by decide)⟩

/-- C31 fails on both failures. When `os.Remove` fails after the answer "d", the
decision is sent and the process leaves through `log.Fatal`: the head is not
popped and the second request is never reviewed. When `ioutil.TempFile` fails
in `Handle`, the process leaves through `log.Fatal` before any decision. -/
theorem a_file_failure_ends_the_process :
    run NewCli [Event.Handle actions.testAction 1 (some (lit "f1")),
        Event.Handle actions.testsAction 2 none,
        Event.Input (lit "d") false (some (lit "f2"))] = some removeFailed ∧
    removeFailed.status = Status.fatal ∧ removeFailed.waiting = [1, 2] ∧
    step removeFailed (Event.Input (lit "a") true (some (lit "f2"))) = none ∧
    run NewCli [Event.Handle actions.testAction 1 none] = some createFailed ∧
    createFailed.status = Status.fatal ∧ createFailed.sent = [] ∧
    step createFailed (Event.Input (lit "d") true none) = none := by
  decide

theorem cliUI.writePrompt_tail (c : cliUI) (tmp : Option GoString) :
    (c.writePrompt tmp).queue.tail = c.queue.tail := by
  unfold cliUI.writePrompt
  cases hq : c.queue with
  | nil => simp [hq]
  | cons r rest =>
    simp only
    cases hf : r.FileURI tmp with
    | some r2 => simp
    | none => simp [hq]

theorem cliUI.updateDisplayedPrompt_tail (c : cliUI) (tmp : Option GoString) :
    (c.updateDisplayedPrompt tmp).queue.tail = c.queue.tail := by
  have h := cliUI.writePrompt_tail c tmp
  unfold cliUI.updateDisplayedPrompt
  split
  · rfl
  · simp only
    split
    · exact h
    · exact h

theorem cliUI.handleQueue_tail (c : cliUI) (tmp : Option GoString) :
    (c.handleQueue tmp).queue.tail = c.queue.tail := by
  have h1 := cliUI.writePrompt_tail c tmp
  have h2 := cliUI.updateDisplayedPrompt_tail (c.render tmp) tmp
  unfold cliUI.handleQueue
  simp only [cliUI.render] at h2 ⊢
  split
  · split
    · exact h1
    · split
      · exact h1
      · exact h2.trans h1
  · exact h1

theorem HeadOnly_step (c c2 : cliUI) (e : Event) (hc : Ready c) (ht : HeadOnly c)
    (hs : step c e = some c2) : HeadOnly c2 := by
  cases e with
  | Handle req res tmp =>
    simp only [step] at hs
    split at hs
    · injection hs with hs
      subst hs
      intro r hr
      unfold cliUI.Handle at hr
      rw [cliUI.handleQueue_tail] at hr
      simp only at hr
      cases hq : c.queue with
      | nil => rw [hq] at hr; simp at hr
      | cons r0 rest =>
        rw [hq] at hr
        simp only [List.cons_append, List.tail_cons, List.mem_append, List.mem_singleton] at hr
        rcases hr with hr | hr
        · exact ht r (by rw [hq]; exact hr)
        · rw [hr]
    · exact absurd hs (by simp)
  | Input inp removeOk tmp =>
    cases hv : policies.ShortcutValid inp with
    | true =>
      simp only [step, hv, if_true] at hs
      split at hs
      · rename_i hst
        injection hs with hs
        obtain ⟨p, _, _, hb⟩ := ByShortcut_of_valid inp hv
        obtain ⟨r, rest, f, hq, hf, _⟩ := Ready_head c hc hst.1 hst.2
        have hserved := cliUI.handlePrompt_served
          (cliUI.mk c.queue (c.prompts - 1) c.sent c.removed c.status) inp removeOk tmp
          p r rest f hb hq hf
        rw [hs] at hserved
        rw [hserved]
        have hrest : ∀ x ∈ rest.tail, x.File = none := by
          intro x hx
          apply ht x
          rw [hq]
          exact List.mem_of_mem_tail hx
        cases removeOk with
        | false => exact ht
        | true =>
          simp only [if_true]
          have hq0 : (cliUI.mk rest (c.prompts - 1) (c.sent ++ [(r.Res, p)]) (c.removed ++ [f])
              c.status).queue = rest := rfl
          generalize (cliUI.mk rest (c.prompts - 1) (c.sent ++ [(r.Res, p)]) (c.removed ++ [f])
              c.status) = c3 at hq0 ⊢
          have h1 := cliUI.writePrompt_tail c3 tmp
          have h2 := cliUI.updateDisplayedPrompt_tail (c3.writePrompt tmp) tmp
          simp only [cliUI.render]
          intro x hx
          apply hrest x
          split at hx
          · split at hx
            · rw [h2, h1, hq0] at hx
              exact hx
            · rw [h1, hq0] at hx
              exact hx
          · rw [hq0] at hx
            exact hx
      · exact absurd hs (by simp)
    | false =>
      simp only [step, hv, Bool.false_eq_true, if_false] at hs
      split at hs
      · injection hs with hs
        subst hs
        intro r hr
        rw [cliUI.render, cliUI.writePrompt_tail] at hr
        exact ht r hr
      · exact absurd hs (by simp)
  | InputError =>
    simp only [step] at hs
    split at hs
    · injection hs with hs
      subst hs
      exact ht
    · exact absurd hs (by simp)

theorem HeadOnly_run (evs : List Event) (c c2 : cliUI) (hc : Ready c) (ht : HeadOnly c)
    (hr : run c evs = some c2) : HeadOnly c2 := by
  induction evs generalizing c with
  | nil =>
    simp only [run] at hr
    injection hr with hr
    subst hr
    exact ht
  | cons e es ih =>
    simp only [run] at hr
    cases hs : step c e with
    | none => rw [hs] at hr; exact absurd hr (by simp)
    | some c1 =>
      rw [hs] at hr
      exact ih c1 (Ready_step c c1 e hc hs) (HeadOnly_step c c1 e hc ht hs) hr

theorem HeadOnly_NewCli : HeadOnly NewCli := by
  intro r hr
  simp [NewCli] at hr

/-- C31 as amended: in every running state reached from `NewCli()`, a valid shortcut
answered while `os.Remove` fails sends the decision to the head and then stops
the process, the queue unchanged; a valid shortcut answered while the file of
the next request cannot be made sends the decision to the head, pops it and
then stops the process, unless no request is left; `Handle` on the empty queue
stops the process with nothing sent when the file cannot be made; and a
stopped process takes no further step. -/
theorem a_file_failure_stops_the_review (evs : List Event) (c : cliUI)
    (h : run NewCli evs = some c) (hrun : c.status = Status.running) :
    (∀ sc tmp c2, policies.ShortcutValid sc = true →
      step c (Event.Input sc false tmp) = some c2 →
        ∃ r rest, c.queue = r :: rest ∧
          c2.sent = c.sent ++ [(r.Res, (policies.ByShortcut sc).1)] ∧
          c2.queue = c.queue ∧ c2.status = Status.fatal) ∧
    (∀ sc c2, policies.ShortcutValid sc = true →
      step c (Event.Input sc true none) = some c2 →
        ∃ r rest, c.queue = r :: rest ∧
          c2.sent = c.sent ++ [(r.Res, (policies.ByShortcut sc).1)] ∧
          c2.queue = rest ∧ c2.prompts = 0 ∧
          (rest = [] → c2.status = Status.running) ∧
          (rest ≠ [] → c2.status = Status.fatal)) ∧
    (∀ req res, c.queue = [] →
      (c.Handle req res none).status = Status.fatal ∧ (c.Handle req res none).sent = c.sent ∧
        (c.Handle req res none).prompts = 0) ∧
    (∀ c2 e, c2.status = Status.fatal → step c2 e = none) := by
  have hr := Ready_run evs NewCli c Ready_NewCli h
  have ht := HeadOnly_run evs NewCli c Ready_NewCli HeadOnly_NewCli h
  refine ⟨fun sc tmp c2 hv hs => ?_, fun sc c2 hv hs => ?_, fun req res hq => ?_,
    fun c2 e h2 => step_stopped c2 e (by rw [h2]; decide)⟩
  · simp only [step, hv, if_true] at hs
    split at hs
    · rename_i hst
      injection hs with hs
      obtain ⟨p, _, _, hb⟩ := ByShortcut_of_valid sc hv
      obtain ⟨r, rest, f, hq, hf, _⟩ := Ready_head c hr hst.1 hst.2
      have hserved := cliUI.handlePrompt_served
        (cliUI.mk c.queue (c.prompts - 1) c.sent c.removed c.status) sc false tmp
        p r rest f hb hq hf
      rw [hs] at hserved
      rw [hserved, hb]
      exact ⟨r, rest, hq, rfl, rfl, rfl⟩
    · exact absurd hs (by simp)
  · simp only [step, hv, if_true] at hs
    split at hs
    · rename_i hst
      injection hs with hs
      obtain ⟨p, _, _, hb⟩ := ByShortcut_of_valid sc hv
      obtain ⟨r, rest, f, hq, hf, hp1⟩ := Ready_head c hr hst.1 hst.2
      cases rest with
      | nil =>
        have hserved := cliUI.handlePrompt_served
          (cliUI.mk c.queue (c.prompts - 1) c.sent c.removed c.status) sc true none
          p r [] f hb hq hf
        rw [hs] at hserved
        rw [hserved, hb]
        refine ⟨r, [], hq, ?_⟩
        simp [hp1, hrun]
      | cons r2 rest2 =>
        have hserved := cliUI.handlePrompt_served
          (cliUI.mk c.queue (c.prompts - 1) c.sent c.removed c.status) sc true none
          p r (r2 :: rest2) f hb hq hf
        rw [hs] at hserved
        have hf2 : r2.File = none := by
          apply ht r2
          rw [hq]
          simp
        have hw := cliUI.writePrompt_no_file
          (cliUI.mk (r2 :: rest2) (c.prompts - 1) (c.sent ++ [(r.Res, p)]) (c.removed ++ [f])
            c.status) none r2 rest2 rfl hf2
        simp only at hw
        simp only [if_true, List.length_cons, Nat.zero_lt_succ, cliUI.render, hw] at hserved
        rw [hserved, hb]
        refine ⟨r, r2 :: rest2, hq, ?_⟩
        simp [hp1]
    · exact absurd hs (by simp)
  · have h0 := hr hrun
    rw [hq] at h0
    simp only at h0
    unfold cliUI.Handle cliUI.handleQueue cliUI.render
    rw [cliUI.writePrompt_no_file _ none { Req := req, Res := res, File := none } []
      (by simp [hq]) rfl]
    simp [h0]

/-- The statement of C31 as amended on `twoRequests`, answered "d" while the file
of the second request cannot be made. -/
theorem a_file_failure_stops_the_review_witness :
    run NewCli [Event.Handle actions.testAction 1 (some (lit "f1")),
      Event.Handle actions.testsAction 2 none] = some twoRequests ∧
    step twoRequests (Event.Input (lit "d") true none) = some popFailed ∧
    ∃ r rest, twoRequests.queue = r :: rest ∧
      popFailed.sent = twoRequests.sent ++ [(r.Res, (policies.ByShortcut (lit "d")).1)] ∧
      popFailed.queue = rest ∧ popFailed.prompts = 0 ∧
      (rest = [] → popFailed.status = Status.running) ∧
      (rest ≠ [] → popFailed.status = Status.fatal) :=
  ⟨by decide, by decide,
    (a_file_failure_stops_the_review [Event.Handle actions.testAction 1 (some (lit "f1")),
      Event.Handle actions.testsAction 2 none] twoRequests (by decide) (by decide)).2.1
      (lit "d") popFailed (by decide) (by decide)⟩

end ui

theorem strings.foldl_eq (sep : GoString) (rest : List GoString) (e : GoString) :
    rest.foldl (fun b s => b ++ sep ++ s) e = e ++ (rest.map (fun s => sep ++ s)).flatten := by
  induction rest generalizing e with
  | nil => simp
  | cons x xs ih =>
    simp only [List.foldl_cons, List.map_cons, List.flatten_cons]
    rw [ih]
    simp only [List.append_assoc]

theorem strings.intercalate_cons (sep : GoString) (rest : List GoString) (e : GoString) :
    sep.intercalate (e :: rest) = e ++ (rest.map (fun s => sep ++ s)).flatten := by
  induction rest generalizing e with
  | nil => simp [List.intercalate]
  | cons x xs ih =>
    have := ih x
    simp only [List.intercalate, List.intersperse, List.flatten_cons, List.map_cons] at this ⊢
    rw [this]
    simp only [List.append_assoc]

theorem strings.Join_eq_intercalate (elems : List GoString) (sep : GoString) :
    strings.Join elems sep = sep.intercalate elems := by
  match elems with
  | [] => rfl
  | [e] => simp [strings.Join, List.intercalate]
  | e :: x :: rest =>
    rw [strings.intercalate_cons]
    simp only [strings.Join]
    exact strings.foldl_eq sep (x :: rest) e

namespace actions

theorem Command.String_of_args (c : Command) (h : c.lenArgs ≠ 0) :
    c.String = (lit " ").intercalate (c.Name :: c.elems) := by
  rw [strings.intercalate_cons]
  simp only [Command.String, h, if_false, strings.Join_eq_intercalate]
  cases he : c.elems with
  | nil =>
    exfalso
    apply h
    unfold Command.lenArgs
    unfold Command.elems at he
    cases ha : c.Args with
    | none => rfl
    | some l => rw [ha] at he; simp only at he; simp [he]
  | cons x xs =>
    rw [strings.intercalate_cons]
    simp [List.append_assoc]

theorem Action.length_Marshal_split (plugin : GoString) :
    (json.Marshal ⟨splitName, plugin⟩).length = (json.Marshal ⟨spacedName, plugin⟩).length + 11 := by
  have h1 : (json.marshalCommand splitName).length = 25 := by decide
  have h2 : (json.marshalCommand spacedName).length = 14 := by decide
  simp only [json.Marshal, List.length_append, h1, h2]
  omega

/-- C35: `String()` of a command is its name when it has no arguments and else the
name and the arguments joined by single spaces; the commands `spacedName` and
`splitName` differ in name and arguments and in the fingerprint of their action
for every plugin, and both have the `String()` "a b". -/
theorem String_does_not_identify_the_command :
    (∀ c : Command, c.lenArgs = 0 → c.String = c.Name) ∧
    (∀ c : Command, c.lenArgs ≠ 0 → c.String = (lit " ").intercalate (c.Name :: c.elems)) ∧
    spacedName.Name ≠ splitName.Name ∧ spacedName.Args ≠ splitName.Args ∧
    spacedName.String = lit "a b" ∧ splitName.String = lit "a b" ∧
    (∀ plugin : GoString,
      (Action.mk spacedName plugin).Hash ≠ (Action.mk splitName plugin).Hash) := by
  refine ⟨fun c h => by simp [Command.String, h], Command.String_of_args, by decide, by decide,
    by decide, by decide, fun plugin h => ?_⟩
  have hl := congrArg List.length h
  rw [Action.length_Hash, Action.length_Hash, Action.length_Marshal_split] at hl
  omega

/-- The statement of C35 on `splitName`. -/
theorem String_does_not_identify_the_command_witness :
    splitName.lenArgs ≠ 0 ∧
      splitName.String = (lit " ").intercalate (splitName.Name :: splitName.elems) :=
  ⟨by decide, String_does_not_identify_the_command.2.1 splitName (by decide)⟩

end actions

/-! ## Theorems: the height of the prompt -/

theorem strconv.lowerhex_ne_newline (i : Nat) : strconv.lowerhex.getD i 0 ≠ (10 : Byte) := by
  by_cases h : i < 16
  · interval_cases i <;> decide
  · rw [List.getD_eq_default _ _ (by
      have : strconv.lowerhex.length = 16 := by decide
      omega)]
    decide

theorem utf8.high_byte_ne_newline (a x : Nat) (h : a.testBit 7 = true) :
    (Fin.ofNat (a ||| x) : Byte) ≠ 10 := by
  intro h2
  have h3 : (a ||| x) % 2 ^ 8 = 10 := congrArg Fin.val h2
  have h4 := Nat.testBit_mod_two_pow (a ||| x) 8 7
  rw [h3, Nat.testBit_or, h] at h4
  simp only [Bool.true_or, Bool.and_true] at h4
  have h5 : Nat.testBit 10 7 = false := by decide
  rw [h5] at h4
  simp at h4

theorem utf8.AppendRune_newline (r : Nat) (h : r ≠ 10) : (10 : Byte) ∉ utf8.AppendRune r := by
  unfold utf8.AppendRune
  have e1 := utf8.high_byte_ne_newline 0x80
  have e2 := utf8.high_byte_ne_newline 0xC0
  have e3 := utf8.high_byte_ne_newline 0xE0
  have e4 := utf8.high_byte_ne_newline 0xF0
  split
  · rename_i h1
    simp only [List.mem_singleton]
    intro h2
    have h3 : r % 256 = 10 := (congrArg Fin.val h2).symm
    omega
  · split
    · simp only [List.mem_cons, List.mem_singleton, List.not_mem_nil, or_false, not_or]
      exact ⟨fun h2 => e2 _ (by decide) h2.symm, fun h2 => e1 _ (by decide) h2.symm⟩
    · split
      · decide
      · split
        · simp only [List.mem_cons, List.mem_singleton, List.not_mem_nil, or_false, not_or]
          exact ⟨fun h2 => e3 _ (by decide) h2.symm, fun h2 => e1 _ (by decide) h2.symm,
            fun h2 => e1 _ (by decide) h2.symm⟩
        · simp only [List.mem_cons, List.mem_singleton, List.not_mem_nil, or_false, not_or]
          exact ⟨fun h2 => e4 _ (by decide) h2.symm, fun h2 => e1 _ (by decide) h2.symm,
            fun h2 => e1 _ (by decide) h2.symm, fun h2 => e1 _ (by decide) h2.symm⟩

theorem strconv.appendEscapedRune_newline (table : Nat → Bool) (r : Nat) :
    (10 : Byte) ∉ strconv.appendEscapedRune table r := by
  have hx := strconv.lowerhex_ne_newline
  unfold strconv.appendEscapedRune
  by_cases h1 : r = 0x22 ∨ r = 0x5C
  · rw [if_pos h1]
    rcases h1 with h | h <;> subst h <;> decide
  rw [if_neg h1]
  by_cases h2 : strconv.IsPrint table r = true
  · rw [if_pos h2]
    apply utf8.AppendRune_newline
    intro h3
    subst h3
    have h4 : strconv.IsPrint table 10 = false := rfl
    rw [h4] at h2
    exact absurd h2 (by decide)
  rw [if_neg h2]
  by_cases h3 : r = 0x07
  · rw [if_pos h3]; decide
  rw [if_neg h3]
  by_cases h4 : r = 0x08
  · rw [if_pos h4]; decide
  rw [if_neg h4]
  by_cases h5 : r = 0x0C
  · rw [if_pos h5]; decide
  rw [if_neg h5]
  by_cases h6 : r = 0x0A
  · rw [if_pos h6]; decide
  rw [if_neg h6]
  by_cases h7 : r = 0x0D
  · rw [if_pos h7]; decide
  rw [if_neg h7]
  by_cases h8 : r = 0x09
  · rw [if_pos h8]; decide
  rw [if_neg h8]
  by_cases h9 : r = 0x0B
  · rw [if_pos h9]; decide
  rw [if_neg h9]
  have hmap : ∀ (n : Nat) (l : List Nat),
      (10 : Byte) ∉ l.map fun s => strconv.lowerhex.getD (n >>> s &&& 0xF) 0 := by
    intro n l hm
    obtain ⟨s, _, h⟩ := List.mem_map.mp hm
    exact hx _ h
  by_cases h10 : r < 0x20 ∨ r = 0x7F
  · rw [if_pos h10]
    simp only [List.mem_append, List.mem_cons, List.mem_singleton, List.not_mem_nil, or_false,
      not_or]
    exact ⟨by decide, fun h => hx _ h.symm, fun h => hx _ h.symm⟩
  rw [if_neg h10]
  by_cases h11 : (!utf8.ValidRune r) = true
  · rw [if_pos h11]
    simp only [List.mem_append, not_or]
    exact ⟨by decide, hmap _ _⟩
  rw [if_neg h11]
  by_cases h12 : r < 0x10000
  · rw [if_pos h12]
    simp only [List.mem_append, not_or]
    exact ⟨by decide, hmap _ _⟩
  · rw [if_neg h12]
    simp only [List.mem_append, not_or]
    exact ⟨by decide, hmap _ _⟩

theorem strconv.appendQuotedWith_loop_newline (table : Nat → Bool) (n : Nat) (s : GoString) :
    (10 : Byte) ∉ strconv.appendQuotedWith.loop table n s := by
  induction n generalizing s with
  | zero => simp [strconv.appendQuotedWith.loop]
  | succ n ih =>
    cases s with
    | nil => simp [strconv.appendQuotedWith.loop]
    | cons b rest =>
      have hx := strconv.lowerhex_ne_newline
      unfold strconv.appendQuotedWith.loop
      generalize (if b.val < 0x80 then (b.val, 1) else utf8.DecodeRuneInString (b :: rest)) = d
      by_cases hd : d.2 = 1 ∧ d.1 = utf8.RuneError
      · simp only [hd, and_self, if_true, List.mem_append, List.mem_cons, List.mem_singleton,
          List.not_mem_nil, or_false, not_or]
        exact ⟨⟨by decide, fun h2 => hx _ h2.symm, fun h2 => hx _ h2.symm⟩, ih _⟩
      · simp only [hd, if_false, List.mem_append, not_or]
        exact ⟨strconv.appendEscapedRune_newline table _, ih _⟩

theorem strconv.Quote_newline (table : Nat → Bool) (s : GoString) :
    strings.Count (strconv.Quote table s) 10 = 0 := by
  unfold strings.Count
  apply List.count_eq_zero_of_not_mem
  simp only [strconv.Quote, List.mem_append, List.mem_singleton, not_or]
  exact ⟨⟨by decide, strconv.appendQuotedWith_loop_newline table _ s⟩, by decide⟩

theorem utf8.AppendRune_count (r : Nat) :
    strings.Count (utf8.AppendRune r) 10 = if r = 10 then 1 else 0 := by
  unfold strings.Count
  by_cases h : r = 10
  · subst h
    decide
  · rw [if_neg h]
    exact List.count_eq_zero_of_not_mem (utf8.AppendRune_newline r h)

theorem strings.Count_append (s t : GoString) (b : Byte) :
    strings.Count (s ++ t) b = strings.Count s b + strings.Count t b := by
  simp [strings.Count, List.count_append]

namespace ui

theorem cliUI.writePrompt_output_of_name (table : Nat → Bool) (c : cliUI) (tmp : Option GoString)
    (r : requestResponse) (rest : List requestResponse) (f : GoString)
    (hq : c.queue = r :: rest)
    (hf : r.File = some f ∨ (r.File = none ∧ tmp = some f)) :
    cliUI.writePrompt.output table c tmp =
      cli.CursorBottom ++ cli.CursorLeft ++ cli.CursorUp (promptHeight - 1) ++
        (cli.Color.Format cli.GreenColor (lit "1. NEW REQUEST" ++ utf8.AppendRune c.queue.length) ++
          lit " By " ++ strconv.Quote table r.Req.Plugin ++ lit ":\n\n") ++
        (lit "     " ++
          cli.Color.Format cli.WhiteColor
            (strconv.Quote table (fmt.truncateString r.Req.Command.String 100)) ++ lit "\n") ++
        (lit "Full command at " ++ requestResponse.FileURI.text f ++ lit "\n\n") ++
        (decisionString policies.Deny ++ lit "/" ++ decisionString policies.Allow ++ lit "/" ++
          decisionString policies.AllowAlways ++ lit ": ") := by
  unfold cliUI.writePrompt.output
  rcases hf with hf | ⟨hf, ht⟩
  · simp only [hq, requestResponse.FileURI, hf, Option.getD_some]
  · simp only [hq, requestResponse.FileURI, hf, ht, Option.getD_some]

/-- C32 fails on a queue of ten requests: `string(len(c.queue))` is then the line
feed, so that `writePrompt` writes six newlines, a line more than
`promptHeight`. For a head whose file name holds no newline, whatever its plugin
and its command, the text has `promptHeight` lines on a queue whose length is
not ten and `promptHeight + 1` lines on a queue of ten. -/
theorem writePrompt_writes_a_line_more_on_a_queue_of_ten (table : Nat → Bool) (c : cliUI)
    (tmp : Option GoString) (r : requestResponse) (rest : List requestResponse) (f : GoString)
    (hq : c.queue = r :: rest) (hf : r.File = some f ∨ (r.File = none ∧ tmp = some f))
    (hn : strings.Count f 10 = 0) :
    strings.Count (cliUI.writePrompt.output table c tmp) 10 + 1 =
      if c.queue.length = 10 then promptHeight + 1 else promptHeight := by
  rw [cliUI.writePrompt_output_of_name table c tmp r rest f hq hf]
  have h1 : strings.Count cli.CursorBottom 10 = 0 := by decide
  have h2 : strings.Count cli.CursorLeft 10 = 0 := by decide
  have h3 : strings.Count (cli.CursorUp (promptHeight - 1)) 10 = 0 := by decide
  have h4 : strings.Count cli.GreenColor 10 = 0 := by decide
  have h5 : strings.Count (lit "1. NEW REQUEST") 10 = 0 := by decide
  have h6 : strings.Count (lit "\x1b[0m") 10 = 0 := by decide
  have h7 : strings.Count (lit " By ") 10 = 0 := by decide
  have h8 : strings.Count (lit ":\n\n") 10 = 2 := by decide
  have h9 : strings.Count (lit "     ") 10 = 0 := by decide
  have h10 : strings.Count cli.WhiteColor 10 = 0 := by decide
  have h11 : strings.Count (lit "\n") 10 = 1 := by decide
  have h12 : strings.Count (lit "Full command at ") 10 = 0 := by decide
  have h13 : strings.Count (lit "file://") 10 = 0 := by decide
  have h14 : strings.Count (lit "\n\n") 10 = 2 := by decide
  have h15 : strings.Count (decisionString policies.Deny ++ lit "/" ++
      decisionString policies.Allow ++ lit "/" ++ decisionString policies.AllowAlways ++
      lit ": ") 10 = 0 := by decide
  simp only [strings.Count_append, cli.Color.Format, requestResponse.FileURI.text, h1, h2, h3,
    h4, h5, h6, h7, h8, h9, h10, h11, h12, h13, h14, h15, hn, strconv.Quote_newline,
    utf8.AppendRune_count]
  simp only [promptHeight]
  split <;> omega

/-- The statement of C32 on a queue of ten requests and on the queue of
`TestPromptHeight`. -/
theorem writePrompt_writes_a_line_more_on_a_queue_of_ten_witness :
    tenQueue.queue.length = 10 ∧
    strings.Count (cliUI.writePrompt.output (fun _ => true) tenQueue
      (some (lit "/tmp/1-command.txt"))) 10 + 1 = 7 ∧
    strings.Count (cliUI.writePrompt.output (fun _ => true) testQueue
      (some (lit "/tmp/1-command.txt"))) 10 + 1 = 6 :=
  ⟨by decide,
    writePrompt_writes_a_line_more_on_a_queue_of_ten (fun _ => true) tenQueue
      (some (lit "/tmp/1-command.txt"))
      { Req := ⟨⟨lit "test", none⟩, lit "testplugin"⟩, Res := 0, File := none }
      (List.replicate 9 { Req := ⟨⟨lit "test", none⟩, lit "testplugin"⟩, Res := 0, File := none })
      (lit "/tmp/1-command.txt") (by decide) (Or.inr ⟨rfl, rfl⟩) (by decide),
    writePrompt_writes_a_line_more_on_a_queue_of_ten (fun _ => true) testQueue
      (some (lit "/tmp/1-command.txt"))
      { Req := ⟨⟨lit "test", none⟩, lit "testplugin"⟩, Res := 0, File := none } []
      (lit "/tmp/1-command.txt") (by decide) (Or.inr ⟨rfl, rfl⟩) (by decide)⟩

end ui

end Backstage
